import Mathlib

/-!
Verification development for the SafePath routing backend.

The Python sources under `backend/` are shallowly embedded below:
pure numeric code becomes functions over `ℚ`, floats that may be NaN become
`Option ℚ` (`none` models NaN), fallible code returns `Except`/`Option`, and
the library shortest-path calls (networkx) are embedded as executable
best-first / relaxation algorithms following the library's documented
semantics (lazy-deletion priority queue, per-edge weight lookup defaulting
to 1 for a missing attribute, `NetworkXNoPath` on disconnection).
-/

namespace SafePath

/-- Geographic point `(lon, lat)`; the source uses the coordinate tuple itself
as the node key of the directed street graph. -/
abbrev Pt : Type := ℚ × ℚ

/-- A Python float that may be NaN: `none` models NaN, `some q` a finite value. -/
abbrev PyF : Type := Option ℚ

/-- Binary search for the integer square root (`lo² ≤ n`, searching in
`[lo, hi]`; the fuel dominates the bisection count). -/
def isqrt_go (n : ℕ) : ℕ → ℕ → ℕ → ℕ
  | 0, lo, _ => lo
  | fuel + 1, lo, hi =>
    if hi ≤ lo then lo
    else
      let mid := (lo + hi + 1) / 2
      if mid * mid ≤ n then isqrt_go n fuel mid hi else isqrt_go n fuel lo (mid - 1)

/-- Floor integer square root by bisection. -/
def isqrt (n : ℕ) : ℕ := isqrt_go n (n + 2) 0 n

/-- Model of `math.sqrt` on rationals.  Exact whenever the argument is the
square of a rational (the only case exercised by the concrete data of this
development); otherwise it is the floor-style integer square root of the
numerator and denominator, standing in for the float approximation. -/
def rat_sqrt (q : ℚ) : ℚ :=
  if q ≤ 0 then 0 else (isqrt q.num.toNat : ℚ) / (isqrt q.den : ℚ)

/-- Rational stand-in for pi, used by the model of `math.radians`. -/
def pi_q : ℚ := 355 / 113

/-- Model of `math.radians`. -/
def radians_q (d : ℚ) : ℚ := d * pi_q / 180

/-- Truncated Taylor model of `math.cos`; exact (value 1) at 0, the only
latitude at which this development evaluates it. -/
def cos_q (x : ℚ) : ℚ := 1 - x ^ 2 / 2 + x ^ 4 / 24 - x ^ 6 / 720

/-- Truncation toward zero, modelling Python `int(...)` applied to a float. -/
def int_trunc (q : ℚ) : ℚ := if 0 ≤ q then (⌊q⌋ : ℚ) else (⌈q⌉ : ℚ)

/-- NaN-absorbing addition of Python floats. -/
def pyf_add (a b : PyF) : PyF :=
  match a, b with
  | some x, some y => some (x + y)
  | _, _ => none

def k_weight_distance : String := "weight_distance"

def k_weight_risk : String := "weight_risk"

def k_weight_combined : String := "weight_combined"

def k_weight_incidents : String := "weight_incidents"

def alg_dijkstra : String := "dijkstra"

def alg_astar : String := "astar"

def alg_bellman_ford : String := "bellman_ford"

def alg_greedy : String := "greedy"

def alg_backtracking : String := "backtracking"

def alg_branch_and_bound : String := "branch_and_bound"

def msg_nan_int : String := "cannot convert float NaN to integer"

def msg_fuel : String := "model fuel exhausted"

def str_fallback : String := "fallback: Dijkstra"

def str_empty : String := ""

/-- One row of the unified CSV after coordinate parsing (`origin`/`destination`
are parsed by `_parse_coordinate`; `geometry` is kept as opaque WKT text and
`geom_bounds` models `row["geometry"].bounds`, `none` when that raises and the
endpoint-bbox fallback of `_build_graph` applies).  `harassmentRisk` and
`incidents_count` are the float columns whose NaN behaviour the code inspects,
hence they are `PyF`. -/
structure Row where
  origin : Pt
  destination : Pt
  name : String
  length : ℚ
  oneway : Bool
  geometry : String
  geom_bounds : Option (ℚ × ℚ × ℚ × ℚ)
  harassmentRisk : PyF
  cameras_count : ℚ
  incidents_count : PyF
  incidents_severity : ℚ
  risk_score : ℚ
  combined_cost : ℚ
deriving DecidableEq, Repr

/-- The weight attributes stored on an edge by `_build_graph`
(`weight_distance`, `weight_risk`, `weight_combined`, `weight_incidents`,
the last one with NaN replaced by 0 as in the source). -/
def row_weights (r : Row) : List (String × ℚ) :=
  [(k_weight_distance, r.length), (k_weight_risk, r.risk_score),
   (k_weight_combined, r.combined_cost), (k_weight_incidents, r.incidents_count.getD 0)]

/-- The non-weight attribute bundle stored on an edge. -/
structure EdgeAttrs where
  name : String
  length : ℚ
  oneway : Bool
  geometry : String
  harassmentRisk : PyF
  cameras_count : ℚ
  incidents_count : PyF
  incidents_severity : ℚ
  risk_score : ℚ
  combined_cost : ℚ
  weights : List (String × ℚ)
deriving DecidableEq, Repr

/-- A directed edge of the street graph. -/
structure Edge where
  src : Pt
  dst : Pt
  attrs : EdgeAttrs
deriving DecidableEq, Repr

/-- The edge built from a CSV row by `_build_graph` / `_build_temp_graph_for_bbox`. -/
def mk_edge (r : Row) : Edge :=
  ⟨r.origin, r.destination,
   ⟨r.name, r.length, r.oneway, r.geometry, r.harassmentRisk, r.cameras_count,
    r.incidents_count, r.incidents_severity, r.risk_score, r.combined_cost, row_weights r⟩⟩

/-- `DiGraph.add_edge`: a second edge between the same endpoints overwrites the
stored attributes in place (Python dict update keeps the adjacency position). -/
def add_edge (G : List Edge) (e : Edge) : List Edge :=
  if G.any (fun e0 => decide (e0.src = e.src ∧ e0.dst = e.dst)) then
    G.map (fun e0 => if e0.src = e.src ∧ e0.dst = e.dst then e else e0)
  else G ++ [e]

/-- Node registration in first-seen order (`DiGraph.add_node`). -/
def add_node (ns : List Pt) (p : Pt) : List Pt := if p ∈ ns then ns else ns ++ [p]

/-- The edge list of the graph built from the rows. -/
def build_edges (rows : List Row) : List Edge :=
  rows.foldl (fun G r => add_edge G (mk_edge r)) []

/-- `list(self.G.nodes())` in insertion order: per row, origin then destination. -/
def build_nodes (rows : List Row) : List Pt :=
  rows.foldl (fun ns r => add_node (add_node ns r.origin) r.destination) []

/-- The node list of an already-built edge list (used for corridor subgraphs). -/
def graph_nodes (G : List Edge) : List Pt :=
  G.foldl (fun ns e => add_node (add_node ns e.src) e.dst) []

/-- Node membership test (`node in G`). -/
def mem_graph (G : List Edge) (p : Pt) : Bool :=
  G.any (fun e => decide (e.src = p ∨ e.dst = p))

/-- `G.neighbors(u)` as the edges leaving `u`, in insertion order. -/
def successors (G : List Edge) (u : Pt) : List Edge :=
  G.filter (fun e => decide (e.src = u))

/-- `G[u][v]`: the unique stored edge between `u` and `v`, if any. -/
def edge_between (G : List Edge) (u v : Pt) : Option Edge :=
  G.find? (fun e => decide (e.src = u ∧ e.dst = v))

/-- networkx weight handling for a string weight key: the edge attribute is
read with `d.get(weight, 1)`, i.e. a missing attribute weighs 1. -/
def nx_weight (key : String) (e : Edge) : ℚ :=
  (e.attrs.weights.lookup key).getD 1

/-- Direct dictionary indexing `G[u][v][key]` as used by the advanced
algorithms: a missing edge or attribute raises KeyError, modelled by `none`. -/
def strict_weight (G : List Edge) (key : String) (u v : Pt) : Option ℚ :=
  match edge_between G u v with
  | some e => e.attrs.weights.lookup key
  | none => none

/-- The three data-driven minimum cost-per-meter ratios of `_build_graph`. -/
structure Ratios where
  combined : ℚ
  risk : ℚ
  incidents : ℚ
deriving DecidableEq, Repr

/-- One running-minimum update: `if ratio > 0 and ratio < min_ratio` with the
minimum starting at infinity (`none`). -/
def upd_min (cur : Option ℚ) (v : ℚ) : Option ℚ :=
  match cur with
  | none => if 0 < v then some v else none
  | some c => if 0 < v ∧ v < c then some v else some c

/-- One row's contribution to the three running minima (`_build_graph`,
ratio block): rows with non-positive length are skipped, and a NaN incident
count fails the `> 0` comparison, leaving that minimum unchanged. -/
def row_ratio_step (acc : Option ℚ × Option ℚ × Option ℚ) (r : Row) :
    Option ℚ × Option ℚ × Option ℚ :=
  if 0 < r.length then
    (upd_min acc.1 (r.combined_cost / r.length),
     upd_min acc.2.1 (r.risk_score / r.length),
     match r.incidents_count with
     | none => acc.2.2
     | some i => upd_min acc.2.2 (i / r.length))
  else acc

/-- The ratios computed at build time; an untouched minimum becomes 0. -/
def build_ratios (rows : List Row) : Ratios :=
  match rows.foldl row_ratio_step (none, none, none) with
  | (c, rk, inc) => ⟨c.getD 0, rk.getD 0, inc.getD 0⟩

/-- An axis-aligned bounding box. -/
structure Bbox where
  minx : ℚ
  miny : ℚ
  maxx : ℚ
  maxy : ℚ
deriving DecidableEq, Repr

/-- Per-row bbox (`row["geometry"].bounds`, falling back to the endpoint bbox). -/
def row_bounds (r : Row) : Bbox :=
  match r.geom_bounds with
  | some (a, b, c, d) => ⟨a, b, c, d⟩
  | none =>
    ⟨min r.origin.1 r.destination.1, min r.origin.2 r.destination.2,
     max r.origin.1 r.destination.1, max r.origin.2 r.destination.2⟩

/-- The bbox-overlap test of `_edges_in_bbox` (linear fallback; the spec
declares the R-tree path observationally indistinguishable). -/
def bbox_intersects (e b : Bbox) : Bool :=
  !(e.maxx < b.minx || e.minx > b.maxx || e.maxy < b.miny || e.miny > b.maxy)

/-- `_edges_in_bbox`: the candidate rows in dataframe order. -/
def edges_in_bbox (rows : List Row) (b : Bbox) : List Row :=
  rows.filter (fun r => bbox_intersects (row_bounds r) b)

/-- `_build_temp_graph_for_bbox`. -/
def build_temp_graph_for_bbox (rows : List Row) (b : Bbox) : List Edge :=
  (edges_in_bbox rows b).foldl (fun G r => add_edge G (mk_edge r)) []

/-- Squared distance in degree space, as used by `find_nearest_node`. -/
def sq_dist (a b : Pt) : ℚ := (a.1 - b.1) ^ 2 + (a.2 - b.2) ^ 2

/-- `find_nearest_node` (linear fallback; strict `<` keeps the first minimum;
`none` only for an empty node list). -/
def find_nearest_node (ns : List Pt) (p : Pt) : Option Pt :=
  ns.foldl
    (fun best n =>
      match best with
      | none => some n
      | some b => if sq_dist n p < sq_dist b p then some n else best)
    none

/-- `_degrees_buffer`: meters to degree offsets `(dx, dy)`. -/
def degrees_buffer (meters lat_ref : ℚ) : ℚ × ℚ :=
  (meters / (111000 * max (1 / 10) (cos_q (radians_q lat_ref))), meters / 111000)

/-- Straight-line meters between two points, the degree-to-meter conversion
used by the A* heuristic of `calculate_route`. -/
def straight_line_m (n1 n2 : Pt) : ℚ :=
  rat_sqrt ((n1.1 - n2.1) ^ 2 + (n1.2 - n2.2) ^ 2) * 111000

/-- The data-driven A* heuristic `h(n1, n2)` defined inside `calculate_route`
(the corridor closure and `h_full` are the same function). -/
def route_heuristic (ratios : Ratios) (weight_attr : String) (n1 n2 : Pt) : ℚ :=
  let d := straight_line_m n1 n2
  if weight_attr = k_weight_distance then d
  else if weight_attr = k_weight_combined ∧ 0 < ratios.combined then d * ratios.combined
  else if weight_attr = k_weight_risk then
    (if 0 < ratios.risk then d * ratios.risk else d * (1 / 10000))
  else if weight_attr = k_weight_incidents then
    (if 0 < ratios.incidents then d * ratios.incidents else d * (1 / 100000))
  else 0

/-- The `opt_map` alias table of `calculate_route`. -/
def opt_map : List (String × String) :=
  [("distance", k_weight_distance), ("risk", k_weight_risk),
   ("combined", k_weight_combined), ("incidents", k_weight_incidents),
   ("incident", k_weight_incidents), ("incidentes", k_weight_incidents)]

/-- `opt_map.get(optimization, f"weight_Missing")` with the literal fallthrough. -/
def weight_attr_of (optimization : String) : String :=
  (opt_map.lookup optimization).getD ("weight_" ++ optimization)

end SafePath

namespace SafePath

/-! Paths in the embedded graph. -/

/-- Every consecutive pair of the node list is a stored edge. -/
def edges_ok (G : List Edge) : List Pt → Bool
  | u :: v :: rest => (edge_between G u v).isSome && edges_ok G (v :: rest)
  | _ => true

/-- `p` is a path from `s` to `t` in `G` (nonempty node sequence whose
consecutive pairs are stored edges). -/
def is_path (G : List Edge) (s t : Pt) (p : List Pt) : Prop :=
  p.head? = some s ∧ p.getLast? = some t ∧ edges_ok G p = true

instance (G : List Edge) (s t : Pt) (p : List Pt) : Decidable (is_path G s t p) := by
  unfold is_path; infer_instance

/-- Weight of the edge between `u` and `v` under a networkx string key
(0 for a missing edge; never consulted on valid paths). -/
def edge_weight (G : List Edge) (key : String) (u v : Pt) : ℚ :=
  match edge_between G u v with
  | some e => nx_weight key e
  | none => 0

/-- Total weight of a node sequence under a weight key. -/
def path_weight (G : List Edge) (key : String) : List Pt → ℚ
  | u :: v :: rest => edge_weight G key u v + path_weight G key (v :: rest)
  | _ => 0

/-- `c` is the optimal cost from `s` to `t`: attained by some path and a
lower bound on every path. -/
def is_opt_cost (G : List Edge) (key : String) (s t : Pt) (c : ℚ) : Prop :=
  (∃ p, is_path G s t p ∧ path_weight G key p = c) ∧
    ∀ p, is_path G s t p → c ≤ path_weight G key p

/-! The lazy-deletion best-first search embedding the library's
`dijkstra_path` (`f = 0`) and `astar_path` (`f` the heuristic) calls. -/

/-- A frontier entry: accumulated cost, current node, path from the source. -/
structure SEntry where
  g : ℚ
  node : Pt
  path : List Pt
deriving DecidableEq, Repr

/-- Pop the leftmost entry minimizing `g + f node` (the heap's priority with
insertion-order tie-breaking), returning it and the remaining frontier. -/
def pop_min (f : Pt → ℚ) : List SEntry → Option (SEntry × List SEntry)
  | [] => none
  | e :: rest =>
    match pop_min f rest with
    | none => some (e, [])
    | some (m, rest') =>
      if e.g + f e.node ≤ m.g + f m.node then some (e, rest) else some (m, e :: rest')

/-- Frontier entries produced by expanding a settled entry through each
outgoing edge. -/
def expand (G : List Edge) (key : String) (e : SEntry) : List SEntry :=
  (successors G e.node).map (fun ed => ⟨e.g + nx_weight key ed, ed.dst, e.path ++ [ed.dst]⟩)

/-- Has this node been settled already? -/
def settled_has (S : List (Pt × ℚ)) (u : Pt) : Bool :=
  S.any (fun x => decide (x.1 = u))

/-- The search loop.  Outer `none` means the fuel ran out (never reached for
sufficient fuel); `some none` models `NetworkXNoPath`. -/
def gen_search_loop (G : List Edge) (key : String) (f : Pt → ℚ) (t : Pt) :
    ℕ → List SEntry → List (Pt × ℚ) → Option (Option (List Pt × ℚ))
  | 0, _, _ => none
  | fuel + 1, F, S =>
    match pop_min f F with
    | none => some none
    | some (e, F') =>
      if e.node = t then some (some (e.path, e.g))
      else if settled_has S e.node then gen_search_loop G key f t fuel F' S
      else gen_search_loop G key f t fuel (F' ++ expand G key e) ((e.node, e.g) :: S)

/-- Fuel sufficient to drain the queue (proved below). -/
def search_fuel (G : List Edge) : ℕ := (2 * G.length + 2) * (G.length + 2)

/-- Model of `nx.dijkstra_path` / `nx.dijkstra_path_length` (`none` models the
`NetworkXNoPath` exception). -/
def nx_dijkstra (G : List Edge) (key : String) (s t : Pt) : Option (List Pt × ℚ) :=
  (gen_search_loop G key (fun _ => 0) t (search_fuel G) [⟨0, s, [s]⟩] []).join

/-- Model of `nx.astar_path` with heuristic `h` toward the fixed target. -/
def nx_astar (G : List Edge) (key : String) (h : Pt → ℚ) (s t : Pt) :
    Option (List Pt × ℚ) :=
  (gen_search_loop G key h t (search_fuel G) [⟨0, s, [s]⟩] []).join

/-! Bellman-Ford: relaxation over the edge list, carrying best paths. -/

/-- Current tentative distance and witnessing path of a node. -/
def bf_lookup (d : List (Pt × ℚ × List Pt)) (u : Pt) : Option (ℚ × List Pt) :=
  (d.find? (fun x => decide (x.1 = u))).map (·.2)

/-- Replace (or append) the entry of a node. -/
def bf_set (d : List (Pt × ℚ × List Pt)) (u : Pt) (c : ℚ) (p : List Pt) :
    List (Pt × ℚ × List Pt) :=
  if d.any (fun x => decide (x.1 = u)) then
    d.map (fun x => if x.1 = u then (u, c, p) else x)
  else d ++ [(u, c, p)]

/-- Relax one edge. -/
def bf_relax (key : String) (d : List (Pt × ℚ × List Pt)) (e : Edge) :
    List (Pt × ℚ × List Pt) :=
  match bf_lookup d e.src with
  | none => d
  | some (du, pu) =>
    let c := du + nx_weight key e
    match bf_lookup d e.dst with
    | none => bf_set d e.dst c (pu ++ [e.dst])
    | some (dv, _) => if c < dv then bf_set d e.dst c (pu ++ [e.dst]) else d

/-- One relaxation round over every edge. -/
def bf_round (G : List Edge) (key : String) (d : List (Pt × ℚ × List Pt)) :
    List (Pt × ℚ × List Pt) :=
  G.foldl (bf_relax key) d

/-- `n` relaxation rounds from the source. -/
def bf_iter (G : List Edge) (key : String) : ℕ → List (Pt × ℚ × List Pt) →
    List (Pt × ℚ × List Pt)
  | 0, d => d
  | n + 1, d => bf_iter G key n (bf_round G key d)

/-- Model of `nx.bellman_ford_path` / `path_length` for graphs without
negative cycles: enough relaxation rounds make every tentative distance the
optimum; `none` models `NetworkXNoPath`. -/
def nx_bellman_ford (G : List Edge) (key : String) (s t : Pt) :
    Option (List Pt × ℚ) :=
  (bf_lookup (bf_iter G key ((graph_nodes G).length + 1) [(s, 0, [s])]) t).map
    (fun x => (x.2, x.1))

end SafePath

namespace SafePath

/-! `calculate_route` and its helpers (`route_optimizer.py`). -/

/-- The Python exceptions this embedding distinguishes. -/
inductive PyErr where
  | no_path
  | value_error (msg : String)
  | key_error
  | type_error
deriving DecidableEq, Repr

/-- The algorithm dispatch of `calculate_route` (both the corridor block and
the full-graph fallback block): `dijkstra`, `astar`, `bellman_ford`, or
`raise ValueError` for anything else.  `NetworkXNoPath` becomes `no_path`. -/
def run_standard_algorithm (G : List Edge) (key : String) (h : Pt → Pt → ℚ)
    (algorithm : String) (s t : Pt) : Except PyErr (List Pt × ℚ) :=
  if algorithm = "dijkstra" then
    match nx_dijkstra G key s t with
    | some r => .ok r
    | none => .error .no_path
  else if algorithm = "astar" then
    match nx_astar G key (fun n => h n t) s t with
    | some r => .ok r
    | none => .error .no_path
  else if algorithm = "bellman_ford" then
    match nx_bellman_ford G key s t with
    | some r => .ok r
    | none => .error .no_path
  else .error (.value_error algorithm)

/-- Aggregate statistics of a path (`_calculate_route_stats`).  The incident
total is summed as a float (NaN-absorbing) and then passed through `int(...)`,
which raises on NaN — hence the `Except`. -/
structure Stats where
  total_distance : ℚ
  avg_risk : ℚ
  total_cameras : ℚ
  total_incidents : ℚ
  num_segments : ℕ
deriving DecidableEq, Repr

/-- Consecutive pairs of a node list. -/
def consec_pairs : List Pt → List (Pt × Pt)
  | u :: v :: rest => (u, v) :: consec_pairs (v :: rest)
  | _ => []

/-- `G[u][v]` with a KeyError for a missing edge. -/
def edge_data (G : List Edge) (u v : Pt) : Except PyErr EdgeAttrs :=
  match edge_between G u v with
  | some e => .ok e.attrs
  | none => .error .key_error

/-- Python `int(x)` on a possibly-NaN float: ValueError on NaN. -/
def py_int (x : PyF) : Except PyErr ℚ :=
  match x with
  | none => .error (.value_error msg_nan_int)
  | some v => .ok (int_trunc v)

/-- `_calculate_route_stats`. -/
def route_stats (G : List Edge) (p : List Pt) : Except PyErr Stats := do
  let datas ← (consec_pairs p).mapM (fun uv => edge_data G uv.1 uv.2)
  let total_distance := datas.foldl (fun a d => a + d.length) 0
  let total_risk := datas.foldl (fun a d => a + d.risk_score) 0
  let total_cameras := datas.foldl (fun a d => a + d.cameras_count) 0
  let total_incidents := datas.foldl (fun a d => pyf_add a d.incidents_count) (some 0)
  let n := datas.length
  let inc ← py_int total_incidents
  .ok ⟨total_distance, if 0 < n then total_risk / n else 0, int_trunc total_cameras,
       inc, n⟩

/-- One serialized edge of the result (`_get_edge_details`). -/
structure EdgeDetail where
  efrom : Pt
  eto : Pt
  name : String
  length : ℚ
  harassmentRisk : PyF
  cameras_count : ℚ
  incidents_count : ℚ
  risk_score : ℚ
  geometry : String
deriving DecidableEq, Repr

/-- `_get_edge_details`; `int(edge_data["incidents_count"])` raises on NaN. -/
def route_details (G : List Edge) (p : List Pt) : Except PyErr (List EdgeDetail) :=
  (consec_pairs p).mapM (fun uv => do
    let d ← edge_data G uv.1 uv.2
    let inc ← py_int d.incidents_count
    .ok ⟨uv.1, uv.2, d.name, d.length, d.harassmentRisk, int_trunc d.cameras_count,
         inc, d.risk_score, d.geometry⟩)

/-- The performance block of a result. -/
structure Perf where
  execution_time_ms : ℚ
  nodes_explored : ℕ
  nodes_in_path : ℕ
deriving DecidableEq, Repr

/-- The uniform result record returned by the routing entry points.  `note`
is absent (`none`) until the API layer's fallback sets it. -/
structure RouteResult where
  path : List Pt
  cost : ℚ
  optimization : String
  algorithm : String
  statistics : Stats
  edges : List EdgeDetail
  performance : Perf
  note : Option String
deriving DecidableEq, Repr

/-- The router state: the ingested rows; graph, node list and ratios are
derived views of them (built once in `__init__`). -/
structure Router where
  rows : List Row
deriving DecidableEq, Repr

def Router.G (r : Router) : List Edge := build_edges r.rows

def Router.nodes (r : Router) : List Pt := build_nodes r.rows

def Router.ratios (r : Router) : Ratios := build_ratios r.rows

/-- The corridor retry loop of `calculate_route` (attempts with the current
degree buffers; a missing endpoint multiplies them by 1.5 and retries; after
the attempts are exhausted the full graph is searched).  Returns the
path/cost pair together with the graph used and `nodes_explored`. -/
def corridor_search (r : Router) (key : String) (h : Pt → Pt → ℚ)
    (algorithm : String) (sn en : Pt) (minx miny maxx maxy : ℚ) :
    ℕ → ℚ → ℚ → Except PyErr ((List Pt × ℚ) × List Edge × ℕ)
  | 0, _, _ =>
    (run_standard_algorithm r.G key h algorithm sn en).map
      (fun pc => (pc, r.G, (graph_nodes r.G).length))
  | n + 1, dx, dy =>
    let bb : Bbox := ⟨minx - dx, miny - dy, maxx + dx, maxy + dy⟩
    let Gc := build_temp_graph_for_bbox r.rows bb
    if mem_graph Gc sn && mem_graph Gc en then
      (run_standard_algorithm Gc key h algorithm sn en).map
        (fun pc => (pc, Gc, (graph_nodes Gc).length))
    else corridor_search r key h algorithm sn en minx miny maxx maxy n
      (dx * (3 / 2)) (dy * (3 / 2))

/-- Everything `calculate_route` computes inside its `try` block, up to the
fields of the returned record (the wall-clock reading is attached separately,
see `route_record`). -/
def calculate_route_parts (r : Router) (origin destination : Pt)
    (optimization algorithm : String) :
    Except PyErr (((List Pt × ℚ) × List Edge × ℕ) × Stats × List EdgeDetail) := do
  let weight_attr := weight_attr_of optimization
  match find_nearest_node r.nodes origin, find_nearest_node r.nodes destination with
  | some sn, some en =>
    let minx := min sn.1 en.1
    let maxx := max sn.1 en.1
    let miny := min sn.2 en.2
    let maxy := max sn.2 en.2
    let straight_m := rat_sqrt ((en.1 - sn.1) ^ 2 + (en.2 - sn.2) ^ 2) * 111000
    let margin_m := max 300 (straight_m * (1 / 4))
    let d0 := degrees_buffer margin_m ((sn.2 + en.2) / 2)
    let h := route_heuristic r.ratios weight_attr
    let x ← corridor_search r weight_attr h algorithm sn en minx miny maxx maxy 3 d0.1 d0.2
    let st ← route_stats x.2.1 x.1.1
    let ed ← route_details x.2.1 x.1.1
    .ok (x, st, ed)
  | _, _ =>
    -- `min(start_node[0], ...)` subscripts None inside the `try` block.
    .error .type_error

/-- Assembling the result record; the elapsed wall-clock measurement only
enters `performance.execution_time_ms`. -/
def route_record (optimization algorithm : String) (elapsed_ms : ℚ)
    (x : ((List Pt × ℚ) × List Edge × ℕ) × Stats × List EdgeDetail) : RouteResult :=
  ⟨x.1.1.1, x.1.1.2, optimization, algorithm, x.2.1, x.2.2,
   ⟨elapsed_ms, x.1.2.2, x.1.1.1.length⟩, none⟩

/-- `calculate_route`: the `except` clauses turn `NetworkXNoPath` and every
other `Exception` into a `None` return. -/
def calculate_route (r : Router) (origin destination : Pt)
    (optimization algorithm : String) (elapsed_ms : ℚ) : Option RouteResult :=
  ((calculate_route_parts r origin destination optimization algorithm).map
    (route_record optimization algorithm elapsed_ms)).toOption

end SafePath

namespace SafePath

/-! Advanced algorithms (`advanced_routing.py`).  These run on the full graph
and index edge attributes directly (`G[u][v][attr]`), so a missing weight
attribute raises KeyError. -/

/-- `distance_to_goal` inside `greedy_route`. -/
def distance_to_goal (en node : Pt) : ℚ :=
  let dx := (node.1 - en.1) * 111000 * |cos_q (radians_q node.2)|
  let dy := (node.2 - en.2) * 111000
  rat_sqrt (dx ^ 2 + dy ^ 2)

/-- The greedy selection score: 70% edge cost, 30% normalized goal distance. -/
def greedy_score (en : Pt) (ni : Pt × ℚ) : ℚ :=
  (7 / 10) * ni.2 + (3 / 10) * (distance_to_goal en ni.1 / 1000)

/-- The unvisited-neighbor list comprehension of `greedy_route`; a missing
weight attribute raises KeyError. -/
def greedy_neighbors (G : List Edge) (key : String) (visited : List Pt) (cur : Pt) :
    Except PyErr (List (Pt × ℚ)) :=
  ((successors G cur).filter (fun e => decide (e.dst ∉ visited))).mapM
    (fun e =>
      match e.attrs.weights.lookup key with
      | some w => .ok (e.dst, w)
      | none => .error .key_error)

/-- Python `min(neighbors, key=greedy_score)`: first occurrence of the minimum. -/
def min_by_score (en : Pt) : List (Pt × ℚ) → Option (Pt × ℚ)
  | [] => none
  | x :: xs =>
    some (xs.foldl (fun b y => if greedy_score en y < greedy_score en b then y else b) x)

/-- The greedy walk (fuel = remaining iterations of the 10000-capped loop);
`ok none` is the `return None` of the source (dead end at the start node, or
iteration cap with the goal unreached). -/
def greedy_loop (G : List Edge) (key : String) (en : Pt) :
    ℕ → List Pt → Pt → List Pt → ℚ → Except PyErr (Option (List Pt × ℚ × List Pt))
  | 0, path, cur, visited, total =>
    if cur = en then .ok (some (path, total, visited)) else .ok none
  | fuel + 1, path, cur, visited, total =>
    if cur = en then .ok (some (path, total, visited))
    else do
      let nbrs ← greedy_neighbors G key visited cur
      match min_by_score en nbrs with
      | none =>
        if 1 < path.length then
          let path' := path.dropLast
          greedy_loop G key en fuel path' (path'.getLastD cur) visited total
        else .ok none
      | some nxt =>
        greedy_loop G key en fuel (path ++ [nxt.1]) nxt.1 (visited ++ [nxt.1])
          (total + nxt.2)

/-- `greedy_route`.  The unreachable empty-node-list corner is modelled as an
error. -/
def greedy_route (r : Router) (origin destination : Pt) (optimization : String)
    (elapsed_ms : ℚ) : Except PyErr (Option RouteResult) :=
  match find_nearest_node r.nodes origin, find_nearest_node r.nodes destination with
  | some sn, some en => do
    let key := "weight_" ++ optimization
    match ← greedy_loop r.G key en 10000 [sn] sn [sn] 0 with
    | none => .ok none
    | some x => do
      let st ← route_stats r.G x.1
      let ed ← route_details r.G x.1
      .ok (some ⟨x.1, x.2.1, optimization, "greedy", st, ed,
        ⟨elapsed_ms, x.2.2.length, x.1.length⟩, none⟩)
  | _, _ => .error .type_error

/-- `cost < best_cost` with `best_cost` starting at infinity. -/
def bt_best_ok (best : Option (ℚ × List Pt)) (c : ℚ) : Bool :=
  match best with
  | none => true
  | some b => decide (c < b.1)

/-- `cost ≤ max_cost` with `max_cost = ∞` modelled as `none`. -/
def le_max_cost (mc : Option ℚ) (c : ℚ) : Bool :=
  match mc with
  | none => true
  | some m => decide (c ≤ m)

mutual

/-- One `backtrack(...)` invocation of `backtracking_route`: update the best
on arrival, prune on bound/budget/depth, else expand.  The accumulator pairs
the `nodes_explored` counter with the incumbent. -/
def bt_visit (G : List Edge) (key : String) (en : Pt) (mc : Option ℚ) :
    ℕ → Pt → List Pt → ℚ → ℕ × Option (ℚ × List Pt) →
    Except PyErr (ℕ × Option (ℚ × List Pt))
  | fuel, cur, path, cost, acc0 =>
    let acc1 : ℕ × Option (ℚ × List Pt) := (acc0.1 + 1, acc0.2)
    if cur = en then
      .ok (acc1.1, if bt_best_ok acc1.2 cost then some (cost, path) else acc1.2)
    else if !bt_best_ok acc1.2 cost || !le_max_cost mc cost then .ok acc1
    else if 100 < path.length then .ok acc1
    else
      match fuel with
      | 0 => .ok acc1
      | fuel' + 1 => bt_fold G key en mc fuel' (successors G cur) path cost acc1

/-- The neighbor loop of one `backtrack` invocation (visited = path set). -/
def bt_fold (G : List Edge) (key : String) (en : Pt) (mc : Option ℚ) :
    ℕ → List Edge → List Pt → ℚ → ℕ × Option (ℚ × List Pt) →
    Except PyErr (ℕ × Option (ℚ × List Pt))
  | _, [], _, _, acc => .ok acc
  | fuel, e :: es, path, cost, acc =>
    if e.dst ∈ path then bt_fold G key en mc fuel es path cost acc
    else
      match e.attrs.weights.lookup key with
      | none => .error .key_error
      | some w =>
        let nc := cost + w
        if bt_best_ok acc.2 nc && le_max_cost mc nc then do
          let acc' ← bt_visit G key en mc fuel e.dst (path ++ [e.dst]) nc acc
          bt_fold G key en mc fuel es path cost acc'
        else bt_fold G key en mc fuel es path cost acc

end

/-- `backtracking_route` (`max_cost=∞` by default; callers never pass one). -/
def backtracking_route (r : Router) (origin destination : Pt)
    (optimization : String) (mc : Option ℚ) (elapsed_ms : ℚ) :
    Except PyErr (Option RouteResult) :=
  match find_nearest_node r.nodes origin, find_nearest_node r.nodes destination with
  | some sn, some en => do
    let key := "weight_" ++ optimization
    let res ← bt_visit r.G key en mc 102 sn [sn] 0 (0, none)
    match res.2 with
    | none => .ok none
    | some best => do
      let st ← route_stats r.G best.2
      let ed ← route_details r.G best.2
      .ok (some ⟨best.2, best.1, optimization, "backtracking", st, ed,
        ⟨elapsed_ms, res.1, best.2.length⟩, none⟩)
  | _, _ => .error .type_error

/-- Python tuple comparison on coordinate pairs. -/
def ptuple_lt (a b : Pt) : Bool :=
  decide (a.1 < b.1) || (decide (a.1 = b.1) && decide (a.2 < b.2))

/-- Python list comparison on node lists. -/
def path_tuple_lt : List Pt → List Pt → Bool
  | [], [] => false
  | [], _ :: _ => true
  | _ :: _, [] => false
  | x :: xs, y :: ys => ptuple_lt x y || (decide (x = y) && path_tuple_lt xs ys)

/-- Python comparison of heap entries `(cost, node, path)`. -/
def bnb_entry_lt (a b : ℚ × Pt × List Pt) : Bool :=
  decide (a.1 < b.1) || (decide (a.1 = b.1) &&
    (ptuple_lt a.2.1 b.2.1 || (decide (a.2.1 = b.2.1) && path_tuple_lt a.2.2 b.2.2)))

/-- `heapq.heappop`: remove the smallest entry (leftmost among equals). -/
def heap_pop : List (ℚ × Pt × List Pt) →
    Option ((ℚ × Pt × List Pt) × List (ℚ × Pt × List Pt))
  | [] => none
  | e :: rest =>
    match heap_pop rest with
    | none => some (e, [])
    | some (m, rest') =>
      if bnb_entry_lt m e then some (m, e :: rest') else some (e, rest)

/-- `visited_with_cost` dictionary read. -/
def vdict_get (d : List (Pt × ℚ)) (u : Pt) : Option ℚ :=
  (d.find? (fun x => decide (x.1 = u))).map (·.2)

/-- `visited_with_cost` dictionary write. -/
def vdict_set (d : List (Pt × ℚ)) (u : Pt) (c : ℚ) : List (Pt × ℚ) :=
  if d.any (fun x => decide (x.1 = u)) then
    d.map (fun x => if x.1 = u then (u, c) else x)
  else d ++ [(u, c)]

/-- The branch-and-bound main loop.  Fuel exhaustion (a modelling artifact,
unreached on the inputs considered here) is reported as an error. -/
def bnb_loop (G : List Edge) (key : String) (en : Pt) :
    ℕ → List (ℚ × Pt × List Pt) → List (Pt × ℚ) → Option (ℚ × List Pt) → ℕ →
    Except PyErr (ℕ × Option (ℚ × List Pt))
  | 0, _, _, _, _ => .error (.value_error msg_fuel)
  | fuel + 1, pq, visited, best, explored =>
    match heap_pop pq with
    | none => .ok (explored, best)
    | some (e, pq') =>
      let explored := explored + 1
      let c := e.1
      let u := e.2.1
      let p := e.2.2
      if u = en then
        bnb_loop G key en fuel pq' visited
          (if bt_best_ok best c then some (c, p) else best) explored
      else if (match vdict_get visited u with
               | some vc => decide (vc ≤ c)
               | none => false) then
        bnb_loop G key en fuel pq' visited best explored
      else
        let visited' := vdict_set visited u c
        if !bt_best_ok best c then bnb_loop G key en fuel pq' visited' best explored
        else if 100 < p.length then bnb_loop G key en fuel pq' visited' best explored
        else do
          let pushes ← (successors G u).foldlM (fun acc ed =>
            if ed.dst ∈ p then .ok acc
            else
              match ed.attrs.weights.lookup key with
              | none => .error PyErr.key_error
              | some w =>
                let nc := c + w
                if bt_best_ok best nc then .ok (acc ++ [(nc, ed.dst, p ++ [ed.dst])])
                else .ok acc) []
          bnb_loop G key en fuel (pq' ++ pushes) visited' best explored

/-- Ample fuel for the branch-and-bound runs evaluated in this development. -/
def bnb_fuel : ℕ := 1000000

/-- `branch_and_bound_route`. -/
def branch_and_bound_route (r : Router) (origin destination : Pt)
    (optimization : String) (elapsed_ms : ℚ) : Except PyErr (Option RouteResult) :=
  match find_nearest_node r.nodes origin, find_nearest_node r.nodes destination with
  | some sn, some en => do
    let key := "weight_" ++ optimization
    let res ← bnb_loop r.G key en bnb_fuel [(0, sn, [sn])] [] none 0
    match res.2 with
    | none => .ok none
    | some best => do
      let st ← route_stats r.G best.2
      let ed ← route_details r.G best.2
      .ok (some ⟨best.2, best.1, optimization, "branch_and_bound", st, ed,
        ⟨elapsed_ms, res.1, best.2.length⟩, none⟩)
  | _, _ => .error .type_error

/-! K-shortest simple paths.  `nx.shortest_simple_paths` is an external
library call; it is modelled from its documented contract (and the spec's
description): enumerate the simple paths between the endpoints in
non-decreasing total-cost order. -/

/-- Depth-first enumeration of the simple paths from `cur` to `t` avoiding
`seen`. -/
def simple_paths_aux (G : List Edge) (t : Pt) : ℕ → Pt → List Pt → List (List Pt)
  | 0, _, _ => []
  | fuel + 1, cur, seen =>
    if cur = t then [[cur]]
    else
      (successors G cur).flatMap (fun e =>
        if e.dst ∈ cur :: seen then []
        else (simple_paths_aux G t fuel e.dst (cur :: seen)).map (fun p => cur :: p))

/-- All simple paths from `s` to `t`. -/
def all_simple_paths (G : List Edge) (s t : Pt) : List (List Pt) :=
  simple_paths_aux G t ((graph_nodes G).length + 1) s []

/-- Cost order on paths under a weight key. -/
def path_cost_le (G : List Edge) (key : String) (p q : List Pt) : Prop :=
  path_weight G key p ≤ path_weight G key q

instance (G : List Edge) (key : String) : DecidableRel (path_cost_le G key) := by
  unfold path_cost_le; infer_instance

/-- Model of `nx.shortest_simple_paths`: the simple paths sorted by total
cost (stable sort; the library's tie order among equal-cost paths is
unspecified). -/
def shortest_simple_paths (G : List Edge) (key : String) (s t : Pt) : List (List Pt) :=
  List.insertionSort (path_cost_le G key) (all_simple_paths G s t)

/-- The cost recomputation of `k_shortest_paths` (strict indexing). -/
def strict_path_cost (G : List Edge) (key : String) (p : List Pt) : Option ℚ :=
  ((consec_pairs p).mapM (fun uv => strict_weight G key uv.1 uv.2)).map
    (fun ws => ws.foldl (fun a b => a + b) 0)

/-- One route record per taken path, with 1-based ranks. -/
structure KRoute where
  path : List Pt
  cost : ℚ
  rank : ℕ
  optimization : String
  algorithm : String
  statistics : Stats
  edges : List EdgeDetail
deriving DecidableEq, Repr

def rank_routes (optimization : String) :
    ℕ → List (List Pt × ℚ × Stats × List EdgeDetail) → List KRoute
  | _, [] => []
  | i, x :: xs =>
    ⟨x.1, x.2.1, i + 1, optimization, "k_shortest_paths", x.2.2.1, x.2.2.2⟩ ::
      rank_routes optimization (i + 1) xs

/-- `k_shortest_paths`: take the first `k` enumerated paths; any exception
(`NetworkXNoPath`, KeyError, NaN `int`) yields the empty list. -/
def k_shortest_paths (r : Router) (origin destination : Pt) (k : ℕ)
    (optimization : String) : List KRoute :=
  match find_nearest_node r.nodes origin, find_nearest_node r.nodes destination with
  | some sn, some en =>
    let key := "weight_" ++ optimization
    let paths := (shortest_simple_paths r.G key sn en).take k
    match paths.mapM (fun p => do
        let c ← strict_path_cost r.G key p
        let st ← (route_stats r.G p).toOption
        let ed ← (route_details r.G p).toOption
        some (p, c, st, ed)) with
    | some items => rank_routes optimization 0 items
    | none => []
  | _, _ => []

end SafePath

namespace SafePath

/-! The FastAPI facade (`api.py`). -/

/-- `to_float` of the facade: NaN becomes 0.0; the output is always a
non-NaN float. -/
def to_float (x : PyF) : PyF := some (x.getD 0)

/-- `to_int` of the facade: null/NaN become 0, otherwise `int(x)`. -/
def to_int (x : PyF) : PyF := some (int_trunc (x.getD 0))

/-- Per-edge feature properties of the `/route` response. -/
structure RouteFeatProps where
  name : String
  length : PyF
  harassmentRisk : PyF
  cameras_count : PyF
  incidents_count : PyF
  risk_score : PyF
  optimization : String
  algorithm : String
deriving DecidableEq, Repr

structure RouteFeature where
  geometry : String
  props : RouteFeatProps
deriving DecidableEq, Repr

/-- One `/route` feature: the numeric fields pass through the sanitizers,
the labels come from the result record. -/
def route_feature (optimization algorithm : String) (e : EdgeDetail) : RouteFeature :=
  ⟨e.geometry,
   ⟨e.name, to_float (some e.length), to_float e.harassmentRisk,
    to_int (some e.cameras_count), to_int (some e.incidents_count),
    to_float (some e.risk_score), optimization, algorithm⟩⟩

/-- The sanitized statistics block of a response. -/
structure StatsOut where
  total_distance : PyF
  avg_risk : PyF
  total_cameras : PyF
  total_incidents : PyF
  num_segments : PyF
deriving DecidableEq, Repr

def stats_out (st : Stats) : StatsOut :=
  ⟨to_float (some st.total_distance), to_float (some st.avg_risk),
   to_int (some st.total_cameras), to_int (some st.total_incidents),
   to_int (some (st.num_segments : ℚ))⟩

/-- The top-level `properties` block of a non-empty `/route` response. -/
structure RoutePropsOut where
  statistics : StatsOut
  cost : PyF
  optimization : String
  algorithm : String
deriving DecidableEq, Repr

/-- The `/route` response; a `None` result yields the empty FeatureCollection
(no properties block). -/
structure RouteResponse where
  rtype : String
  features : List RouteFeature
  properties : Option RoutePropsOut
deriving DecidableEq, Repr

def heuristic_algorithms : List String := ["greedy", "backtracking", "branch_and_bound"]

/-- The heuristic-variant dispatch shared by `/route` and `/compare`. -/
def advanced_dispatch (r : Router) (o d : Pt) (optimization algorithm : String)
    (elapsed_ms : ℚ) : Except PyErr (Option RouteResult) :=
  if algorithm = "greedy" then greedy_route r o d optimization elapsed_ms
  else if algorithm = "backtracking" then
    backtracking_route r o d optimization none elapsed_ms
  else if algorithm = "branch_and_bound" then
    branch_and_bound_route r o d optimization elapsed_ms
  else .ok none

/-- The result `/route` serializes: heuristic variants fall back to Dijkstra
with `note="fallback: Dijkstra"` and the algorithm label rewritten to
`"<algorithm>_fallback_dijkstra"`; standard algorithms go straight to
`calculate_route`. -/
def compute_route_result (r : Router) (o d : Pt) (optimization algorithm : String)
    (t : ℚ) : Option RouteResult :=
  if algorithm ∈ heuristic_algorithms then
    let attempt : Option RouteResult :=
      match advanced_dispatch r o d optimization algorithm t with
      | .ok res => res
      | .error _ => none
    match attempt with
    | some res => some res
    | none =>
      match calculate_route r o d optimization alg_dijkstra t with
      | some res =>
        some ⟨res.path, res.cost, res.optimization,
          algorithm ++ "_fallback_dijkstra", res.statistics, res.edges,
          res.performance, some str_fallback⟩
      | none => none
  else calculate_route r o d optimization algorithm t

/-- `GET /route`. -/
def compute_route (r : Router) (o d : Pt) (optimization algorithm : String)
    (t : ℚ) : RouteResponse :=
  match compute_route_result r o d optimization algorithm t with
  | none => ⟨"FeatureCollection", [], none⟩
  | some res =>
    ⟨"FeatureCollection",
     res.edges.map (route_feature res.optimization res.algorithm),
     some ⟨stats_out res.statistics, to_float (some res.cost),
       res.optimization, res.algorithm⟩⟩

/-- Per-edge feature properties of a `/compare` entry (labelled with the
requested algorithm name). -/
structure CompareFeatProps where
  name : String
  length : PyF
  harassmentRisk : PyF
  cameras_count : PyF
  incidents_count : PyF
  risk_score : PyF
  algorithm : String
deriving DecidableEq, Repr

structure CompareFeature where
  geometry : String
  props : CompareFeatProps
deriving DecidableEq, Repr

def compare_feature (algo : String) (e : EdgeDetail) : CompareFeature :=
  ⟨e.geometry,
   ⟨e.name, to_float (some e.length), to_float e.harassmentRisk,
    to_int (some e.cameras_count), to_int (some e.incidents_count),
    to_float (some e.risk_score), algo⟩⟩

structure CompareEntry where
  algorithm : String
  features : List CompareFeature
  statistics : StatsOut
  cost : PyF
  note : String
deriving DecidableEq, Repr

structure CompareResponse where
  rtype : String
  optimization : String
  routes : List CompareEntry
deriving DecidableEq, Repr

/-- The result underlying one `/compare` entry: the heuristic fallback keeps
the requested algorithm label (`result["algorithm"] = algo`). -/
def compare_entry_result (r : Router) (o d : Pt) (optimization : String)
    (t : ℚ) (algo : String) : Option RouteResult :=
  if algo ∈ heuristic_algorithms then
    let attempt : Option RouteResult :=
      match advanced_dispatch r o d optimization algo t with
      | .ok res => res
      | .error _ => none
    match attempt with
    | some res => some res
    | none =>
      match calculate_route r o d optimization alg_dijkstra t with
      | some res =>
        some ⟨res.path, res.cost, res.optimization, algo, res.statistics,
          res.edges, res.performance, some str_fallback⟩
      | none => none
  else calculate_route r o d optimization algo t

/-- One `/compare` entry; algorithms that produce nothing are skipped. -/
def compare_entry (r : Router) (o d : Pt) (optimization : String) (t : ℚ)
    (algo : String) : Option CompareEntry :=
  match compare_entry_result r o d optimization t algo with
  | none => none
  | some res =>
    some ⟨algo, res.edges.map (compare_feature algo), stats_out res.statistics,
      to_float (some res.cost), res.note.getD str_empty⟩

/-- `GET /compare` on an already-split algorithm list. -/
def compare_routes_api (r : Router) (o d : Pt) (optimization : String)
    (algorithms : List String) (t : ℚ) : CompareResponse :=
  ⟨"Comparison", optimization, algorithms.filterMap (compare_entry r o d optimization t)⟩

/-- The exported GeoJSON document of `export_route_to_geojson` (file layout
abstracted to its value tree).  Edge values are copied verbatim: no
sanitization. -/
structure ExportFeatProps where
  name : String
  length : PyF
  harassmentRisk : PyF
  cameras_count : PyF
  incidents_count : PyF
  risk_score : PyF
deriving DecidableEq, Repr

structure ExportFeature where
  geometry : String
  props : ExportFeatProps
deriving DecidableEq, Repr

structure ExportDoc where
  features : List ExportFeature
  optimization : String
  algorithm : String
  statistics : Stats
deriving DecidableEq, Repr

def export_route_to_geojson (route : RouteResult) : ExportDoc :=
  ⟨route.edges.map (fun e =>
      ⟨e.geometry,
       ⟨e.name, some e.length, e.harassmentRisk, some e.cameras_count,
        some e.incidents_count, some e.risk_score⟩⟩),
   route.optimization, route.algorithm, route.statistics⟩

/-! NaN-freedom predicates over the serialized values. -/

def pyf_ok (x : PyF) : Bool := x.isSome

def route_feat_ok (f : RouteFeature) : Bool :=
  pyf_ok f.props.length && pyf_ok f.props.harassmentRisk &&
    pyf_ok f.props.cameras_count && pyf_ok f.props.incidents_count &&
    pyf_ok f.props.risk_score

def stats_out_ok (s : StatsOut) : Bool :=
  pyf_ok s.total_distance && pyf_ok s.avg_risk && pyf_ok s.total_cameras &&
    pyf_ok s.total_incidents && pyf_ok s.num_segments

/-- No NaN/null anywhere in a `/route` response. -/
def route_response_nonan (resp : RouteResponse) : Bool :=
  resp.features.all route_feat_ok &&
    (match resp.properties with
     | none => true
     | some p => stats_out_ok p.statistics && pyf_ok p.cost)

def compare_feat_ok (f : CompareFeature) : Bool :=
  pyf_ok f.props.length && pyf_ok f.props.harassmentRisk &&
    pyf_ok f.props.cameras_count && pyf_ok f.props.incidents_count &&
    pyf_ok f.props.risk_score

def compare_entry_ok (e : CompareEntry) : Bool :=
  e.features.all compare_feat_ok && stats_out_ok e.statistics && pyf_ok e.cost

/-- No NaN/null anywhere in a `/compare` response. -/
def compare_response_nonan (resp : CompareResponse) : Bool :=
  resp.routes.all compare_entry_ok

def export_feat_ok (f : ExportFeature) : Bool :=
  pyf_ok f.props.length && pyf_ok f.props.harassmentRisk &&
    pyf_ok f.props.cameras_count && pyf_ok f.props.incidents_count &&
    pyf_ok f.props.risk_score

/-- No NaN in an exported GeoJSON document. -/
def export_nonan (doc : ExportDoc) : Bool :=
  doc.features.all export_feat_ok

end SafePath

namespace SafePath

/-! Basic lemmas about paths. -/

theorem edge_between_spec {G : List Edge} {u v : Pt} {e : Edge}
    (h : edge_between G u v = some e) : e ∈ G ∧ e.src = u ∧ e.dst = v := by
  have hm := List.mem_of_find?_eq_some h
  have hp := List.find?_some h
  simp only [decide_eq_true_eq] at hp
  exact ⟨hm, hp.1, hp.2⟩

theorem successors_spec {G : List Edge} {u : Pt} {e : Edge} :
    e ∈ successors G u ↔ e ∈ G ∧ e.src = u := by
  simp [successors, List.mem_filter]

/-- At most one stored edge per ordered endpoint pair. -/
def edges_unique (G : List Edge) : Prop :=
  ∀ e1 ∈ G, ∀ e2 ∈ G, e1.src = e2.src → e1.dst = e2.dst → e1 = e2

theorem edge_between_of_mem {G : List Edge} (hu : edges_unique G) {e : Edge}
    (he : e ∈ G) : edge_between G e.src e.dst = some e := by
  induction G with
  | nil => cases he
  | cons a G ih =>
    by_cases ha : a.src = e.src ∧ a.dst = e.dst
    · have hae : a = e := hu a (List.mem_cons_self a G) e he ha.1 ha.2
      unfold edge_between
      rw [List.find?_cons_of_pos]
      · rw [hae]
      · simpa using ha
    · have he' : e ∈ G := by
        rcases List.mem_cons.mp he with h | h
        · subst h
          exact absurd ⟨rfl, rfl⟩ ha
        · exact h
      have hu' : edges_unique G := fun x hx y hy h1 h2 =>
        hu x (List.mem_cons_of_mem a hx) y (List.mem_cons_of_mem a hy) h1 h2
      unfold edge_between at ih ⊢
      rw [List.find?_cons_of_neg]
      · exact ih hu' he'
      · simpa using ha

theorem edge_weight_of_mem {G : List Edge} (hu : edges_unique G) {e : Edge}
    (he : e ∈ G) (key : String) : edge_weight G key e.src e.dst = nx_weight key e := by
  unfold edge_weight
  rw [edge_between_of_mem hu he]

theorem is_path_singleton (G : List Edge) (s : Pt) : is_path G s s [s] := by
  refine ⟨rfl, rfl, rfl⟩

theorem path_weight_singleton (G : List Edge) (key : String) (s : Pt) :
    path_weight G key [s] = 0 := rfl

theorem is_path_cons_iff {G : List Edge} {s t u v : Pt} {rest : List Pt} :
    is_path G s t (u :: v :: rest) ↔
      s = u ∧ (edge_between G u v).isSome ∧ is_path G v t (v :: rest) := by
  constructor
  · rintro ⟨h1, h2, h3⟩
    simp only [List.head?_cons, Option.some.injEq] at h1
    rw [List.getLast?_cons_cons] at h2
    simp only [edges_ok, Bool.and_eq_true] at h3
    exact ⟨h1.symm, h3.1, rfl, h2, h3.2⟩
  · rintro ⟨rfl, hsome, hpath⟩
    obtain ⟨-, h2, h3⟩ := hpath
    refine ⟨rfl, ?_, ?_⟩
    · rw [List.getLast?_cons_cons]
      exact h2
    · simp only [edges_ok, Bool.and_eq_true]
      exact ⟨hsome, h3⟩

theorem is_path_start_mem {G : List Edge} {s t : Pt} {p : List Pt}
    (h : is_path G s t p) : ∃ rest, p = s :: rest := by
  obtain ⟨h1, -, -⟩ := h
  cases p with
  | nil => cases h1
  | cons a rest =>
    simp only [List.head?_cons, Option.some.injEq] at h1
    exact ⟨rest, by rw [h1]⟩

theorem is_path_nil_elim {G : List Edge} {s t : Pt} (h : is_path G s t []) : False := by
  obtain ⟨h1, -, -⟩ := h
  cases h1

theorem is_path_single_iff {G : List Edge} {s t u : Pt} :
    is_path G s t [u] ↔ s = u ∧ t = u := by
  unfold is_path
  constructor
  · rintro ⟨h1, h2, -⟩
    simp only [List.head?_cons, List.getLast?_singleton, Option.some.injEq] at h1 h2
    exact ⟨h1.symm, h2.symm⟩
  · rintro ⟨rfl, rfl⟩
    exact ⟨rfl, rfl, rfl⟩

theorem getLast?_append_single {p : List Pt} {v : Pt} :
    (p ++ [v]).getLast? = some v := by
  simp

theorem edges_ok_append_single {G : List Edge} {p : List Pt} {u v : Pt}
    (hp : edges_ok G p = true) (hlast : p.getLast? = some u)
    (he : (edge_between G u v).isSome) : edges_ok G (p ++ [v]) = true := by
  induction p with
  | nil => cases hlast
  | cons a rest ih =>
    cases rest with
    | nil =>
      simp only [List.getLast?_singleton, Option.some.injEq] at hlast
      subst hlast
      simpa [edges_ok] using he
    | cons b rest' =>
      simp only [edges_ok, Bool.and_eq_true] at hp
      rw [List.getLast?_cons_cons] at hlast
      have htail := ih hp.2 hlast
      show edges_ok G ((a :: b :: rest') ++ [v]) = true
      simp only [List.cons_append, edges_ok, Bool.and_eq_true]
      refine ⟨hp.1, ?_⟩
      simpa [List.cons_append] using htail

theorem is_path_append_single {G : List Edge} {s u v : Pt} {p : List Pt}
    (hp : is_path G s u p) (he : (edge_between G u v).isSome) :
    is_path G s v (p ++ [v]) := by
  obtain ⟨h1, h2, h3⟩ := hp
  refine ⟨?_, getLast?_append_single, edges_ok_append_single h3 h2 he⟩
  cases p with
  | nil => cases h1
  | cons a rest => simpa using h1

theorem path_weight_append_single {G : List Edge} {key : String} {p : List Pt}
    {u v : Pt} (hlast : p.getLast? = some u) :
    path_weight G key (p ++ [v]) = path_weight G key p + edge_weight G key u v := by
  induction p with
  | nil => cases hlast
  | cons a rest ih =>
    cases rest with
    | nil =>
      simp only [List.getLast?_singleton, Option.some.injEq] at hlast
      subst hlast
      simp [path_weight]
    | cons b rest' =>
      rw [List.getLast?_cons_cons] at hlast
      have ihh := ih hlast
      have hsplit2 : (b :: rest') ++ [v] = b :: (rest' ++ [v]) := by simp
      rw [hsplit2] at ihh
      have hsplit : (a :: b :: rest') ++ [v] = a :: b :: (rest' ++ [v]) := by simp
      rw [hsplit]
      show edge_weight G key a b + path_weight G key (b :: (rest' ++ [v])) =
        (edge_weight G key a b + path_weight G key (b :: rest')) + edge_weight G key u v
      rw [ihh]
      ring

/-- Heuristic consistency with respect to the stored edges: this is exactly
nonnegativity of the reweighted edge costs. -/
def consistent_heuristic (G : List Edge) (key : String) (f : Pt → ℚ) : Prop :=
  ∀ e ∈ G, f e.src ≤ nx_weight key e + f e.dst

/-- A consistent heuristic telescopes along every path. -/
theorem consistent_telescope {G : List Edge} {key : String} {f : Pt → ℚ}
    (hc : consistent_heuristic G key f) :
    ∀ p u v, is_path G u v p → f u ≤ path_weight G key p + f v := by
  intro p
  induction p with
  | nil => intro u v h; exact absurd h is_path_nil_elim
  | cons a rest ih =>
    intro u v h
    cases rest with
    | nil =>
      obtain ⟨rfl, rfl⟩ := is_path_single_iff.mp h
      simp [path_weight_singleton]
    | cons b rest' =>
      obtain ⟨rfl, hsome, htail⟩ := is_path_cons_iff.mp h
      obtain ⟨e, he⟩ := Option.isSome_iff_exists.mp hsome
      obtain ⟨heG, hes, hed⟩ := edge_between_spec he
      have h1 : f u ≤ nx_weight key e + f b := by
        have := hc e heG
        rwa [hes, hed] at this
      have h2 : f b ≤ path_weight G key (b :: rest') + f v := ih b v htail
      have hw : edge_weight G key u b = nx_weight key e := by
        unfold edge_weight
        rw [he]
      simp only [path_weight]
      rw [hw]
      linarith

end SafePath

namespace SafePath

/-! Lemmas about `pop_min` and the settled dictionary. -/

theorem pop_min_none_iff {f : Pt → ℚ} {F : List SEntry} :
    pop_min f F = none ↔ F = [] := by
  cases F with
  | nil => simp [pop_min]
  | cons e rest =>
    simp only [pop_min]
    constructor
    · intro h
      cases hrec : pop_min f rest with
      | none => rw [hrec] at h; cases h
      | some x =>
        rw [hrec] at h
        by_cases hle : e.g + f e.node ≤ x.1.g + f x.1.node <;> simp [hle] at h
    · intro h; cases h

theorem pop_min_cases {f : Pt → ℚ} {F F' : List SEntry} {e : SEntry}
    (h : pop_min f F = some (e, F')) :
    e ∈ F ∧ F.length = F'.length + 1 ∧
      (∀ x ∈ F', x ∈ F) ∧ (∀ x ∈ F, x ∈ F' ∨ x = e) ∧
      (∀ x ∈ F, e.g + f e.node ≤ x.g + f x.node) := by
  induction F generalizing e F' with
  | nil => cases h
  | cons a rest ih =>
    simp only [pop_min] at h
    cases hrec : pop_min f rest with
    | none =>
      rw [hrec] at h
      have hrest : rest = [] := pop_min_none_iff.mp hrec
      subst hrest
      cases h
      refine ⟨List.mem_cons_self a [], rfl, by simp, by simp, ?_⟩
      intro x hx
      rcases List.mem_cons.mp hx with rfl | hx
      · exact le_refl _
      · cases hx
    | some m =>
      obtain ⟨me, mrest⟩ := m
      rw [hrec] at h
      obtain ⟨hm_mem, hm_len, hm_sub, hm_rest, hm_min⟩ := ih hrec
      simp only at h
      by_cases hle : a.g + f a.node ≤ me.g + f me.node
      · rw [if_pos hle] at h
        simp only [Option.some.injEq, Prod.mk.injEq] at h
        obtain ⟨he, hF⟩ := h
        subst he
        subst hF
        refine ⟨List.mem_cons_self a rest, rfl, fun x hx => List.mem_cons_of_mem a hx,
          fun x hx => ?_, fun x hx => ?_⟩
        · rcases List.mem_cons.mp hx with rfl | hx
          · exact Or.inr rfl
          · exact Or.inl hx
        · rcases List.mem_cons.mp hx with rfl | hx
          · exact le_refl _
          · exact le_trans hle (hm_min x hx)
      · rw [if_neg hle] at h
        simp only [Option.some.injEq, Prod.mk.injEq] at h
        obtain ⟨he, hF⟩ := h
        subst he
        subst hF
        have ha_lt : me.g + f me.node ≤ a.g + f a.node := le_of_lt (lt_of_not_le hle)
        refine ⟨List.mem_cons_of_mem a hm_mem, by simpa using hm_len,
          fun x hx => ?_, fun x hx => ?_, fun x hx => ?_⟩
        · rcases List.mem_cons.mp hx with rfl | hx
          · exact List.mem_cons_self _ _
          · exact List.mem_cons_of_mem _ (hm_sub x hx)
        · rcases List.mem_cons.mp hx with rfl | hx
          · exact Or.inl (List.mem_cons_self _ _)
          · rcases hm_rest x hx with h1 | h1
            · exact Or.inl (List.mem_cons_of_mem a h1)
            · exact Or.inr h1
        · rcases List.mem_cons.mp hx with rfl | hx
          · exact ha_lt
          · exact hm_min x hx

/-- The stored cost of a settled node. -/
def settled_get (S : List (Pt × ℚ)) (u : Pt) : Option ℚ :=
  (S.find? (fun x => decide (x.1 = u))).map (·.2)

theorem settled_has_iff_get {S : List (Pt × ℚ)} {u : Pt} :
    settled_has S u = true ↔ (settled_get S u).isSome = true := by
  unfold settled_has settled_get
  rw [List.any_eq_true]
  constructor
  · rintro ⟨x, hx, hdec⟩
    rcases hfind : S.find? (fun x => decide (x.1 = u)) with - | y
    · exact absurd hdec (List.find?_eq_none.mp hfind x hx)
    · rw [hfind]
      rfl
  · intro h
    rcases hfind : S.find? (fun x => decide (x.1 = u)) with - | y
    · rw [hfind] at h
      cases h
    · refine ⟨y, List.mem_of_find?_eq_some hfind, ?_⟩
      have hp := List.find?_some hfind
      simpa using hp

theorem settled_get_cons {S : List (Pt × ℚ)} {u x : Pt} {c : ℚ} :
    settled_get ((u, c) :: S) x = if u = x then some c else settled_get S x := by
  unfold settled_get
  by_cases h : u = x
  · rw [List.find?_cons_of_pos _ (by simpa using h)]
    simp [h]
  · rw [List.find?_cons_of_neg _ (by simpa using h)]
    simp [h]

theorem settled_has_cons {S : List (Pt × ℚ)} {u x : Pt} {c : ℚ} :
    settled_has ((u, c) :: S) x = (decide (u = x) || settled_has S x) := rfl

theorem settled_has_false_not_mem {S : List (Pt × ℚ)} {u : Pt}
    (h : settled_has S u = false) : ∀ x ∈ S, x.1 ≠ u := by
  intro x hx
  unfold settled_has at h
  rw [List.any_eq_false] at h
  have := h x hx
  simpa using this

theorem settled_get_some_mem {S : List (Pt × ℚ)} {u : Pt} {c : ℚ}
    (h : settled_get S u = some c) : (u, c) ∈ S := by
  unfold settled_get at h
  rcases hfind : S.find? (fun x => decide (x.1 = u)) with - | y
  · rw [hfind] at h; cases h
  · rw [hfind] at h
    have h1 := List.find?_some hfind
    have h2 := List.mem_of_find?_eq_some hfind
    obtain ⟨y1, y2⟩ := y
    simp only [decide_eq_true_eq] at h1
    simp at h
    subst h1
    subst h
    exact h2

end SafePath

namespace SafePath

/-! The best-first search invariant and its preservation. -/

theorem mem_add_node {ns : List Pt} {p q : Pt} : q ∈ add_node ns p ↔ q ∈ ns ∨ q = p := by
  unfold add_node
  by_cases h : p ∈ ns
  · rw [if_pos h]
    constructor
    · exact Or.inl
    · rintro (h1 | rfl)
      · exact h1
      · exact h
  · rw [if_neg h]
    simp

theorem graph_nodes_spec {G : List Edge} {p : Pt} :
    p ∈ graph_nodes G ↔ ∃ e ∈ G, e.src = p ∨ e.dst = p := by
  suffices h : ∀ ns : List Pt,
      p ∈ G.foldl (fun ns e => add_node (add_node ns e.src) e.dst) ns ↔
        p ∈ ns ∨ ∃ e ∈ G, e.src = p ∨ e.dst = p by
    simpa [graph_nodes] using h []
  induction G with
  | nil => simp
  | cons a G ihg =>
    intro ns
    simp only [List.foldl_cons]
    rw [ihg]
    constructor
    · rintro (h | h)
      · rw [mem_add_node, mem_add_node] at h
        rcases h with (h | h) | h
        · exact Or.inl h
        · exact Or.inr ⟨a, List.mem_cons_self _ _, Or.inl h.symm⟩
        · exact Or.inr ⟨a, List.mem_cons_self _ _, Or.inr h.symm⟩
      · obtain ⟨e, he, hor⟩ := h
        exact Or.inr ⟨e, List.mem_cons_of_mem _ he, hor⟩
    · rintro (h | ⟨e, he, hor⟩)
      · left
        rw [mem_add_node, mem_add_node]
        exact Or.inl (Or.inl h)
      · rcases List.mem_cons.mp he with rfl | he'
        · left
          rw [mem_add_node, mem_add_node]
          rcases hor with h | h
          · exact Or.inl (Or.inr h.symm)
          · exact Or.inr h.symm
        · right
          exact ⟨e, he', hor⟩

theorem expand_spec {G : List Edge} {key : String} {e fe : SEntry} :
    fe ∈ expand G key e ↔ ∃ ed ∈ successors G e.node,
      fe = ⟨e.g + nx_weight key ed, ed.dst, e.path ++ [ed.dst]⟩ := by
  unfold expand
  rw [List.mem_map]
  constructor
  · rintro ⟨ed, hed, rfl⟩
    exact ⟨ed, hed, rfl⟩
  · rintro ⟨ed, hed, rfl⟩
    exact ⟨ed, hed, rfl⟩

/-- The search invariant: frontier entries carry genuine source paths of their
recorded cost, settled nodes carry optimal costs, each edge leaving the
settled region is represented in the frontier, and the target is unsettled. -/
structure SearchInv (G : List Edge) (key : String) (f : Pt → ℚ) (s t : Pt)
    (F : List SEntry) (S : List (Pt × ℚ)) : Prop where
  entries : ∀ fe ∈ F, is_path G s fe.node fe.path ∧ path_weight G key fe.path = fe.g
  entry_nodes : ∀ fe ∈ F, fe.node ∈ s :: graph_nodes G
  settled_sound : ∀ u du, settled_get S u = some du →
    ∃ q, is_path G s u q ∧ path_weight G key q = du
  settled_min : ∀ u du, settled_get S u = some du →
    ∀ q, is_path G s u q → du ≤ path_weight G key q
  closure : ∀ u du, settled_get S u = some du → ∀ e ∈ successors G u,
    settled_has S e.dst = true ∨
      ∃ fe ∈ F, fe.node = e.dst ∧ fe.g ≤ du + nx_weight key e
  start : settled_has S s = true ∨ ∃ fe ∈ F, fe.node = s ∧ fe.g = 0
  settled_nodes : ∀ x ∈ S, x.1 ∈ s :: graph_nodes G
  settled_nodup : (S.map Prod.fst).Nodup
  target_unsettled : settled_has S t = false

/-- Following a path from a settled node to an unsettled node, some frontier
entry has priority at most the settled cost plus the path cost (plus the
heuristic shift of the endpoint). -/
theorem search_frontier_path {G : List Edge} {key : String} {f : Pt → ℚ}
    {s t : Pt} {F : List SEntry} {S : List (Pt × ℚ)} (hu : edges_unique G)
    (hc : consistent_heuristic G key f) (inv : SearchInv G key f s t F S) :
    ∀ p u v du, is_path G u v p → settled_get S u = some du →
      settled_has S v = false →
      ∃ fe ∈ F, fe.g + f fe.node ≤ du + path_weight G key p + f v := by
  intro p
  induction p with
  | nil =>
    intro u v du hp
    exact absurd hp is_path_nil_elim
  | cons a rest ih =>
    intro u v du hp hsu hv
    cases rest with
    | nil =>
      obtain ⟨h1, h2⟩ := is_path_single_iff.mp hp
      rw [h1.trans h2.symm] at hsu
      have hhas : settled_has S v = true := settled_has_iff_get.mpr (by rw [hsu]; rfl)
      rw [hhas] at hv
      cases hv
    | cons b rest' =>
      obtain ⟨rfl, hsome, htail⟩ := is_path_cons_iff.mp hp
      obtain ⟨e, he⟩ := Option.isSome_iff_exists.mp hsome
      obtain ⟨heG, hes, hed⟩ := edge_between_spec he
      have hsucc : e ∈ successors G u := successors_spec.mpr ⟨heG, hes⟩
      have hwq : edge_weight G key u b = nx_weight key e := by
        unfold edge_weight
        rw [he]
      have hpw : path_weight G key (u :: b :: rest') =
          nx_weight key e + path_weight G key (b :: rest') := by
        show edge_weight G key u b + _ = _
        rw [hwq]
      cases hbs : settled_has S b with
      | true =>
        obtain ⟨db, hdb⟩ := Option.isSome_iff_exists.mp (settled_has_iff_get.mp hbs)
        obtain ⟨qu, hqu, hqw⟩ := inv.settled_sound u du hsu
        have hqb : is_path G s b (qu ++ [b]) :=
          is_path_append_single hqu (by rw [he]; rfl)
        have hqbw : path_weight G key (qu ++ [b]) = du + nx_weight key e := by
          rw [path_weight_append_single hqu.2.1, hqw, hwq]
        have hdb_le : db ≤ du + nx_weight key e := by
          have hmin := inv.settled_min b db hdb (qu ++ [b]) hqb
          rwa [hqbw] at hmin
        obtain ⟨fe, hfe, hle⟩ := ih b v db htail hdb hv
        refine ⟨fe, hfe, ?_⟩
        rw [hpw]
        linarith
      | false =>
        rcases inv.closure u du hsu e hsucc with hsettled | ⟨fe, hfe, hnode, hge⟩
        · rw [hed] at hsettled
          rw [hsettled] at hbs
          cases hbs
        · have htel : f b ≤ path_weight G key (b :: rest') + f v :=
            consistent_telescope hc (b :: rest') b v htail
          refine ⟨fe, hfe, ?_⟩
          rw [hnode, hed, hpw]
          linarith

/-- Any path from the source to an unsettled node is covered by a frontier
entry of no larger priority. -/
theorem search_cover {G : List Edge} {key : String} {f : Pt → ℚ} {s t : Pt}
    {F : List SEntry} {S : List (Pt × ℚ)} (hu : edges_unique G)
    (hc : consistent_heuristic G key f) (inv : SearchInv G key f s t F S)
    {v : Pt} {q : List Pt} (hq : is_path G s v q)
    (hv : settled_has S v = false) :
    ∃ fe ∈ F, fe.g + f fe.node ≤ path_weight G key q + f v := by
  cases hs : settled_has S s with
  | true =>
    obtain ⟨ds, hds⟩ := Option.isSome_iff_exists.mp (settled_has_iff_get.mp hs)
    have hds0 : ds ≤ 0 := by
      have hmin := inv.settled_min s ds hds [s] (is_path_singleton G s)
      simpa [path_weight_singleton] using hmin
    obtain ⟨fe, hfe, hle⟩ := search_frontier_path hu hc inv q s v ds hq hds hv
    exact ⟨fe, hfe, by linarith⟩
  | false =>
    rcases inv.start with h1 | ⟨fe, hfe, hnode, hg0⟩
    · rw [h1] at hs
      cases hs
    · have htel : f s ≤ path_weight G key q + f v := consistent_telescope hc q s v hq
      refine ⟨fe, hfe, ?_⟩
      rw [hnode, hg0]
      simpa using htel

/-- Skipping a stale entry preserves the invariant. -/
theorem search_inv_skip {G : List Edge} {key : String} {f : Pt → ℚ} {s t : Pt}
    {F F' : List SEntry} {S : List (Pt × ℚ)} {e : SEntry}
    (inv : SearchInv G key f s t F S) (hpop : pop_min f F = some (e, F'))
    (hset : settled_has S e.node = true) : SearchInv G key f s t F' S := by
  obtain ⟨hmem, hlen, hsub, hrest, hmin⟩ := pop_min_cases hpop
  refine ⟨fun fe hfe => inv.entries fe (hsub fe hfe),
    fun fe hfe => inv.entry_nodes fe (hsub fe hfe),
    inv.settled_sound, inv.settled_min, ?_, ?_, inv.settled_nodes,
    inv.settled_nodup, inv.target_unsettled⟩
  · intro u du hdu ed hed
    rcases inv.closure u du hdu ed hed with h | ⟨fe, hfe, hnode, hge⟩
    · exact Or.inl h
    · rcases hrest fe hfe with hfe' | rfl
      · exact Or.inr ⟨fe, hfe', hnode, hge⟩
      · left
        rw [← hnode]
        exact hset
  · rcases inv.start with h | ⟨fe, hfe, hnode, hg0⟩
    · exact Or.inl h
    · rcases hrest fe hfe with hfe' | rfl
      · exact Or.inr ⟨fe, hfe', hnode, hg0⟩
      · left
        rw [← hnode]
        exact hset

/-- Settling the popped minimum preserves the invariant. -/
theorem search_inv_settle {G : List Edge} {key : String} {f : Pt → ℚ} {s t : Pt}
    {F F' : List SEntry} {S : List (Pt × ℚ)} {e : SEntry}
    (hu : edges_unique G) (hc : consistent_heuristic G key f)
    (inv : SearchInv G key f s t F S) (hpop : pop_min f F = some (e, F'))
    (hset : settled_has S e.node = false) (hnt : e.node ≠ t) :
    SearchInv G key f s t (F' ++ expand G key e) ((e.node, e.g) :: S) := by
  obtain ⟨hmem, hlen, hsub, hrest, hmin⟩ := pop_min_cases hpop
  obtain ⟨hpath_e, hpw_e⟩ := inv.entries e hmem
  have hlast_e : e.path.getLast? = some e.node := hpath_e.2.1
  -- the new settled cost is optimal
  have hopt : ∀ q, is_path G s e.node q → e.g ≤ path_weight G key q := by
    intro q hq
    obtain ⟨fe, hfe, hle⟩ := search_cover hu hc inv hq hset
    have hemin := hmin fe hfe
    linarith
  have hget_new : ∀ x, settled_get ((e.node, e.g) :: S) x =
      if e.node = x then some e.g else settled_get S x := fun x => settled_get_cons
  refine ⟨?_, ?_, ?_, ?_, ?_, ?_, ?_, ?_, ?_⟩
  · intro fe hfe
    rcases List.mem_append.mp hfe with h | h
    · exact inv.entries fe (hsub fe h)
    · obtain ⟨ed, hed, rfl⟩ := expand_spec.mp h
      obtain ⟨hedG, hedsrc⟩ := successors_spec.mp hed
      have hbet : edge_between G e.node ed.dst = some ed := by
        have := edge_between_of_mem hu hedG
        rwa [hedsrc] at this
      constructor
      · exact is_path_append_single hpath_e (by rw [hbet]; rfl)
      · rw [path_weight_append_single hlast_e]
        have hwq : edge_weight G key e.node ed.dst = nx_weight key ed := by
          unfold edge_weight
          rw [hbet]
        rw [hwq, hpw_e]
  · intro fe hfe
    rcases List.mem_append.mp hfe with h | h
    · exact inv.entry_nodes fe (hsub fe h)
    · obtain ⟨ed, hed, rfl⟩ := expand_spec.mp h
      obtain ⟨hedG, -⟩ := successors_spec.mp hed
      exact List.mem_cons_of_mem _ (graph_nodes_spec.mpr ⟨ed, hedG, Or.inr rfl⟩)
  · intro u du hdu
    rw [hget_new] at hdu
    by_cases hx : e.node = u
    · rw [if_pos hx] at hdu
      cases hdu
      rw [← hx]
      exact ⟨e.path, hpath_e, hpw_e⟩
    · rw [if_neg hx] at hdu
      exact inv.settled_sound u du hdu
  · intro u du hdu
    rw [hget_new] at hdu
    by_cases hx : e.node = u
    · rw [if_pos hx] at hdu
      cases hdu
      intro q hq
      rw [← hx] at hq
      exact hopt q hq
    · rw [if_neg hx] at hdu
      exact inv.settled_min u du hdu
  · intro u du hdu ed hed
    rw [hget_new] at hdu
    by_cases hx : e.node = u
    · rw [if_pos hx] at hdu
      cases hdu
      right
      refine ⟨⟨e.g + nx_weight key ed, ed.dst, e.path ++ [ed.dst]⟩,
        List.mem_append.mpr (Or.inr (expand_spec.mpr ⟨ed, by rw [hx]; exact hed, rfl⟩)),
        rfl, le_refl _⟩
    · rw [if_neg hx] at hdu
      rcases inv.closure u du hdu ed hed with h | ⟨fe, hfe, hnode, hge⟩
      · left
        rw [settled_has_cons, h]
        simp
      · rcases hrest fe hfe with hfe' | rfl
        · exact Or.inr ⟨fe, List.mem_append.mpr (Or.inl hfe'), hnode, hge⟩
        · left
          rw [settled_has_cons, ← hnode]
          simp
  · rcases inv.start with h | ⟨fe, hfe, hnode, hg0⟩
    · left
      rw [settled_has_cons, h]
      simp
    · rcases hrest fe hfe with hfe' | rfl
      · exact Or.inr ⟨fe, List.mem_append.mpr (Or.inl hfe'), hnode, hg0⟩
      · left
        rw [settled_has_cons, ← hnode]
        simp
  · intro x hx
    rcases List.mem_cons.mp hx with rfl | hx'
    · exact inv.entry_nodes e hmem
    · exact inv.settled_nodes x hx'
  · simp only [List.map_cons, List.nodup_cons]
    refine ⟨?_, inv.settled_nodup⟩
    intro hmem'
    obtain ⟨x, hxS, hx1⟩ := List.mem_map.mp hmem'
    exact (settled_has_false_not_mem hset x hxS) hx1
  · rw [settled_has_cons]
    have h1 : decide (e.node = t) = false := by
      simp [hnt]
    rw [h1, inv.target_unsettled]
    rfl

end SafePath

namespace SafePath

/-- Soundness of the search loop: a returned pair is an optimal path with its
cost, and a `NetworkXNoPath` outcome means no path exists. -/
theorem gen_search_sound {G : List Edge} {key : String} {f : Pt → ℚ} {s t : Pt}
    (hu : edges_unique G) (hc : consistent_heuristic G key f) :
    ∀ (fuel : ℕ) (F : List SEntry) (S : List (Pt × ℚ)),
      SearchInv G key f s t F S →
      (∀ p c, gen_search_loop G key f t fuel F S = some (some (p, c)) →
        is_path G s t p ∧ path_weight G key p = c ∧
          ∀ q, is_path G s t q → c ≤ path_weight G key q) ∧
      (gen_search_loop G key f t fuel F S = some none → ∀ q, ¬ is_path G s t q) := by
  intro fuel
  induction fuel with
  | zero =>
    intro F S _
    refine ⟨?_, ?_⟩
    · intro p c h
      simp [gen_search_loop] at h
    · intro h
      simp [gen_search_loop] at h
  | succ n ih =>
    intro F S inv
    refine ⟨?_, ?_⟩
    · intro p c h
      simp only [gen_search_loop] at h
      cases hpop : pop_min f F with
      | none =>
        rw [hpop] at h
        simp at h
      | some em =>
        obtain ⟨e, F'⟩ := em
        rw [hpop] at h
        simp only at h
        by_cases hnt : e.node = t
        · rw [if_pos hnt] at h
          simp only [Option.some.injEq, Prod.mk.injEq] at h
          obtain ⟨hp1, hc1⟩ := h
          subst hp1
          subst hc1
          obtain ⟨hpath, hpw⟩ := inv.entries e (pop_min_cases hpop).1
          rw [hnt] at hpath
          refine ⟨hpath, hpw, ?_⟩
          intro q hq
          obtain ⟨fe, hfe, hle⟩ := search_cover hu hc inv hq inv.target_unsettled
          have hemin := (pop_min_cases hpop).2.2.2.2 fe hfe
          rw [hnt] at hemin
          linarith
        · rw [if_neg hnt] at h
          cases hset : settled_has S e.node with
          | true =>
            simp only [hset, if_true] at h
            exact (ih F' S (search_inv_skip inv hpop hset)).1 p c h
          | false =>
            simp only [hset, Bool.false_eq_true, if_false] at h
            exact (ih _ _ (search_inv_settle hu hc inv hpop hset hnt)).1 p c h
    · intro h
      simp only [gen_search_loop] at h
      cases hpop : pop_min f F with
      | none =>
        have hF : F = [] := pop_min_none_iff.mp hpop
        intro q hq
        obtain ⟨fe, hfe, -⟩ := search_cover hu hc inv hq inv.target_unsettled
        rw [hF] at hfe
        cases hfe
      | some em =>
        obtain ⟨e, F'⟩ := em
        rw [hpop] at h
        simp only at h
        by_cases hnt : e.node = t
        · rw [if_pos hnt] at h
          simp at h
        · rw [if_neg hnt] at h
          cases hset : settled_has S e.node with
          | true =>
            simp only [hset, if_true] at h
            exact (ih F' S (search_inv_skip inv hpop hset)).2 h
          | false =>
            simp only [hset, Bool.false_eq_true, if_false] at h
            exact (ih _ _ (search_inv_settle hu hc inv hpop hset hnt)).2 h

end SafePath

namespace SafePath

/-! Termination: sufficient fuel drains the queue. -/

def unsettled_count (G : List Edge) (s : Pt) (S : List (Pt × ℚ)) : ℕ :=
  ((s :: graph_nodes G).filter (fun x => !settled_has S x)).length

def search_measure (G : List Edge) (s : Pt) (F : List SEntry)
    (S : List (Pt × ℚ)) : ℕ :=
  F.length + unsettled_count G s S * (G.length + 1)

theorem length_filter_mono {α : Type} (l : List α) (p q : α → Bool)
    (himp : ∀ x, q x = true → p x = true) :
    (l.filter q).length ≤ (l.filter p).length := by
  induction l with
  | nil => simp
  | cons a l ih =>
    rw [List.filter_cons, List.filter_cons]
    by_cases hq : q a = true
    · rw [if_pos hq, if_pos (himp a hq)]
      simpa using ih
    · rw [if_neg hq]
      by_cases hp : p a = true
      · rw [if_pos hp]
        simp only [List.length_cons]
        omega
      · rw [if_neg hp]
        exact ih

theorem length_filter_settle {α : Type} (l : List α) (p q : α → Bool)
    (himp : ∀ x, q x = true → p x = true) (u : α) (hu : u ∈ l)
    (hp : p u = true) (hq : q u = false) :
    (l.filter q).length + 1 ≤ (l.filter p).length := by
  induction l with
  | nil => cases hu
  | cons a l ih =>
    rw [List.filter_cons, List.filter_cons]
    rcases List.mem_cons.mp hu with rfl | hu'
    · rw [if_neg (by simp [hq]), if_pos hp]
      simp only [List.length_cons]
      have := length_filter_mono l p q himp
      omega
    · by_cases hqa : q a = true
      · rw [if_pos hqa, if_pos (himp a hqa)]
        simp only [List.length_cons]
        have := ih hu'
        omega
      · rw [if_neg hqa]
        by_cases hpa : p a = true
        · rw [if_pos hpa]
          simp only [List.length_cons]
          have := ih hu'
          omega
        · rw [if_neg hpa]
          exact ih hu'

theorem unsettled_count_settle {G : List Edge} {s : Pt} {S : List (Pt × ℚ)}
    {u : Pt} {c : ℚ} (hmem : u ∈ s :: graph_nodes G)
    (hset : settled_has S u = false) :
    unsettled_count G s ((u, c) :: S) + 1 ≤ unsettled_count G s S := by
  unfold unsettled_count
  refine length_filter_settle _ _ _ ?_ u hmem (by simp [hset]) ?_
  · intro x hx
    simp only [Bool.not_eq_eq_eq_not, Bool.not_true] at hx ⊢
    rw [settled_has_cons] at hx
    rcases Bool.or_eq_false_iff.mp hx with ⟨-, h2⟩
    exact h2
  · simp [settled_has_cons]

theorem expand_length_le (G : List Edge) (key : String) (e : SEntry) :
    (expand G key e).length ≤ G.length := by
  unfold expand successors
  rw [List.length_map]
  exact List.length_filter_le _ _

/-- With fuel exceeding the measure, the loop cannot run out. -/
theorem gen_search_term {G : List Edge} {key : String} {f : Pt → ℚ} {s t : Pt}
    (hu : edges_unique G) (hc : consistent_heuristic G key f) :
    ∀ (fuel : ℕ) (F : List SEntry) (S : List (Pt × ℚ)),
      SearchInv G key f s t F S → search_measure G s F S < fuel →
      gen_search_loop G key f t fuel F S ≠ none := by
  intro fuel
  induction fuel with
  | zero =>
    intro F S _ hmeas
    cases hmeas
  | succ n ih =>
    intro F S inv hmeas
    simp only [gen_search_loop]
    cases hpop : pop_min f F with
    | none => simp
    | some em =>
      obtain ⟨e, F'⟩ := em
      simp only
      by_cases hnt : e.node = t
      · rw [if_pos hnt]
        simp
      · rw [if_neg hnt]
        have hlen : F.length = F'.length + 1 := (pop_min_cases hpop).2.1
        cases hset : settled_has S e.node with
        | true =>
          simp only [if_true]
          apply ih F' S (search_inv_skip inv hpop hset)
          unfold search_measure at hmeas ⊢
          omega
        | false =>
          simp only [Bool.false_eq_true, if_false]
          apply ih _ _ (search_inv_settle hu hc inv hpop hset hnt)
          have hcnt : unsettled_count G s ((e.node, e.g) :: S) + 1 ≤
              unsettled_count G s S :=
            unsettled_count_settle (inv.entry_nodes e (pop_min_cases hpop).1) hset
          have hexp : (expand G key e).length ≤ G.length := expand_length_le G key e
          unfold search_measure at hmeas ⊢
          rw [List.length_append]
          have hmul : (unsettled_count G s ((e.node, e.g) :: S) + 1) * (G.length + 1) ≤
              unsettled_count G s S * (G.length + 1) :=
            Nat.mul_le_mul_right _ hcnt
          have hdistrib : (unsettled_count G s ((e.node, e.g) :: S) + 1) * (G.length + 1) =
              unsettled_count G s ((e.node, e.g) :: S) * (G.length + 1) +
                (G.length + 1) := by ring
          omega

end SafePath

namespace SafePath

theorem search_inv_init (G : List Edge) (key : String) (f : Pt → ℚ) (s t : Pt) :
    SearchInv G key f s t [⟨0, s, [s]⟩] [] := by
  refine ⟨?_, ?_, ?_, ?_, ?_, ?_, ?_, ?_, ?_⟩
  · intro fe hfe
    rw [List.mem_singleton.mp hfe]
    exact ⟨is_path_singleton G s, path_weight_singleton G key s⟩
  · intro fe hfe
    rw [List.mem_singleton.mp hfe]
    exact List.mem_cons_self _ _
  · intro u du h
    simp [settled_get] at h
  · intro u du h
    simp [settled_get] at h
  · intro u du h
    simp [settled_get] at h
  · exact Or.inr ⟨⟨0, s, [s]⟩, List.mem_singleton.mpr rfl, rfl, rfl⟩
  · intro x hx
    cases hx
  · simp
  · rfl

theorem add_node_length_le (ns : List Pt) (p : Pt) :
    (add_node ns p).length ≤ ns.length + 1 := by
  unfold add_node
  by_cases h : p ∈ ns
  · rw [if_pos h]
    omega
  · rw [if_neg h]
    simp

theorem graph_nodes_length_le (G : List Edge) :
    (graph_nodes G).length ≤ 2 * G.length := by
  suffices h : ∀ ns : List Pt,
      (G.foldl (fun ns e => add_node (add_node ns e.src) e.dst) ns).length ≤
        ns.length + 2 * G.length by
    simpa [graph_nodes] using h []
  induction G with
  | nil => simp
  | cons a G ihg =>
    intro ns
    simp only [List.foldl_cons, List.length_cons]
    have h1 := ihg (add_node (add_node ns a.src) a.dst)
    have h2 := add_node_length_le ns a.src
    have h3 := add_node_length_le (add_node ns a.src) a.dst
    omega

theorem search_fuel_sufficient (G : List Edge) (s : Pt) :
    search_measure G s [⟨0, s, [s]⟩] [] < search_fuel G := by
  unfold search_measure search_fuel unsettled_count
  have h1 : ((s :: graph_nodes G).filter (fun x => !settled_has [] x)).length ≤
      2 * G.length + 1 := by
    have ha := List.length_filter_le (fun x => !settled_has [] x) (s :: graph_nodes G)
    have hb := graph_nodes_length_le G
    simp only [List.length_cons] at ha
    omega
  have h2 : ((s :: graph_nodes G).filter (fun x => !settled_has [] x)).length *
      (G.length + 1) ≤ (2 * G.length + 1) * (G.length + 1) :=
    Nat.mul_le_mul_right _ h1
  have h3 : (2 * G.length + 2) * (G.length + 2) =
      (2 * G.length + 1) * (G.length + 1) + (3 * G.length + 3) := by ring
  simp only [List.length_singleton]
  omega

/-- Soundness of a full search run: any returned pair is an optimal path. -/
theorem gen_search_run_sound {G : List Edge} {key : String} {f : Pt → ℚ}
    {s t : Pt} (hu : edges_unique G) (hc : consistent_heuristic G key f)
    {p : List Pt} {c : ℚ}
    (h : (gen_search_loop G key f t (search_fuel G) [⟨0, s, [s]⟩] []).join =
      some (p, c)) :
    is_path G s t p ∧ path_weight G key p = c ∧
      ∀ q, is_path G s t q → c ≤ path_weight G key q := by
  have hsound := gen_search_sound hu hc (search_fuel G) [⟨0, s, [s]⟩] []
    (search_inv_init G key f s t)
  rcases hres : gen_search_loop G key f t (search_fuel G) [⟨0, s, [s]⟩] [] with - | r
  · rw [hres] at h
    cases h
  · rw [hres] at h
    cases r with
    | none => cases h
    | some pc =>
      have hpc : pc = (p, c) := by
        simpa [Option.join] using h
      subst hpc
      exact hsound.1 p c (by rw [hres])

/-- A `none` run means the target is unreachable. -/
theorem gen_search_run_none {G : List Edge} {key : String} {f : Pt → ℚ}
    {s t : Pt} (hu : edges_unique G) (hc : consistent_heuristic G key f)
    (h : (gen_search_loop G key f t (search_fuel G) [⟨0, s, [s]⟩] []).join = none) :
    ∀ q, ¬ is_path G s t q := by
  have hsound := gen_search_sound hu hc (search_fuel G) [⟨0, s, [s]⟩] []
    (search_inv_init G key f s t)
  have hterm := gen_search_term hu hc (search_fuel G) [⟨0, s, [s]⟩] []
    (search_inv_init G key f s t) (search_fuel_sufficient G s)
  rcases hres : gen_search_loop G key f t (search_fuel G) [⟨0, s, [s]⟩] [] with - | r
  · exact absurd hres hterm
  · rw [hres] at h
    cases r with
    | none => exact hsound.2 (by rw [hres])
    | some pc => cases h

/-- Completeness: a reachable target yields a result. -/
theorem gen_search_run_complete {G : List Edge} {key : String} {f : Pt → ℚ}
    {s t : Pt} (hu : edges_unique G) (hc : consistent_heuristic G key f)
    (hreach : ∃ q, is_path G s t q) :
    ((gen_search_loop G key f t (search_fuel G) [⟨0, s, [s]⟩] []).join).isSome =
      true := by
  rcases hj : (gen_search_loop G key f t (search_fuel G) [⟨0, s, [s]⟩] []).join with - | pc
  · obtain ⟨q, hq⟩ := hreach
    exact absurd hq (gen_search_run_none hu hc hj q)
  · rfl

/-- The heuristic of weight 0 is consistent exactly when the edge weights are
nonnegative; this is the `nx.dijkstra_path` precondition. -/
theorem zero_heuristic_consistent {G : List Edge} {key : String}
    (hw : ∀ e ∈ G, 0 ≤ nx_weight key e) :
    consistent_heuristic G key (fun _ => 0) := by
  intro e he
  simpa using hw e he

end SafePath

namespace SafePath

/-! Path splicing and cycle removal (nonnegative weights). -/

theorem path_weight_nonneg {G : List Edge} {key : String}
    (hw : ∀ e ∈ G, 0 ≤ nx_weight key e) :
    ∀ p, edges_ok G p = true → 0 ≤ path_weight G key p := by
  intro p
  induction p with
  | nil => intro _; simp [path_weight]
  | cons a rest ih =>
    intro h
    cases rest with
    | nil => simp [path_weight]
    | cons b rest' =>
      simp only [edges_ok, Bool.and_eq_true] at h
      obtain ⟨e, he⟩ := Option.isSome_iff_exists.mp h.1
      have h1 : 0 ≤ edge_weight G key a b := by
        unfold edge_weight
        rw [he]
        exact hw e (edge_between_spec he).1
      have h2 := ih h.2
      show 0 ≤ edge_weight G key a b + path_weight G key (b :: rest')
      linarith

theorem edges_ok_split {G : List Edge} (x : Pt) (ys : List Pt) :
    ∀ xs : List Pt, edges_ok G (xs ++ x :: ys) =
      (edges_ok G (xs ++ [x]) && edges_ok G (x :: ys)) := by
  intro xs
  induction xs with
  | nil =>
    show edges_ok G (x :: ys) = (edges_ok G [x] && edges_ok G (x :: ys))
    simp [edges_ok]
  | cons a xs ih =>
    cases xs with
    | nil =>
      show edges_ok G (a :: x :: ys) =
        (edges_ok G (a :: [x]) && edges_ok G (x :: ys))
      show ((edge_between G a x).isSome && edges_ok G (x :: ys)) = _
      have h1 : edges_ok G (a :: [x]) = ((edge_between G a x).isSome && true) := rfl
      rw [h1, Bool.and_true]
    | cons b xs' =>
      show ((edge_between G a b).isSome && edges_ok G ((b :: xs') ++ x :: ys)) = _
      rw [ih]
      have h2 : edges_ok G ((a :: b :: xs') ++ [x]) =
          ((edge_between G a b).isSome && edges_ok G ((b :: xs') ++ [x])) := rfl
      rw [h2, Bool.and_assoc]

theorem path_weight_split {G : List Edge} {key : String} (x : Pt) (ys : List Pt) :
    ∀ xs : List Pt, path_weight G key (xs ++ x :: ys) =
      path_weight G key (xs ++ [x]) + path_weight G key (x :: ys) := by
  intro xs
  induction xs with
  | nil =>
    show path_weight G key (x :: ys) = path_weight G key [x] + path_weight G key (x :: ys)
    rw [path_weight_singleton]
    ring
  | cons a xs ih =>
    cases xs with
    | nil =>
      show path_weight G key (a :: x :: ys) =
        path_weight G key (a :: [x]) + path_weight G key (x :: ys)
      show edge_weight G key a x + path_weight G key (x :: ys) = _
      have h1 : path_weight G key (a :: [x]) = edge_weight G key a x + 0 := rfl
      rw [h1]
      ring
    | cons b xs' =>
      show edge_weight G key a b + path_weight G key ((b :: xs') ++ x :: ys) = _
      rw [ih]
      have h2 : path_weight G key ((a :: b :: xs') ++ [x]) =
          edge_weight G key a b + path_weight G key ((b :: xs') ++ [x]) := rfl
      rw [h2]
      ring

theorem not_nodup_split {α : Type} [DecidableEq α] {p : List α} (h : ¬ p.Nodup) :
    ∃ (l₁ : List α) (x : α) (l₂ l₃ : List α), p = l₁ ++ x :: l₂ ++ x :: l₃ := by
  induction p with
  | nil => simp at h
  | cons a p ih =>
    by_cases ha : a ∈ p
    · obtain ⟨l₂, l₃, rfl⟩ := List.append_of_mem ha
      exact ⟨[], a, l₂, l₃, by simp⟩
    · have hp : ¬ p.Nodup := by
        intro hnd
        exact h (List.nodup_cons.mpr ⟨ha, hnd⟩)
      obtain ⟨l₁, x, l₂, l₃, rfl⟩ := ih hp
      exact ⟨a :: l₁, x, l₂, l₃, rfl⟩

theorem head?_append_cons {α : Type} (l₁ : List α) (x : α) (L L' : List α) :
    (l₁ ++ x :: L).head? = (l₁ ++ x :: L').head? := by
  cases l₁ <;> simp

theorem getLast?_append_cons_ne_nil {α : Type} (l₁ : List α) (x : α) (L : List α) :
    (l₁ ++ x :: L).getLast? = (x :: L).getLast? := by
  rw [List.getLast?_append_of_ne_nil]
  simp

/-- Removing one cycle from a non-simple path keeps it a path between the
same endpoints, does not increase its weight (weights nonnegative), and
shortens it. -/
theorem path_remove_cycle {G : List Edge} {key : String} {s t : Pt}
    (hw : ∀ e ∈ G, 0 ≤ nx_weight key e) (l₁ l₂ l₃ : List Pt) (x : Pt)
    (hp : is_path G s t (l₁ ++ x :: l₂ ++ x :: l₃)) :
    is_path G s t (l₁ ++ x :: l₃) ∧
      path_weight G key (l₁ ++ x :: l₃) ≤
        path_weight G key (l₁ ++ x :: l₂ ++ x :: l₃) := by
  obtain ⟨hh, hl, hok⟩ := hp
  have hassoc : l₁ ++ x :: l₂ ++ x :: l₃ = l₁ ++ x :: (l₂ ++ x :: l₃) := by simp
  rw [hassoc] at hh hl hok
  -- split the chain at the first x, then at the second x
  rw [edges_ok_split x (l₂ ++ x :: l₃) l₁] at hok
  rw [Bool.and_eq_true] at hok
  have hok2 := hok.2
  have hx2 : (x :: (l₂ ++ x :: l₃)) = (x :: l₂) ++ x :: l₃ := by simp
  rw [hx2, edges_ok_split x l₃ (x :: l₂), Bool.and_eq_true] at hok2
  constructor
  · refine ⟨?_, ?_, ?_⟩
    · rw [head?_append_cons l₁ x l₃ (l₂ ++ x :: l₃)]
      exact hh
    · rw [getLast?_append_cons_ne_nil l₁ x l₃]
      rw [getLast?_append_cons_ne_nil l₁ x (l₂ ++ x :: l₃)] at hl
      rw [show (x :: (l₂ ++ x :: l₃)) = (x :: l₂) ++ x :: l₃ from by simp,
        getLast?_append_cons_ne_nil (x :: l₂) x l₃] at hl
      exact hl
    · rw [edges_ok_split x l₃ l₁, Bool.and_eq_true]
      exact ⟨hok.1, hok2.2⟩
  · rw [hassoc, path_weight_split x (l₂ ++ x :: l₃) l₁,
      path_weight_split x l₃ l₁]
    rw [show (x :: (l₂ ++ x :: l₃)) = (x :: l₂) ++ x :: l₃ from by simp,
      path_weight_split x l₃ (x :: l₂)]
    have h1 : 0 ≤ path_weight G key ((x :: l₂) ++ [x]) := by
      apply path_weight_nonneg hw
      rw [show (x :: l₂) ++ [x] = x :: (l₂ ++ [x]) from by simp]
      have h2 := hok2.1
      rwa [show (x :: l₂) ++ [x] = x :: (l₂ ++ [x]) from by simp] at h2
    linarith

/-- Every path admits a simple path between the same endpoints of no larger
weight. -/
theorem path_simplify {G : List Edge} {key : String} {s t : Pt}
    (hw : ∀ e ∈ G, 0 ≤ nx_weight key e) :
    ∀ (n : ℕ) (p : List Pt), p.length ≤ n → is_path G s t p →
      ∃ q, is_path G s t q ∧ q.Nodup ∧
        path_weight G key q ≤ path_weight G key p := by
  intro n
  induction n with
  | zero =>
    intro p hl hp
    rw [Nat.le_zero, List.length_eq_zero] at hl
    rw [hl] at hp
    exact absurd hp is_path_nil_elim
  | succ n ih =>
    intro p hl hp
    by_cases hnd : p.Nodup
    · exact ⟨p, hp, hnd, le_refl _⟩
    · obtain ⟨l₁, x, l₂, l₃, rfl⟩ := not_nodup_split hnd
      obtain ⟨hq, hqw⟩ := path_remove_cycle hw l₁ l₂ l₃ x hp
      have hlen : (l₁ ++ x :: l₃).length ≤ n := by
        simp only [List.length_append, List.length_cons] at hl ⊢
        omega
      obtain ⟨q', hq', hnd', hw'⟩ := ih (l₁ ++ x :: l₃) hlen hq
      exact ⟨q', hq', hnd', le_trans hw' hqw⟩

theorem path_nodes_mem {G : List Edge} :
    ∀ (p : List Pt) (s t : Pt), is_path G s t p →
      ∀ x ∈ p, x ∈ s :: graph_nodes G := by
  intro p
  induction p with
  | nil =>
    intro s t hp
    exact absurd hp is_path_nil_elim
  | cons a rest ih =>
    intro s t hp x hx
    cases rest with
    | nil =>
      obtain ⟨h1, -⟩ := is_path_single_iff.mp hp
      rcases List.mem_singleton.mp hx with rfl
      rw [h1]
      exact List.mem_cons_self _ _
    | cons b rest' =>
      obtain ⟨rfl, hsome, htail⟩ := is_path_cons_iff.mp hp
      obtain ⟨e, he⟩ := Option.isSome_iff_exists.mp hsome
      obtain ⟨heG, hes, hed⟩ := edge_between_spec he
      rcases List.mem_cons.mp hx with rfl | hx'
      · exact List.mem_cons_self _ _
      · have hmem := ih b t htail x hx'
        rcases List.mem_cons.mp hmem with rfl | hmem'
        · exact List.mem_cons_of_mem _ (graph_nodes_spec.mpr ⟨e, heG, Or.inr hed⟩)
        · exact List.mem_cons_of_mem _ hmem'

theorem nodup_path_length {G : List Edge} {s t : Pt} {p : List Pt}
    (hp : is_path G s t p) (hnd : p.Nodup) :
    p.length ≤ (graph_nodes G).length + 1 := by
  have hsub : ∀ x ∈ p, x ∈ s :: graph_nodes G := path_nodes_mem p s t hp
  have h1 : p.toFinset.card = p.length := List.toFinset_card_of_nodup hnd
  have h2 : p.toFinset ⊆ (s :: graph_nodes G).toFinset := by
    intro x hx
    rw [List.mem_toFinset] at hx ⊢
    exact hsub x hx
  have h3 := Finset.card_le_card h2
  have h4 := List.toFinset_card_le (s :: graph_nodes G)
  simp only [List.length_cons] at h4
  omega

end SafePath


namespace SafePath

/-! Bellman-Ford metatheory. -/

theorem bf_lookup_map_replace (d : List (Pt × ℚ × List Pt)) (u : Pt) (c : ℚ)
    (p : List Pt) (h : d.any (fun x => decide (x.1 = u)) = true) :
    bf_lookup (d.map (fun x => if x.1 = u then (u, c, p) else x)) u = some (c, p) := by
  induction d with
  | nil => cases h
  | cons a d ih =>
    simp only [List.map_cons]
    by_cases ha : a.1 = u
    · rw [if_pos ha]
      unfold bf_lookup
      rw [List.find?_cons_of_pos _ (by simp)]
      rfl
    · rw [if_neg ha]
      unfold bf_lookup at ih ⊢
      rw [List.find?_cons_of_neg _ (by simpa using ha)]
      have h' : d.any (fun x => decide (x.1 = u)) = true := by
        rcases List.any_eq_true.mp h with ⟨x, hx, hdec⟩
        rcases List.mem_cons.mp hx with rfl | hx'
        · exact absurd (by simpa using hdec) ha
        · exact List.any_eq_true.mpr ⟨x, hx', hdec⟩
      exact ih h'

theorem bf_lookup_map_replace_ne (d : List (Pt × ℚ × List Pt)) (u : Pt) (c : ℚ)
    (p : List Pt) {x : Pt} (hx : x ≠ u) :
    bf_lookup (d.map (fun y => if y.1 = u then (u, c, p) else y)) x =
      bf_lookup d x := by
  induction d with
  | nil => rfl
  | cons a d ih =>
    simp only [List.map_cons]
    unfold bf_lookup at ih ⊢
    by_cases ha : a.1 = u
    · rw [if_pos ha]
      rw [List.find?_cons_of_neg _ (by simpa using Ne.symm hx)]
      rw [List.find?_cons_of_neg _ (by simpa [ha] using Ne.symm hx)]
      exact ih
    · rw [if_neg ha]
      by_cases hax : a.1 = x
      · rw [List.find?_cons_of_pos _ (by simpa using hax),
          List.find?_cons_of_pos _ (by simpa using hax)]
      · rw [List.find?_cons_of_neg _ (by simpa using hax),
          List.find?_cons_of_neg _ (by simpa using hax)]
        exact ih

theorem bf_lookup_append_self (d : List (Pt × ℚ × List Pt)) (u : Pt) (c : ℚ)
    (p : List Pt) (h : d.any (fun x => decide (x.1 = u)) = false) :
    bf_lookup (d ++ [(u, c, p)]) u = some (c, p) := by
  induction d with
  | nil =>
    unfold bf_lookup
    rw [List.nil_append, List.find?_cons_of_pos _ (by simp)]
    rfl
  | cons a d ih =>
    rw [List.any_cons, Bool.or_eq_false_iff] at h
    unfold bf_lookup at ih ⊢
    rw [List.cons_append, List.find?_cons_of_neg _ (by simpa using h.1)]
    exact ih h.2

theorem bf_lookup_append_ne (d : List (Pt × ℚ × List Pt)) (u : Pt) (c : ℚ)
    (p : List Pt) {x : Pt} (hx : x ≠ u) :
    bf_lookup (d ++ [(u, c, p)]) x = bf_lookup d x := by
  induction d with
  | nil =>
    unfold bf_lookup
    rw [List.nil_append, List.find?_cons_of_neg _ (by simpa using Ne.symm hx)]
  | cons a d ih =>
    unfold bf_lookup at ih ⊢
    rw [List.cons_append]
    by_cases hax : a.1 = x
    · rw [List.find?_cons_of_pos _ (by simpa using hax),
        List.find?_cons_of_pos _ (by simpa using hax)]
    · rw [List.find?_cons_of_neg _ (by simpa using hax),
        List.find?_cons_of_neg _ (by simpa using hax)]
      exact ih

theorem bf_lookup_set_self (d : List (Pt × ℚ × List Pt)) (u : Pt) (c : ℚ)
    (p : List Pt) : bf_lookup (bf_set d u c p) u = some (c, p) := by
  unfold bf_set
  cases h : d.any (fun x => decide (x.1 = u)) with
  | true =>
    rw [if_pos rfl]
    exact bf_lookup_map_replace d u c p h
  | false =>
    rw [if_neg (by simp)]
    exact bf_lookup_append_self d u c p h

theorem bf_lookup_set_ne (d : List (Pt × ℚ × List Pt)) (u : Pt) (c : ℚ)
    (p : List Pt) {x : Pt} (hx : x ≠ u) :
    bf_lookup (bf_set d u c p) x = bf_lookup d x := by
  unfold bf_set
  by_cases h : d.any (fun y => decide (y.1 = u)) = true
  · rw [if_pos h]
    exact bf_lookup_map_replace_ne d u c p hx
  · rw [if_neg h]
    exact bf_lookup_append_ne d u c p hx

/-- Relaxation never worsens an existing tentative distance. -/
theorem bf_relax_le (key : String) (d : List (Pt × ℚ × List Pt)) (e : Edge) :
    ∀ x cx px, bf_lookup d x = some (cx, px) →
      ∃ cx' px', bf_lookup (bf_relax key d e) x = some (cx', px') ∧ cx' ≤ cx := by
  intro x cx px hx
  unfold bf_relax
  cases hsrc : bf_lookup d e.src with
  | none => exact ⟨cx, px, hx, le_refl _⟩
  | some dup =>
    obtain ⟨du, pu⟩ := dup
    simp only
    cases hdst : bf_lookup d e.dst with
    | none =>
      by_cases hxe : x = e.dst
      · rw [hxe] at hx
        rw [hx] at hdst
        cases hdst
      · rw [bf_lookup_set_ne _ _ _ _ hxe]
        exact ⟨cx, px, hx, le_refl _⟩
    | some dvp =>
      obtain ⟨dv, pv⟩ := dvp
      simp only
      by_cases hlt : du + nx_weight key e < dv
      · rw [if_pos hlt]
        by_cases hxe : x = e.dst
        · subst hxe
          rw [hx] at hdst
          have hdv : dv = cx := by
            simpa using congrArg (fun o => (Option.map Prod.fst o)) hdst.symm
          rw [bf_lookup_set_self]
          exact ⟨du + nx_weight key e, pu ++ [e.dst], rfl, by rw [← hdv]; exact le_of_lt hlt⟩
        · rw [bf_lookup_set_ne _ _ _ _ hxe]
          exact ⟨cx, px, hx, le_refl _⟩
      · rw [if_neg hlt]
        exact ⟨cx, px, hx, le_refl _⟩

/-- Folding relaxations never worsens an existing tentative distance. -/
theorem bf_fold_le (key : String) (es : List Edge) :
    ∀ (d : List (Pt × ℚ × List Pt)) (x : Pt) (cx : ℚ) (px : List Pt),
      bf_lookup d x = some (cx, px) →
      ∃ cx' px', bf_lookup (es.foldl (bf_relax key) d) x = some (cx', px') ∧
        cx' ≤ cx := by
  induction es with
  | nil =>
    intro d x cx px hx
    exact ⟨cx, px, hx, le_refl _⟩
  | cons e es ih =>
    intro d x cx px hx
    obtain ⟨c1, p1, h1, hle1⟩ := bf_relax_le key d e x cx px hx
    obtain ⟨c2, p2, h2, hle2⟩ := ih (bf_relax key d e) x c1 p1 h1
    exact ⟨c2, p2, h2, le_trans hle2 hle1⟩

end SafePath

namespace SafePath

/-- Soundness invariant: every stored entry is a real path with its weight. -/
def bf_sound (G : List Edge) (key : String) (s : Pt)
    (d : List (Pt × ℚ × List Pt)) : Prop :=
  ∀ x cx px, bf_lookup d x = some (cx, px) →
    is_path G s x px ∧ path_weight G key px = cx

theorem bf_relax_sound {G : List Edge} {key : String} {s : Pt}
    (hu : edges_unique G) {d : List (Pt × ℚ × List Pt)} {e : Edge} (he : e ∈ G)
    (hs : bf_sound G key s d) : bf_sound G key s (bf_relax key d e) := by
  have hbet : edge_between G e.src e.dst = some e := edge_between_of_mem hu he
  have hnew : ∀ du pu, bf_lookup d e.src = some (du, pu) →
      is_path G s e.dst (pu ++ [e.dst]) ∧
        path_weight G key (pu ++ [e.dst]) = du + nx_weight key e := by
    intro du pu hdu
    obtain ⟨hp, hw⟩ := hs e.src du pu hdu
    refine ⟨is_path_append_single hp (by rw [hbet]; rfl), ?_⟩
    rw [path_weight_append_single hp.2.1, hw]
    have hwq : edge_weight G key e.src e.dst = nx_weight key e := by
      unfold edge_weight
      rw [hbet]
    rw [hwq]
  intro x cx px hx
  unfold bf_relax at hx
  cases hsrc : bf_lookup d e.src with
  | none =>
    rw [hsrc] at hx
    exact hs x cx px hx
  | some dup =>
    obtain ⟨du, pu⟩ := dup
    rw [hsrc] at hx
    simp only at hx
    cases hdst : bf_lookup d e.dst with
    | none =>
      rw [hdst] at hx
      by_cases hxe : x = e.dst
      · subst hxe
        rw [bf_lookup_set_self] at hx
        obtain ⟨h1, h2⟩ : cx = du + nx_weight key e ∧ px = pu ++ [e.dst] := by
          constructor <;> simp_all
        subst h1
        subst h2
        exact hnew du pu hsrc
      · rw [bf_lookup_set_ne _ _ _ _ hxe] at hx
        exact hs x cx px hx
    | some dvp =>
      obtain ⟨dv, pv⟩ := dvp
      rw [hdst] at hx
      simp only at hx
      by_cases hlt : du + nx_weight key e < dv
      · rw [if_pos hlt] at hx
        by_cases hxe : x = e.dst
        · subst hxe
          rw [bf_lookup_set_self] at hx
          obtain ⟨h1, h2⟩ : cx = du + nx_weight key e ∧ px = pu ++ [e.dst] := by
            constructor <;> simp_all
          subst h1
          subst h2
          exact hnew du pu hsrc
        · rw [bf_lookup_set_ne _ _ _ _ hxe] at hx
          exact hs x cx px hx
      · rw [if_neg hlt] at hx
        exact hs x cx px hx

theorem bf_fold_sound {G : List Edge} {key : String} {s : Pt}
    (hu : edges_unique G) :
    ∀ (es : List Edge), (∀ e ∈ es, e ∈ G) →
      ∀ d, bf_sound G key s d → bf_sound G key s (es.foldl (bf_relax key) d) := by
  intro es
  induction es with
  | nil =>
    intro _ d hd
    exact hd
  | cons e es ih =>
    intro hsub d hd
    exact ih (fun x hx => hsub x (List.mem_cons_of_mem e hx)) (bf_relax key d e)
      (bf_relax_sound hu (hsub e (List.mem_cons_self e es)) hd)

theorem bf_iter_sound {G : List Edge} {key : String} {s : Pt}
    (hu : edges_unique G) :
    ∀ (n : ℕ) (d : List (Pt × ℚ × List Pt)), bf_sound G key s d →
      bf_sound G key s (bf_iter G key n d) := by
  intro n
  induction n with
  | zero =>
    intro d hd
    exact hd
  | succ n ih =>
    intro d hd
    exact ih (bf_round G key d) (bf_fold_sound hu G (fun x hx => hx) d hd)

/-- Processing a fold that contains an edge relaxes that edge against the
distance its source had at the start of the fold. -/
theorem bf_fold_relax_bound (key : String) {es : List Edge} {e : Edge}
    (he : e ∈ es) (d : List (Pt × ℚ × List Pt)) (du : ℚ) (pu : List Pt)
    (hdu : bf_lookup d e.src = some (du, pu)) :
    ∃ c' px', bf_lookup (es.foldl (bf_relax key) d) e.dst = some (c', px') ∧
      c' ≤ du + nx_weight key e := by
  obtain ⟨es1, es2, rfl⟩ := List.append_of_mem he
  rw [List.foldl_append]
  obtain ⟨d1c, d1p, hd1, hled1⟩ := bf_fold_le key es1 d e.src du pu hdu
  rw [List.foldl_cons]
  have hmid : ∃ c2 p2, bf_lookup (bf_relax key (es1.foldl (bf_relax key) d) e) e.dst =
      some (c2, p2) ∧ c2 ≤ d1c + nx_weight key e := by
    generalize hD : es1.foldl (bf_relax key) d = D at hd1
    unfold bf_relax
    rw [hd1]
    simp only
    cases hdst : bf_lookup D e.dst with
    | none =>
      rw [bf_lookup_set_self]
      exact ⟨d1c + nx_weight key e, d1p ++ [e.dst], rfl, le_refl _⟩
    | some dvp =>
      obtain ⟨dv, pv⟩ := dvp
      simp only
      by_cases hlt : d1c + nx_weight key e < dv
      · rw [if_pos hlt, bf_lookup_set_self]
        exact ⟨d1c + nx_weight key e, d1p ++ [e.dst], rfl, le_refl _⟩
      · rw [if_neg hlt]
        exact ⟨dv, pv, hdst, le_of_not_lt hlt⟩
  obtain ⟨c2, p2, h2, hle2⟩ := hmid
  obtain ⟨c3, p3, h3, hle3⟩ := bf_fold_le key es2 _ e.dst c2 p2 h2
  refine ⟨c3, p3, h3, ?_⟩
  have := le_trans hle3 hle2
  linarith

theorem bf_iter_succ_outer (G : List Edge) (key : String) :
    ∀ (n : ℕ) (d : List (Pt × ℚ × List Pt)),
      bf_iter G key (n + 1) d = bf_round G key (bf_iter G key n d) := by
  intro n
  induction n with
  | zero => intro d; rfl
  | succ n ih =>
    intro d
    show bf_iter G key (n + 1) (bf_round G key d) = _
    rw [ih (bf_round G key d)]
    rfl

/-- Peeling the final edge off a chain. -/
theorem edges_ok_append_single_iff {G : List Edge} {u v : Pt} :
    ∀ q : List Pt, q.getLast? = some u →
      edges_ok G (q ++ [v]) = ((edge_between G u v).isSome && edges_ok G q) := by
  intro q
  induction q with
  | nil => intro h; cases h
  | cons a rest ih =>
    intro hq
    cases rest with
    | nil =>
      simp only [List.getLast?_singleton, Option.some.injEq] at hq
      rw [← hq]
      rfl
    | cons b rest' =>
      rw [List.getLast?_cons_cons] at hq
      have hih := ih hq
      show ((edge_between G a b).isSome && edges_ok G ((b :: rest') ++ [v])) = _
      rw [hih]
      have h3 : edges_ok G (a :: b :: rest') =
          ((edge_between G a b).isSome && edges_ok G (b :: rest')) := rfl
      rw [h3, Bool.and_left_comm]

/-- A path to `v` whose body ends at `u` decomposes into a path to `u` and
the final edge. -/
theorem is_path_drop_last {G : List Edge} {s v u : Pt} {q : List Pt}
    (hq : q.getLast? = some u) (hp : is_path G s v (q ++ [v])) :
    is_path G s u q ∧ (edge_between G u v).isSome = true := by
  obtain ⟨hh, -, hok⟩ := hp
  have hqnil : q ≠ [] := by
    intro h
    rw [h] at hq
    cases hq
  rw [edges_ok_append_single_iff q hq, Bool.and_eq_true] at hok
  refine ⟨⟨?_, hq, hok.2⟩, hok.1⟩
  cases q with
  | nil => exact absurd rfl hqnil
  | cons a rest => simpa using hh

/-- After `k` rounds, every path of at most `k` edges bounds the stored
distance of its endpoint. -/
theorem bf_iter_bound {G : List Edge} {key : String} {s : Pt} :
    ∀ (k : ℕ) (p : List Pt) (v : Pt), is_path G s v p → p.length ≤ k + 1 →
      ∃ c' px', bf_lookup (bf_iter G key k [(s, 0, [s])]) v = some (c', px') ∧
        c' ≤ path_weight G key p := by
  intro k
  induction k with
  | zero =>
    intro p v hp hl
    have hp1 : p = [s] ∧ v = s := by
      cases p with
      | nil => exact absurd hp is_path_nil_elim
      | cons a rest =>
        cases rest with
        | nil =>
          obtain ⟨h1, h2⟩ := is_path_single_iff.mp hp
          exact ⟨by rw [h1], h2.trans h1.symm⟩
        | cons b rest' => simp at hl
    obtain ⟨hps, hvs⟩ := hp1
    refine ⟨0, [s], ?_, ?_⟩
    · rw [hvs]
      show bf_lookup [(s, 0, [s])] s = some (0, [s])
      unfold bf_lookup
      rw [List.find?_cons_of_pos _ (by simp)]
      rfl
    · rw [hps, path_weight_singleton]
  | succ k ih =>
    intro p v hp hl
    rw [bf_iter_succ_outer]
    by_cases hshort : p.length ≤ k + 1
    · obtain ⟨c', px', hlook, hle⟩ := ih p v hp hshort
      obtain ⟨c2, p2, h2, hle2⟩ := bf_fold_le key G _ v c' px' hlook
      exact ⟨c2, p2, h2, le_trans hle2 hle⟩
    · have hlen : p.length = k + 2 := by
        have := hp
        omega
      obtain ⟨q, hqnil, rfl⟩ : ∃ q, q ≠ [] ∧ p = q ++ [v] := by
        cases hcase : p.reverse with
        | nil =>
          rw [List.reverse_eq_nil_iff] at hcase
          rw [hcase] at hp
          exact absurd hp is_path_nil_elim
        | cons a as =>
          have hrev : p = as.reverse ++ [a] := by
            have hc := congrArg List.reverse hcase
            simpa using hc
          have hlast : p.getLast? = some v := hp.2.1
          rw [hrev] at hlast
          rw [List.getLast?_append_of_ne_nil _ (by simp)] at hlast
          simp only [List.getLast?_singleton, Option.some.injEq] at hlast
          subst hlast
          refine ⟨as.reverse, ?_, hrev⟩
          intro hnil
          rw [hnil] at hrev
          rw [hrev] at hlen
          simp at hlen
      obtain ⟨u, hu⟩ : ∃ u, q.getLast? = some u := by
        cases hg : q.getLast? with
        | none =>
          rw [List.getLast?_eq_none_iff] at hg
          exact absurd hg hqnil
        | some u => exact ⟨u, rfl⟩
      obtain ⟨hqpath, hedge⟩ := is_path_drop_last hu hp
      obtain ⟨e, he⟩ := Option.isSome_iff_exists.mp hedge
      obtain ⟨heG, hes, hed⟩ := edge_between_spec he
      have hqlen : q.length ≤ k + 1 := by
        rw [List.length_append] at hlen
        simp at hlen
        omega
      obtain ⟨du, pu, hlook, hle⟩ := ih q u hqpath hqlen
      have hsrc : bf_lookup (bf_iter G key k [(s, 0, [s])]) e.src = some (du, pu) := by
        rw [hes]
        exact hlook
      obtain ⟨c', px', hfin, hle'⟩ := bf_fold_relax_bound key heG _ du pu hsrc
      rw [hed] at hfin
      refine ⟨c', px', hfin, ?_⟩
      have hwsplit : path_weight G key (q ++ [v]) =
          path_weight G key q + edge_weight G key u v :=
        path_weight_append_single hu
      have hwq : edge_weight G key u v = nx_weight key e := by
        unfold edge_weight
        rw [show edge_between G u v = some e from he]
      rw [hwsplit, hwq]
      linarith

end SafePath

namespace SafePath

theorem bf_init_sound (G : List Edge) (key : String) (s : Pt) :
    bf_sound G key s [(s, 0, [s])] := by
  intro x cx px hx
  unfold bf_lookup at hx
  by_cases hxs : s = x
  · rw [List.find?_cons_of_pos _ (by simpa using hxs)] at hx
    simp only [Option.map_some', Option.some.injEq] at hx
    have hcx : cx = 0 := by
      have := congrArg Prod.fst hx.symm
      simpa using this
    have hpx : px = [s] := by
      have := congrArg Prod.snd hx.symm
      simpa using this
    subst hcx
    subst hpx
    rw [← hxs]
    exact ⟨is_path_singleton G s, path_weight_singleton G key s⟩
  · rw [List.find?_cons_of_neg _ (by simpa using hxs)] at hx
    simp at hx

/-- Correctness of the Bellman-Ford model: returned pairs are optimal paths,
`none` characterizes unreachability. -/
theorem nx_bellman_ford_correct (G : List Edge) (key : String) (s t : Pt)
    (hu : edges_unique G) (hw : ∀ e ∈ G, 0 ≤ nx_weight key e) :
    (∀ p c, nx_bellman_ford G key s t = some (p, c) →
      is_path G s t p ∧ path_weight G key p = c ∧
        ∀ q, is_path G s t q → c ≤ path_weight G key q) ∧
    (nx_bellman_ford G key s t = none → ∀ q, ¬ is_path G s t q) ∧
    ((∃ q, is_path G s t q) → (nx_bellman_ford G key s t).isSome = true) := by
  have hsound := @bf_iter_sound G key s hu ((graph_nodes G).length + 1)
    [(s, 0, [s])] (bf_init_sound G key s)
  have hbound : ∀ q, is_path G s t q →
      ∃ c' px', bf_lookup (bf_iter G key ((graph_nodes G).length + 1)
        [(s, 0, [s])]) t = some (c', px') ∧ c' ≤ path_weight G key q := by
    intro q hq
    obtain ⟨q', hq', hnd', hw'⟩ := path_simplify hw q.length q (le_refl _) hq
    have hlen : q'.length ≤ (graph_nodes G).length + 1 + 1 := by
      have := nodup_path_length hq' hnd'
      omega
    obtain ⟨c', px', hlook, hle⟩ := bf_iter_bound ((graph_nodes G).length + 1) q' t hq' hlen
    exact ⟨c', px', hlook, le_trans hle hw'⟩
  refine ⟨?_, ?_, ?_⟩
  · intro p c hres
    unfold nx_bellman_ford at hres
    cases hlook : bf_lookup (bf_iter G key ((graph_nodes G).length + 1)
        [(s, 0, [s])]) t with
    | none =>
      rw [hlook] at hres
      cases hres
    | some cp =>
      obtain ⟨c0, p0⟩ := cp
      rw [hlook] at hres
      simp only [Option.map_some', Option.some.injEq] at hres
      have hp0 : p0 = p := by
        have hh := congrArg Prod.fst hres
        simpa using hh
      have hc0 : c0 = c := by
        have hh := congrArg Prod.snd hres
        simpa using hh
      subst hp0
      subst hc0
      obtain ⟨hpath, hpw⟩ := hsound t c0 p0 hlook
      refine ⟨hpath, hpw, ?_⟩
      intro q hq
      obtain ⟨c', px', hlook', hle'⟩ := hbound q hq
      rw [hlook] at hlook'
      have : c' = c0 := by
        have := congrArg (fun o => Option.map Prod.fst o) hlook'.symm
        simpa using this
      rw [← this]
      exact hle'
  · intro hres q hq
    unfold nx_bellman_ford at hres
    obtain ⟨c', px', hlook', -⟩ := hbound q hq
    rw [hlook'] at hres
    cases hres
  · intro hreach
    obtain ⟨q, hq⟩ := hreach
    obtain ⟨c', px', hlook', -⟩ := hbound q hq
    unfold nx_bellman_ford
    rw [hlook']
    rfl

end SafePath

namespace SafePath

/-! Uniqueness of stored edges in built graphs, and correctness of the
standard-algorithm dispatch. -/

theorem edges_unique_nil : edges_unique ([] : List Edge) := by
  intro x hx
  cases hx

theorem add_edge_unique {G : List Edge} (hu : edges_unique G) (e : Edge) :
    edges_unique (add_edge G e) := by
  unfold add_edge
  by_cases h : G.any (fun e0 => decide (e0.src = e.src ∧ e0.dst = e.dst)) = true
  · rw [if_pos h]
    intro x hx y hy h1 h2
    obtain ⟨x0, hx0, hxeq⟩ := List.mem_map.mp hx
    obtain ⟨y0, hy0, hyeq⟩ := List.mem_map.mp hy
    by_cases hcx : x0.src = e.src ∧ x0.dst = e.dst
    · rw [if_pos hcx] at hxeq
      by_cases hcy : y0.src = e.src ∧ y0.dst = e.dst
      · rw [if_pos hcy] at hyeq
        rw [← hxeq, ← hyeq]
      · rw [if_neg hcy] at hyeq
        exfalso
        apply hcy
        rw [← hyeq] at h1 h2
        rw [← hxeq] at h1 h2
        exact ⟨h1.symm, h2.symm⟩
    · rw [if_neg hcx] at hxeq
      by_cases hcy : y0.src = e.src ∧ y0.dst = e.dst
      · rw [if_pos hcy] at hyeq
        exfalso
        apply hcx
        rw [← hxeq] at h1 h2
        rw [← hyeq] at h1 h2
        exact ⟨h1, h2⟩
      · rw [if_neg hcy] at hyeq
        rw [← hxeq, ← hyeq]
        rw [← hxeq, ← hyeq] at h1 h2
        exact hu x0 hx0 y0 hy0 h1 h2
  · rw [if_neg h]
    intro x hx y hy h1 h2
    rcases List.mem_append.mp hx with hx' | hx'
    · rcases List.mem_append.mp hy with hy' | hy'
      · exact hu x hx' y hy' h1 h2
      · rcases List.mem_singleton.mp hy' with rfl
        exfalso
        apply h
        exact List.any_eq_true.mpr ⟨x, hx', by simp [h1, h2]⟩
    · rcases List.mem_singleton.mp hx' with rfl
      rcases List.mem_append.mp hy with hy' | hy'
      · exfalso
        apply h
        exact List.any_eq_true.mpr ⟨y, hy', by simp [h1.symm, h2.symm]⟩
      · rcases List.mem_singleton.mp hy' with rfl
        rfl

theorem foldl_add_edge_unique (f : Row → Edge) :
    ∀ (rs : List Row) (G0 : List Edge), edges_unique G0 →
      edges_unique (rs.foldl (fun G r => add_edge G (f r)) G0) := by
  intro rs
  induction rs with
  | nil =>
    intro G0 h0
    exact h0
  | cons r rs ih =>
    intro G0 h0
    exact ih (add_edge G0 (f r)) (add_edge_unique h0 (f r))

theorem build_edges_unique (rows : List Row) : edges_unique (build_edges rows) :=
  foldl_add_edge_unique mk_edge rows [] edges_unique_nil

theorem build_temp_graph_unique (rows : List Row) (b : Bbox) :
    edges_unique (build_temp_graph_for_bbox rows b) :=
  foldl_add_edge_unique mk_edge (edges_in_bbox rows b) [] edges_unique_nil

theorem router_graph_unique (r : Router) : edges_unique r.G :=
  build_edges_unique r.rows

/-- The cost a standard-algorithm branch reports (`none` when the branch
raised). -/
def branch_cost (x : Except PyErr (List Pt × ℚ)) : Option ℚ :=
  x.toOption.map (fun pc => pc.2)

theorem run_standard_eq_dijkstra (G : List Edge) (key : String) (h : Pt → Pt → ℚ)
    (s t : Pt) : run_standard_algorithm G key h alg_dijkstra s t =
      (match nx_dijkstra G key s t with
       | some r => Except.ok r
       | none => Except.error PyErr.no_path) := rfl

theorem run_standard_eq_astar (G : List Edge) (key : String) (h : Pt → Pt → ℚ)
    (s t : Pt) : run_standard_algorithm G key h alg_astar s t =
      (match nx_astar G key (fun n => h n t) s t with
       | some r => Except.ok r
       | none => Except.error PyErr.no_path) := rfl

theorem run_standard_eq_bellman (G : List Edge) (key : String) (h : Pt → Pt → ℚ)
    (s t : Pt) : run_standard_algorithm G key h alg_bellman_ford s t =
      (match nx_bellman_ford G key s t with
       | some r => Except.ok r
       | none => Except.error PyErr.no_path) := rfl

end SafePath

namespace SafePath

/-- C1 (amended), core equivalence: on a graph with nonnegative weights the
Dijkstra and Bellman-Ford branches of the `calculate_route` dispatch report
the same cost, and the A* branch agrees whenever the data-driven heuristic is
consistent with the edge weights. -/
theorem standard_branches_agree (G : List Edge) (key : String) (ratios : Ratios)
    (s t : Pt) (hu : edges_unique G) (hw : ∀ e ∈ G, 0 ≤ nx_weight key e) :
    branch_cost (run_standard_algorithm G key (route_heuristic ratios key)
        alg_dijkstra s t) =
      branch_cost (run_standard_algorithm G key (route_heuristic ratios key)
        alg_bellman_ford s t) ∧
    (consistent_heuristic G key (fun n => route_heuristic ratios key n t) →
      branch_cost (run_standard_algorithm G key (route_heuristic ratios key)
          alg_dijkstra s t) =
        branch_cost (run_standard_algorithm G key (route_heuristic ratios key)
          alg_astar s t)) := by
  have hbf := nx_bellman_ford_correct G key s t hu hw
  have hc0 : consistent_heuristic G key (fun _ => 0) := zero_heuristic_consistent hw
  rw [run_standard_eq_dijkstra, run_standard_eq_astar, run_standard_eq_bellman]
  constructor
  · cases hdj : nx_dijkstra G key s t with
    | none =>
      have hnp : ∀ q, ¬ is_path G s t q := gen_search_run_none hu hc0 hdj
      cases hbf2 : nx_bellman_ford G key s t with
      | none => rfl
      | some pc =>
        obtain ⟨hpath, -, -⟩ := hbf.1 pc.1 pc.2 (by rw [hbf2])
        exact absurd hpath (hnp pc.1)
    | some pc =>
      obtain ⟨hpath, hpw, hmin⟩ := gen_search_run_sound hu hc0
        (show (gen_search_loop G key (fun _ => 0) t (search_fuel G)
          [⟨0, s, [s]⟩] []).join = some (pc.1, pc.2) from hdj)
      have hsome := hbf.2.2 ⟨pc.1, hpath⟩
      cases hbf2 : nx_bellman_ford G key s t with
      | none =>
        rw [hbf2] at hsome
        cases hsome
      | some pc2 =>
        obtain ⟨hpath2, hpw2, hmin2⟩ := hbf.1 pc2.1 pc2.2 (by rw [hbf2])
        have h1 : pc.2 ≤ pc2.2 := by
          have := hmin pc2.1 hpath2
          rw [hpw2] at this
          exact this
        have h2 : pc2.2 ≤ pc.2 := by
          have := hmin2 pc.1 hpath
          rw [hpw] at this
          exact this
        have heq : pc.2 = pc2.2 := le_antisymm h1 h2
        simp [branch_cost, Except.toOption, heq]
  · intro hcons
    cases hdj : nx_dijkstra G key s t with
    | none =>
      have hnp : ∀ q, ¬ is_path G s t q := gen_search_run_none hu hc0 hdj
      cases has : nx_astar G key (fun n => route_heuristic ratios key n t) s t with
      | none => rfl
      | some pc =>
        obtain ⟨hpath, -, -⟩ := gen_search_run_sound hu hcons
          (show (gen_search_loop G key (fun n => route_heuristic ratios key n t) t
            (search_fuel G) [⟨0, s, [s]⟩] []).join = some (pc.1, pc.2) from has)
        exact absurd hpath (hnp pc.1)
    | some pc =>
      obtain ⟨hpath, hpw, hmin⟩ := gen_search_run_sound hu hc0
        (show (gen_search_loop G key (fun _ => 0) t (search_fuel G)
          [⟨0, s, [s]⟩] []).join = some (pc.1, pc.2) from hdj)
      have hsome := gen_search_run_complete hu hcons ⟨pc.1, hpath⟩
      cases has : nx_astar G key (fun n => route_heuristic ratios key n t) s t with
      | none =>
        unfold nx_astar at has
        rw [has] at hsome
        cases hsome
      | some pc2 =>
        obtain ⟨hpath2, hpw2, hmin2⟩ := gen_search_run_sound hu hcons
          (show (gen_search_loop G key (fun n => route_heuristic ratios key n t) t
            (search_fuel G) [⟨0, s, [s]⟩] []).join = some (pc2.1, pc2.2) from has)
        have h1 : pc.2 ≤ pc2.2 := by
          have := hmin pc2.1 hpath2
          rw [hpw2] at this
          exact this
        have h2 : pc2.2 ≤ pc.2 := by
          have := hmin2 pc.1 hpath
          rw [hpw] at this
          exact this
        have heq : pc.2 = pc2.2 := le_antisymm h1 h2
        simp [branch_cost, Except.toOption, heq]

end SafePath

namespace SafePath

/-! The data-driven heuristic: vanishing at the goal, admissibility from
consistency, and the minimality property of the build-time ratios. -/

theorem straight_line_m_self (n : Pt) : straight_line_m n n = 0 := by
  unfold straight_line_m rat_sqrt
  have h : (n.1 - n.1) ^ 2 + (n.2 - n.2) ^ 2 = 0 := by ring
  rw [h, if_pos (le_refl (0 : ℚ))]
  ring

theorem route_heuristic_self (ratios : Ratios) (wa : String) (n : Pt) :
    route_heuristic ratios wa n n = 0 := by
  simp only [route_heuristic, straight_line_m_self]
  split_ifs <;> ring

/-- A heuristic consistent with the stored edge weights never exceeds the
cost of any remaining path (admissibility). -/
theorem consistent_implies_admissible {G : List Edge} {key : String}
    {ratios : Ratios} {t : Pt}
    (hcons : consistent_heuristic G key (fun n => route_heuristic ratios key n t)) :
    ∀ n p, is_path G n t p →
      route_heuristic ratios key n t ≤ path_weight G key p := by
  intro n p hp
  have htel := consistent_telescope hcons p n t hp
  simpa [route_heuristic_self] using htel

theorem upd_min_le (a : Option ℚ) (v : ℚ) (hv : 0 < v) :
    ∃ m, upd_min a v = some m ∧ m ≤ v := by
  cases a with
  | none =>
    refine ⟨v, ?_, le_refl _⟩
    show (if 0 < v then some v else none) = some v
    rw [if_pos hv]
  | some c =>
    by_cases h : 0 < v ∧ v < c
    · refine ⟨v, ?_, le_refl _⟩
      show (if 0 < v ∧ v < c then some v else some c) = some v
      rw [if_pos h]
    · refine ⟨c, ?_, ?_⟩
      · show (if 0 < v ∧ v < c then some v else some c) = some c
        rw [if_neg h]
      · by_contra hc
        push_neg at hc
        exact h ⟨hv, by linarith⟩

theorem upd_min_mono (a : Option ℚ) (v : ℚ) {c : ℚ} (h : a = some c) :
    ∃ m, upd_min a v = some m ∧ m ≤ c := by
  subst h
  by_cases hvc : 0 < v ∧ v < c
  · refine ⟨v, ?_, le_of_lt hvc.2⟩
    show (if 0 < v ∧ v < c then some v else some c) = some v
    rw [if_pos hvc]
  · refine ⟨c, ?_, le_refl _⟩
    show (if 0 < v ∧ v < c then some v else some c) = some c
    rw [if_neg hvc]

theorem foldl_updmin_mono (P : Row → Prop) [DecidablePred P] (v : Row → ℚ) :
    ∀ (rs : List Row) (a : Option ℚ) (c : ℚ), a = some c →
      ∃ m, rs.foldl (fun acc r => if P r then upd_min acc (v r) else acc) a =
        some m ∧ m ≤ c := by
  intro rs
  induction rs with
  | nil =>
    intro a c h
    exact ⟨c, h, le_refl _⟩
  | cons r rs ih =>
    intro a c h
    simp only [List.foldl_cons]
    by_cases hp : P r
    · rw [if_pos hp]
      obtain ⟨m1, hm1, hle1⟩ := upd_min_mono a (v r) h
      obtain ⟨m, hm, hle⟩ := ih (upd_min a (v r)) m1 hm1
      exact ⟨m, hm, le_trans hle hle1⟩
    · rw [if_neg hp]
      exact ih a c h

theorem foldl_updmin_le (P : Row → Prop) [DecidablePred P] (v : Row → ℚ) :
    ∀ (rs : List Row) (a : Option ℚ) (r : Row), r ∈ rs → P r → 0 < v r →
      ∃ m, rs.foldl (fun acc r => if P r then upd_min acc (v r) else acc) a =
        some m ∧ m ≤ v r := by
  intro rs
  induction rs with
  | nil =>
    intro a r hr
    cases hr
  | cons r0 rs ih =>
    intro a r hr hp hv
    simp only [List.foldl_cons]
    rcases List.mem_cons.mp hr with rfl | hr'
    · rw [if_pos hp]
      obtain ⟨m1, hm1, hle1⟩ := upd_min_le a (v r) hv
      obtain ⟨m, hm, hle⟩ := foldl_updmin_mono P v rs _ m1 hm1
      exact ⟨m, hm, le_trans hle hle1⟩
    · exact ih _ r hr' hp hv

theorem row_ratio_step_fst (acc : Option ℚ × Option ℚ × Option ℚ) (r : Row) :
    (row_ratio_step acc r).1 =
      if 0 < r.length then upd_min acc.1 (r.combined_cost / r.length) else acc.1 := by
  unfold row_ratio_step
  by_cases h : 0 < r.length
  · rw [if_pos h, if_pos h]
  · rw [if_neg h, if_neg h]

theorem row_ratio_step_risk (acc : Option ℚ × Option ℚ × Option ℚ) (r : Row) :
    (row_ratio_step acc r).2.1 =
      if 0 < r.length then upd_min acc.2.1 (r.risk_score / r.length) else acc.2.1 := by
  unfold row_ratio_step
  by_cases h : 0 < r.length
  · rw [if_pos h, if_pos h]
  · rw [if_neg h, if_neg h]

theorem row_ratio_step_inc (acc : Option ℚ × Option ℚ × Option ℚ) (r : Row) :
    (row_ratio_step acc r).2.2 =
      if 0 < r.length ∧ r.incidents_count.isSome then
        upd_min acc.2.2 (r.incidents_count.getD 0 / r.length)
      else acc.2.2 := by
  unfold row_ratio_step
  by_cases h : 0 < r.length
  · rw [if_pos h]
    cases hin : r.incidents_count with
    | none =>
      rw [if_neg (fun hc => by simp at hc)]
    | some i =>
      rw [if_pos ⟨h, rfl⟩]
      rfl
  · rw [if_neg h, if_neg (fun hcontra => h hcontra.1)]

theorem build_fold_fst (rows : List Row) :
    ∀ acc : Option ℚ × Option ℚ × Option ℚ,
      (rows.foldl row_ratio_step acc).1 =
        rows.foldl (fun a r =>
          if 0 < r.length then upd_min a (r.combined_cost / r.length) else a) acc.1 := by
  induction rows with
  | nil => intro acc; rfl
  | cons r rows ih =>
    intro acc
    simp only [List.foldl_cons]
    rw [ih (row_ratio_step acc r), row_ratio_step_fst]

theorem build_fold_risk (rows : List Row) :
    ∀ acc : Option ℚ × Option ℚ × Option ℚ,
      (rows.foldl row_ratio_step acc).2.1 =
        rows.foldl (fun a r =>
          if 0 < r.length then upd_min a (r.risk_score / r.length) else a) acc.2.1 := by
  induction rows with
  | nil => intro acc; rfl
  | cons r rows ih =>
    intro acc
    simp only [List.foldl_cons]
    rw [ih (row_ratio_step acc r), row_ratio_step_risk]

theorem build_fold_inc (rows : List Row) :
    ∀ acc : Option ℚ × Option ℚ × Option ℚ,
      (rows.foldl row_ratio_step acc).2.2 =
        rows.foldl (fun a r =>
          if 0 < r.length ∧ r.incidents_count.isSome then
            upd_min a (r.incidents_count.getD 0 / r.length)
          else a) acc.2.2 := by
  induction rows with
  | nil => intro acc; rfl
  | cons r rows ih =>
    intro acc
    simp only [List.foldl_cons]
    rw [ih (row_ratio_step acc r), row_ratio_step_inc]

theorem build_ratios_fst (rows : List Row) :
    (build_ratios rows).combined =
      ((rows.foldl row_ratio_step (none, none, none)).1).getD 0 := by
  unfold build_ratios
  rcases rows.foldl row_ratio_step (none, none, none) with ⟨c, rk, inc⟩
  rfl

theorem build_ratios_snd (rows : List Row) :
    (build_ratios rows).risk =
      ((rows.foldl row_ratio_step (none, none, none)).2.1).getD 0 := by
  unfold build_ratios
  rcases rows.foldl row_ratio_step (none, none, none) with ⟨c, rk, inc⟩
  rfl

theorem build_ratios_trd (rows : List Row) :
    (build_ratios rows).incidents =
      ((rows.foldl row_ratio_step (none, none, none)).2.2).getD 0 := by
  unfold build_ratios
  rcases rows.foldl row_ratio_step (none, none, none) with ⟨c, rk, inc⟩
  rfl

theorem build_ratios_combined_le (rows : List Row) :
    ∀ r ∈ rows, 0 < r.length → 0 < r.combined_cost / r.length →
      (build_ratios rows).combined ≤ r.combined_cost / r.length := by
  intro r hr hlen hratio
  obtain ⟨m, hm, hle⟩ := foldl_updmin_le (fun r => 0 < r.length)
    (fun r => r.combined_cost / r.length) rows none r hr hlen hratio
  have hfst := build_fold_fst rows (none, none, none)
  rw [build_ratios_fst, hfst, hm]
  exact hle

theorem build_ratios_risk_le (rows : List Row) :
    ∀ r ∈ rows, 0 < r.length → 0 < r.risk_score / r.length →
      (build_ratios rows).risk ≤ r.risk_score / r.length := by
  intro r hr hlen hratio
  obtain ⟨m, hm, hle⟩ := foldl_updmin_le (fun r => 0 < r.length)
    (fun r => r.risk_score / r.length) rows none r hr hlen hratio
  have hsnd := build_fold_risk rows (none, none, none)
  rw [build_ratios_snd, hsnd, hm]
  exact hle

theorem build_ratios_inc_le (rows : List Row) :
    ∀ r ∈ rows, 0 < r.length → ∀ i, r.incidents_count = some i →
      0 < i / r.length → (build_ratios rows).incidents ≤ i / r.length := by
  intro r hr hlen i hi hratio
  obtain ⟨m, hm, hle⟩ := foldl_updmin_le
    (fun r => 0 < r.length ∧ r.incidents_count.isSome)
    (fun r => r.incidents_count.getD 0 / r.length) rows none r hr
    ⟨hlen, by rw [hi]; rfl⟩ (by simp only [hi, Option.getD_some]; exact hratio)
  have hinc := build_fold_inc rows (none, none, none)
  rw [build_ratios_trd, hinc, hm]
  rw [hi] at hle
  exact hle

end SafePath

namespace SafePath

/-! Corridor retry semantics of `calculate_route`. -/

theorem nx_dijkstra_complete {G : List Edge} {key : String} {s t : Pt}
    (hu : edges_unique G) (hw : ∀ e ∈ G, 0 ≤ nx_weight key e)
    (hreach : ∃ q, is_path G s t q) :
    ∃ p c, nx_dijkstra G key s t = some (p, c) ∧ is_path G s t p ∧
      path_weight G key p = c ∧
      ∀ q, is_path G s t q → c ≤ path_weight G key q := by
  have hc := zero_heuristic_consistent hw
  have hs := gen_search_run_complete hu hc hreach
  rcases hj : (gen_search_loop G key (fun _ => 0) t (search_fuel G)
      [⟨0, s, [s]⟩] []).join with - | pc
  · rw [hj] at hs
    cases hs
  · obtain ⟨p, c⟩ := pc
    obtain ⟨hp, hwq, hopt⟩ := gen_search_run_sound hu hc hj
    exact ⟨p, c, hj, hp, hwq, hopt⟩

theorem run_standard_dijkstra_complete {G : List Edge} {key : String}
    (h : Pt → Pt → ℚ) {s t : Pt}
    (hu : edges_unique G) (hw : ∀ e ∈ G, 0 ≤ nx_weight key e)
    (hreach : ∃ q, is_path G s t q) :
    ∃ p c, run_standard_algorithm G key h alg_dijkstra s t = .ok (p, c) ∧
      is_path G s t p ∧ path_weight G key p = c ∧
      ∀ q, is_path G s t q → c ≤ path_weight G key q := by
  obtain ⟨p, c, hd, hp, hwq, hopt⟩ := nx_dijkstra_complete hu hw hreach
  refine ⟨p, c, ?_, hp, hwq, hopt⟩
  rw [run_standard_eq_dijkstra, hd]

/-- The bbox examined on the `k`-th attempt (0-based) when the first attempt
uses buffers `(dx, dy)`: each retry multiplies both by `1.5`. -/
def attempt_bbox (minx miny maxx maxy dx dy : ℚ) (k : ℕ) : Bbox :=
  ⟨minx - dx * (3 / 2) ^ k, miny - dy * (3 / 2) ^ k,
   maxx + dx * (3 / 2) ^ k, maxy + dy * (3 / 2) ^ k⟩

/-- If every corridor attempt misses one of the snapped endpoints, the search
runs on the full graph. -/
theorem corridor_search_miss (r : Router) (key : String) (h : Pt → Pt → ℚ)
    (alg : String) (sn en : Pt) (minx miny maxx maxy : ℚ) :
    ∀ (n : ℕ) (dx dy : ℚ),
      (∀ k < n,
        (mem_graph (build_temp_graph_for_bbox r.rows
            (attempt_bbox minx miny maxx maxy dx dy k)) sn &&
          mem_graph (build_temp_graph_for_bbox r.rows
            (attempt_bbox minx miny maxx maxy dx dy k)) en) = false) →
      corridor_search r key h alg sn en minx miny maxx maxy n dx dy =
        (run_standard_algorithm r.G key h alg sn en).map
          (fun pc => (pc, r.G, (graph_nodes r.G).length)) := by
  intro n
  induction n with
  | zero =>
    intro dx dy _
    rfl
  | succ n ih =>
    intro dx dy hmiss
    have h0 := hmiss 0 (Nat.succ_pos n)
    simp only [attempt_bbox, pow_zero, mul_one] at h0
    show (if (mem_graph (build_temp_graph_for_bbox r.rows
          ⟨minx - dx, miny - dy, maxx + dx, maxy + dy⟩) sn &&
        mem_graph (build_temp_graph_for_bbox r.rows
          ⟨minx - dx, miny - dy, maxx + dx, maxy + dy⟩) en) = true then _
      else corridor_search r key h alg sn en minx miny maxx maxy n
        (dx * (3 / 2)) (dy * (3 / 2))) = _
    rw [h0]
    simp only [Bool.false_eq_true, if_false]
    refine ih (dx * (3 / 2)) (dy * (3 / 2)) ?_
    intro k hk
    have hsucc := hmiss (k + 1) (Nat.succ_lt_succ hk)
    have hdx : dx * (3 / 2) * (3 / 2) ^ k = dx * (3 / 2) ^ (k + 1) := by ring
    have hdy : dy * (3 / 2) * (3 / 2) ^ k = dy * (3 / 2) ^ (k + 1) := by ring
    simp only [attempt_bbox] at hsucc ⊢
    rw [hdx, hdy]
    exact hsucc

/-- If the first corridor attempt contains both snapped endpoints, its result
is taken as-is: a `NetworkXNoPath` inside the corridor propagates. -/
theorem corridor_search_hit (r : Router) (key : String) (h : Pt → Pt → ℚ)
    (alg : String) (sn en : Pt) (minx miny maxx maxy : ℚ) (n : ℕ) (dx dy : ℚ)
    (hhit : (mem_graph (build_temp_graph_for_bbox r.rows
        ⟨minx - dx, miny - dy, maxx + dx, maxy + dy⟩) sn &&
      mem_graph (build_temp_graph_for_bbox r.rows
        ⟨minx - dx, miny - dy, maxx + dx, maxy + dy⟩) en) = true) :
    corridor_search r key h alg sn en minx miny maxx maxy (n + 1) dx dy =
      (run_standard_algorithm (build_temp_graph_for_bbox r.rows
          ⟨minx - dx, miny - dy, maxx + dx, maxy + dy⟩) key h alg sn en).map
        (fun pc => (pc, build_temp_graph_for_bbox r.rows
          ⟨minx - dx, miny - dy, maxx + dx, maxy + dy⟩,
          (graph_nodes (build_temp_graph_for_bbox r.rows
            ⟨minx - dx, miny - dy, maxx + dx, maxy + dy⟩)).length)) := by
  show (if (mem_graph (build_temp_graph_for_bbox r.rows
        ⟨minx - dx, miny - dy, maxx + dx, maxy + dy⟩) sn &&
      mem_graph (build_temp_graph_for_bbox r.rows
        ⟨minx - dx, miny - dy, maxx + dx, maxy + dy⟩) en) = true then _ else _) = _
  rw [hhit]
  simp only [if_true]

end SafePath

namespace SafePath

/-! Soundness of the branch-and-bound loop. -/

/-- Well-formedness of a heap entry `(cost, node, path)`: the carried path is
a simple path from the snapped start to the entry's node, its recorded cost
is the sum of the looked-up edge attributes, and it has at most 101 nodes. -/
def bnb_entry_ok (G : List Edge) (key : String) (sn : Pt)
    (x : ℚ × Pt × List Pt) : Prop :=
  is_path G sn x.2.1 x.2.2 ∧ x.2.2.Nodup ∧
    strict_path_cost G key x.2.2 = some x.1 ∧ x.2.2.length ≤ 101

/-- Well-formedness of the incumbent. -/
def bnb_best_sound (G : List Edge) (key : String) (sn en : Pt) :
    Option (ℚ × List Pt) → Prop
  | none => True
  | some cp => is_path G sn en cp.2 ∧ cp.2.Nodup ∧
      strict_path_cost G key cp.2 = some cp.1 ∧ cp.2.length ≤ 101

theorem heap_pop_mem :
    ∀ (pq : List (ℚ × Pt × List Pt)) (e : ℚ × Pt × List Pt)
      (pq' : List (ℚ × Pt × List Pt)), heap_pop pq = some (e, pq') →
      e ∈ pq ∧ ∀ x ∈ pq', x ∈ pq := by
  intro pq
  induction pq with
  | nil =>
    intro e pq' h
    cases h
  | cons a rest ih =>
    intro e pq' h
    rcases hr : heap_pop rest with - | mr
    · rw [heap_pop, hr] at h
      simp only [Option.some.injEq, Prod.mk.injEq] at h
      obtain ⟨he, hq⟩ := h
      subst he
      subst hq
      refine ⟨List.mem_cons_self _ _, ?_⟩
      intro x hx
      cases hx
    · obtain ⟨m, rest'⟩ := mr
      rw [heap_pop, hr] at h
      dsimp only at h
      by_cases hlt : bnb_entry_lt m a = true
      · rw [if_pos hlt] at h
        simp only [Option.some.injEq, Prod.mk.injEq] at h
        obtain ⟨he, hq⟩ := h
        have hm := ih m rest' hr
        subst hq
        refine ⟨?_, ?_⟩
        · rw [← he]
          exact List.mem_cons_of_mem a hm.1
        · intro x hx
          rcases List.mem_cons.mp hx with rfl | hx'
          · exact List.mem_cons_self _ _
          · exact List.mem_cons_of_mem a (hm.2 x hx')
      · rw [if_neg hlt] at h
        simp only [Option.some.injEq, Prod.mk.injEq] at h
        obtain ⟨he, hq⟩ := h
        subst he
        subst hq
        exact ⟨List.mem_cons_self _ _, fun x hx => List.mem_cons_of_mem a hx⟩

theorem consec_pairs_append_single :
    ∀ (p : List Pt) (u v : Pt), p.getLast? = some u →
      consec_pairs (p ++ [v]) = consec_pairs p ++ [(u, v)] := by
  intro p
  induction p with
  | nil =>
    intro u v h
    cases h
  | cons a rest ih =>
    intro u v h
    cases rest with
    | nil =>
      simp only [List.getLast?_singleton, Option.some.injEq] at h
      subst h
      rfl
    | cons b rest' =>
      have h' : (b :: rest').getLast? = some u := by
        rw [List.getLast?_cons_cons] at h
        exact h
      have hstep : consec_pairs ((a :: b :: rest') ++ [v]) =
          (a, b) :: consec_pairs ((b :: rest') ++ [v]) := rfl
      rw [hstep, ih u v h']
      rfl

theorem mapM_option_snoc {α β : Type} (f : α → Option β) :
    ∀ (xs : List α) (ys : List β), xs.mapM f = some ys →
      ∀ (x : α) (y : β), f x = some y →
        (xs ++ [x]).mapM f = some (ys ++ [y]) := by
  intro xs
  induction xs with
  | nil =>
    intro ys h x y hx
    simp only [List.mapM_nil, Option.pure_def, Option.some.injEq] at h
    subst h
    show ([x]).mapM f = some [y]
    rw [List.mapM_cons, List.mapM_nil, hx]
    rfl
  | cons a xs ih =>
    intro ys h x y hx
    rw [List.mapM_cons] at h
    rcases hfa : f a with - | b
    · rw [hfa] at h
      cases h
    · rw [hfa] at h
      rcases hmx : xs.mapM f with - | bs
      · rw [hmx] at h
        cases h
      · rw [hmx] at h
        have h2 : (b :: bs) = ys := Option.some.inj h
        subst h2
        show ((a :: (xs ++ [x])).mapM f) = some ((b :: bs) ++ [y])
        rw [List.mapM_cons, hfa, ih bs hmx x y hx]
        rfl

theorem strict_path_cost_append {G : List Edge} {key : String} {p : List Pt}
    {u v : Pt} {c w : ℚ} (hlast : p.getLast? = some u)
    (hc : strict_path_cost G key p = some c)
    (hw : strict_weight G key u v = some w) :
    strict_path_cost G key (p ++ [v]) = some (c + w) := by
  unfold strict_path_cost at hc ⊢
  rcases hm : (consec_pairs p).mapM (fun uv => strict_weight G key uv.1 uv.2)
    with - | ws
  · rw [hm] at hc
    cases hc
  · rw [hm] at hc
    simp only [Option.map_some'] at hc
    rw [consec_pairs_append_single p u v hlast,
      mapM_option_snoc _ (consec_pairs p) ws hm (u, v) w hw]
    simp only [Option.map_some', Option.some.injEq]
    rw [List.foldl_append]
    have hc2 : ws.foldl (fun a b => a + b) 0 = c := Option.some.inj hc
    simp [hc2]

theorem foldl_add_shift :
    ∀ (ws : List ℚ) (a : ℚ),
      ws.foldl (fun x y => x + y) a = a + ws.foldl (fun x y => x + y) 0 := by
  intro ws
  induction ws with
  | nil =>
    intro a
    simp
  | cons w ws ih =>
    intro a
    simp only [List.foldl_cons]
    rw [ih (a + w), ih (0 + w)]
    ring

theorem strict_path_cost_path_weight {G : List Edge} {key : String} :
    ∀ (p : List Pt) (c : ℚ), strict_path_cost G key p = some c →
      path_weight G key p = c := by
  intro p
  induction p with
  | nil =>
    intro c h
    simp only [strict_path_cost, consec_pairs, List.mapM_nil, Option.pure_def,
      Option.map_some', Option.some.injEq] at h
    rw [← h]
    rfl
  | cons a rest ih =>
    intro c h
    cases rest with
    | nil =>
      simp only [strict_path_cost, consec_pairs, List.mapM_nil, Option.pure_def,
        Option.map_some', Option.some.injEq] at h
      rw [← h]
      rfl
    | cons b rest' =>
      have hcp : consec_pairs (a :: b :: rest') =
          (a, b) :: consec_pairs (b :: rest') := rfl
      unfold strict_path_cost at h
      rw [hcp, List.mapM_cons] at h
      rcases hab : strict_weight G key a b with - | w
      · rw [hab] at h
        cases h
      · rcases hrest : (consec_pairs (b :: rest')).mapM
            (fun uv => strict_weight G key uv.1 uv.2) with - | ws
        · rw [hab, hrest] at h
          cases h
        · simp only [hab, hrest, Option.pure_def, Option.bind_eq_bind,
            Option.some_bind, Option.map_some', Option.some.injEq] at h
          have hsum : path_weight G key (b :: rest') =
              ws.foldl (fun x y => x + y) 0 := by
            apply ih
            unfold strict_path_cost
            rw [hrest]
            rfl
          show edge_weight G key a b + path_weight G key (b :: rest') = c
          rw [hsum, ← h]
          simp only [List.foldl_cons]
          rw [foldl_add_shift ws (0 + w)]
          have hew : edge_weight G key a b = w := by
            unfold strict_weight at hab
            rcases heb : edge_between G a b with - | e
            · rw [heb] at hab
              cases hab
            · rw [heb] at hab
              dsimp only at hab
              unfold edge_weight
              rw [heb]
              dsimp only
              unfold nx_weight
              rw [hab]
              rfl
          rw [hew]
          ring

end SafePath

namespace SafePath

theorem bnb_pushes_ok {G : List Edge} {key : String} {sn : Pt}
    (hu : edges_unique G) {u : Pt} {p : List Pt} {c : ℚ}
    (best : Option (ℚ × List Pt))
    (hok : bnb_entry_ok G key sn (c, u, p)) (hlen : p.length ≤ 100) :
    ∀ (l : List Edge), (∀ e ∈ l, e ∈ G ∧ e.src = u) →
      ∀ (acc : List (ℚ × Pt × List Pt)), (∀ x ∈ acc, bnb_entry_ok G key sn x) →
      ∀ res, l.foldlM (fun acc ed =>
          if ed.dst ∈ p then Except.ok acc
          else
            match ed.attrs.weights.lookup key with
            | none => Except.error PyErr.key_error
            | some w =>
              if bt_best_ok best (c + w) = true then
                Except.ok (acc ++ [(c + w, ed.dst, p ++ [ed.dst])])
              else Except.ok acc) acc = .ok res →
      ∀ x ∈ res, bnb_entry_ok G key sn x := by
  intro l
  induction l with
  | nil =>
    intro _ acc hacc res hres
    rw [List.foldlM_nil] at hres
    cases hres
    exact hacc
  | cons ed l ih =>
    intro hl acc hacc res hres
    rw [List.foldlM_cons] at hres
    by_cases hdst : ed.dst ∈ p
    · rw [if_pos hdst] at hres
      exact ih (fun e he => hl e (List.mem_cons_of_mem ed he)) acc hacc res hres
    · rw [if_neg hdst] at hres
      rcases hlk : ed.attrs.weights.lookup key with - | w
      · rw [hlk] at hres
        cases hres
      · rw [hlk] at hres
        dsimp only at hres
        by_cases hbb : bt_best_ok best (c + w) = true
        · rw [if_pos hbb] at hres
          refine ih (fun e he => hl e (List.mem_cons_of_mem ed he))
            (acc ++ [(c + w, ed.dst, p ++ [ed.dst])]) ?_ res hres
          intro x hx
          rcases List.mem_append.mp hx with h1 | h2
          · exact hacc x h1
          · have hx2 : x = (c + w, ed.dst, p ++ [ed.dst]) := by
              simpa using h2
            subst hx2
            obtain ⟨hip, hnd, hsc, hln⟩ := hok
            have hedg := hl ed (List.mem_cons_self _ _)
            have heb : edge_between G u ed.dst = some ed := by
              have := edge_between_of_mem hu hedg.1
              rw [hedg.2] at this
              exact this
            refine ⟨?_, ?_, ?_, ?_⟩
            · exact is_path_append_single hip (by rw [heb]; rfl)
            · show (p ++ [ed.dst]).Nodup
              simp [List.nodup_append, hnd, hdst]
            · show strict_path_cost G key (p ++ [ed.dst]) = some (c + w)
              refine strict_path_cost_append hip.2.1 hsc ?_
              unfold strict_weight
              rw [heb]
              dsimp only
              exact hlk
            · show (p ++ [ed.dst]).length ≤ 101
              simp only [List.length_append, List.length_singleton]
              omega
        · rw [if_neg hbb] at hres
          exact ih (fun e he => hl e (List.mem_cons_of_mem ed he)) acc hacc res hres

end SafePath

namespace SafePath

/-- Everything the branch-and-bound loop ever stores in `best` is a simple
path from the snapped start to the snapped end, with its recorded cost the
sum of the looked-up edge weights and at most 101 nodes. -/
theorem bnb_loop_sound {G : List Edge} {key : String} {sn en : Pt}
    (hu : edges_unique G) :
    ∀ (fuel : ℕ) (pq : List (ℚ × Pt × List Pt)) (visited : List (Pt × ℚ))
      (best : Option (ℚ × List Pt)) (explored : ℕ),
      (∀ x ∈ pq, bnb_entry_ok G key sn x) →
      bnb_best_sound G key sn en best →
      ∀ res, bnb_loop G key en fuel pq visited best explored = .ok res →
        bnb_best_sound G key sn en res.2 := by
  intro fuel
  induction fuel with
  | zero =>
    intro pq visited best explored _ _ res hres
    cases hres
  | succ fuel ih =>
    intro pq visited best explored hpq hbest res hres
    rw [bnb_loop] at hres
    rcases hp : heap_pop pq with - | epq
    · rw [hp] at hres
      cases hres
      exact hbest
    · obtain ⟨⟨c, u, p⟩, pq'⟩ := epq
      rw [hp] at hres
      dsimp only at hres
      have hmem := heap_pop_mem pq (c, u, p) pq' hp
      have hok : bnb_entry_ok G key sn (c, u, p) := hpq _ hmem.1
      have hpq' : ∀ x ∈ pq', bnb_entry_ok G key sn x :=
        fun x hx => hpq x (hmem.2 x hx)
      by_cases hue : u = en
      · rw [if_pos hue] at hres
        have hbest' : bnb_best_sound G key sn en
            (if bt_best_ok best c = true then some (c, p) else best) := by
          by_cases hb : bt_best_ok best c = true
          · rw [if_pos hb]
            exact ⟨hue ▸ hok.1, hok.2.1, hok.2.2.1, hok.2.2.2⟩
          · rw [if_neg hb]
            exact hbest
        exact ih pq' visited _ _ hpq' hbest' res hres
      · rw [if_neg hue] at hres
        by_cases hv : (match vdict_get visited u with
            | some vc => decide (vc ≤ c)
            | none => false) = true
        · rw [if_pos hv] at hres
          exact ih pq' visited best _ hpq' hbest res hres
        · rw [if_neg hv] at hres
          by_cases hb2 : (!bt_best_ok best c) = true
          · rw [if_pos hb2] at hres
            exact ih pq' (vdict_set visited u c) best _ hpq' hbest res hres
          · rw [if_neg hb2] at hres
            by_cases hlen : 100 < p.length
            · rw [if_pos hlen] at hres
              exact ih pq' (vdict_set visited u c) best _ hpq' hbest res hres
            · rw [if_neg hlen] at hres
              rcases hps : (successors G u).foldlM (fun acc ed =>
                  if ed.dst ∈ p then Except.ok acc
                  else
                    match ed.attrs.weights.lookup key with
                    | none => Except.error PyErr.key_error
                    | some w =>
                      if bt_best_ok best (c + w) = true then
                        Except.ok (acc ++ [(c + w, ed.dst, p ++ [ed.dst])])
                      else Except.ok acc) [] with err | pushes
              · rw [hps] at hres
                cases hres
              · rw [hps] at hres
                have hpush : ∀ x ∈ pushes, bnb_entry_ok G key sn x := by
                  refine bnb_pushes_ok hu best hok (by omega) (successors G u)
                    ?_ [] (by intro x hx; cases hx) pushes hps
                  intro e he
                  exact successors_spec.mp he
                refine ih (pq' ++ pushes) (vdict_set visited u c) best _ ?_
                  hbest res hres
                intro x hx
                rcases List.mem_append.mp hx with h1 | h2
                · exact hpq' x h1
                · exact hpush x h2

end SafePath

namespace SafePath

/-- Soundness of `branch_and_bound_route`: a returned route is a simple path
between the snapped endpoints, its cost is the path's total weight under
`weight_<optimization>`, and it has at most 101 nodes. -/
theorem branch_and_bound_sound {r : Router} {origin destination : Pt}
    {optimization : String} {elapsed_ms : ℚ} {sn en : Pt} {res : RouteResult}
    (hu : edges_unique r.G)
    (hsn : find_nearest_node r.nodes origin = some sn)
    (hen : find_nearest_node r.nodes destination = some en)
    (hres : branch_and_bound_route r origin destination optimization elapsed_ms =
      .ok (some res)) :
    is_path r.G sn en res.path ∧ res.path.Nodup ∧
      path_weight r.G ("weight_" ++ optimization) res.path = res.cost ∧
      res.path.length ≤ 101 := by
  unfold branch_and_bound_route at hres
  rw [hsn, hen] at hres
  dsimp only at hres
  rcases hb : bnb_loop r.G ("weight_" ++ optimization) en bnb_fuel
      [(0, sn, [sn])] [] none 0 with err | rr
  · rw [hb] at hres
    cases hres
  · obtain ⟨explored, bopt⟩ := rr
    rw [hb] at hres
    have hpq0 : ∀ x ∈ [((0 : ℚ), sn, [sn])],
        bnb_entry_ok r.G ("weight_" ++ optimization) sn x := by
      intro x hx
      have hx2 : x = (0, sn, [sn]) := by simpa using hx
      subst hx2
      exact ⟨is_path_singleton _ _, by simp, rfl, by simp⟩
    have hsound := bnb_loop_sound hu bnb_fuel [(0, sn, [sn])] [] none 0 hpq0
      trivial (explored, bopt) hb
    cases bopt with
    | none => cases hres
    | some best =>
      obtain ⟨bc, bp⟩ := best
      have hres2 : (do
          let st ← route_stats r.G bp
          let ed ← route_details r.G bp
          Except.ok (some (⟨bp, bc, optimization, "branch_and_bound", st, ed,
            ⟨elapsed_ms, explored, bp.length⟩, none⟩ : RouteResult))) =
          Except.ok (some res) := hres
      rcases hst : route_stats r.G bp with e1 | st
      · rw [hst] at hres2
        cases hres2
      · rw [hst] at hres2
        rcases hed : route_details r.G bp with e2 | ed
        · rw [hed] at hres2
          cases hres2
        · rw [hed] at hres2
          have h2 := Except.ok.inj hres2
          have h3 := Option.some.inj h2
          obtain ⟨hip, hnd, hsc, hln⟩ := hsound
          rw [← h3]
          exact ⟨hip, hnd, strict_path_cost_path_weight bp bc hsc, hln⟩

end SafePath

namespace SafePath

/-! Simple-path enumeration: soundness, completeness, distinctness. -/

/-- The built graphs store at most one entry per ordered endpoint pair, as a
positional (pairwise) property. -/
def edges_keyed (G : List Edge) : Prop :=
  G.Pairwise (fun e1 e2 => ¬(e1.src = e2.src ∧ e1.dst = e2.dst))

theorem edges_keyed_nil : edges_keyed [] := List.Pairwise.nil

theorem add_edge_keyed {G : List Edge} (hk : edges_keyed G) (e : Edge) :
    edges_keyed (add_edge G e) := by
  unfold add_edge
  by_cases h : G.any (fun e0 => decide (e0.src = e.src ∧ e0.dst = e.dst)) = true
  · rw [if_pos h]
    unfold edges_keyed
    rw [List.pairwise_map]
    refine hk.imp_of_mem ?_
    intro a b _ _ hab
    by_cases hca : a.src = e.src ∧ a.dst = e.dst
    · rw [if_pos hca]
      by_cases hcb : b.src = e.src ∧ b.dst = e.dst
      · exact absurd ⟨hca.1.trans hcb.1.symm, hca.2.trans hcb.2.symm⟩ hab
      · rw [if_neg hcb]
        intro hc
        exact hcb ⟨hc.1.symm, hc.2.symm⟩
    · rw [if_neg hca]
      by_cases hcb : b.src = e.src ∧ b.dst = e.dst
      · rw [if_pos hcb]
        exact hca
      · rw [if_neg hcb]
        exact hab
  · rw [if_neg h]
    unfold edges_keyed
    rw [List.pairwise_append]
    refine ⟨hk, List.pairwise_singleton _ _, ?_⟩
    intro a ha b hb
    have hb2 : b = e := by simpa using hb
    subst hb2
    have := List.any_eq_true.not.mp h
    push_neg at this
    have h3 := this a ha
    intro hc
    exact absurd (by simpa using hc) (by simpa using h3)

theorem foldl_add_edge_keyed (f : Row → Edge) :
    ∀ (rs : List Row) (G0 : List Edge), edges_keyed G0 →
      edges_keyed (rs.foldl (fun G r => add_edge G (f r)) G0) := by
  intro rs
  induction rs with
  | nil =>
    intro G0 h0
    exact h0
  | cons r rs ih =>
    intro G0 h0
    exact ih (add_edge G0 (f r)) (add_edge_keyed h0 (f r))

theorem router_graph_keyed (r : Router) : edges_keyed r.G :=
  foldl_add_edge_keyed mk_edge r.rows [] edges_keyed_nil

theorem successors_pairwise_dst {G : List Edge} (hk : edges_keyed G) (u : Pt) :
    (successors G u).Pairwise (fun e1 e2 => e1.dst ≠ e2.dst) := by
  have hp : (successors G u).Pairwise
      (fun e1 e2 => ¬(e1.src = e2.src ∧ e1.dst = e2.dst)) := by
    unfold successors
    exact List.Pairwise.filter _ hk
  refine hp.imp_of_mem ?_
  intro a b ha hb hab hd
  exact hab ⟨(successors_spec.mp ha).2.trans (successors_spec.mp hb).2.symm, hd⟩

theorem simple_paths_sound {G : List Edge} {t : Pt} :
    ∀ (fuel : ℕ) (cur : Pt) (seen : List Pt) (p : List Pt),
      p ∈ simple_paths_aux G t fuel cur seen →
      p.head? = some cur ∧ is_path G cur t p ∧ p.Nodup ∧
        (∀ x ∈ p, x = cur ∨ x ∉ seen) := by
  intro fuel
  induction fuel with
  | zero =>
    intro cur seen p hp
    cases hp
  | succ fuel ih =>
    intro cur seen p hp
    rw [simple_paths_aux] at hp
    by_cases hc : cur = t
    · rw [if_pos hc] at hp
      have hp2 : p = [cur] := by simpa using hp
      subst hp2
      subst hc
      exact ⟨rfl, is_path_singleton _ _, by simp, by intro x hx; left; simpa using hx⟩
    · rw [if_neg hc] at hp
      rw [List.mem_flatMap] at hp
      obtain ⟨e, he, hpe⟩ := hp
      by_cases hdst : e.dst ∈ cur :: seen
      · rw [if_pos hdst] at hpe
        cases hpe
      · rw [if_neg hdst] at hpe
        rw [List.mem_map] at hpe
        obtain ⟨p', hp', hpp⟩ := hpe
        subst hpp
        obtain ⟨hh', hip', hnd', hseen'⟩ := ih e.dst (cur :: seen) p' hp'
        have hcur_notin : cur ∉ p' := by
          intro hcontra
          rcases hseen' cur hcontra with h1 | h2
          · rw [List.mem_cons] at hdst
            exact hdst (Or.inl h1.symm)
          · exact h2 (List.mem_cons_self _ _)
        have hsome : (edge_between G cur e.dst).isSome := by
          rw [edge_between, List.find?_isSome]
          refine ⟨e, (successors_spec.mp he).1, ?_⟩
          simp [(successors_spec.mp he).2]
        refine ⟨rfl, ?_, ?_, ?_⟩
        · cases p' with
          | nil => exact absurd hip' is_path_nil_elim
          | cons b rest =>
            simp only [List.head?_cons, Option.some.injEq] at hh'
            subst hh'
            exact is_path_cons_iff.mpr ⟨rfl, hsome, hip'⟩
        · exact List.nodup_cons.mpr ⟨hcur_notin, hnd'⟩
        · intro x hx
          rcases List.mem_cons.mp hx with rfl | hx'
          · exact Or.inl rfl
          · rcases hseen' x hx' with h1 | h2
            · subst h1
              right
              intro hcontra
              rw [List.mem_cons] at hdst
              exact hdst (Or.inr hcontra)
            · right
              intro hcontra
              exact h2 (List.mem_cons_of_mem cur hcontra)

end SafePath

namespace SafePath

theorem simple_paths_complete {G : List Edge} {t : Pt} :
    ∀ (fuel : ℕ) (cur : Pt) (seen : List Pt) (p : List Pt),
      is_path G cur t p → p.Nodup → (∀ x ∈ p, x ∉ seen) → p.length ≤ fuel →
      p ∈ simple_paths_aux G t fuel cur seen := by
  intro fuel
  induction fuel with
  | zero =>
    intro cur seen p hip hnd hs hl
    cases p with
    | nil => exact absurd hip is_path_nil_elim
    | cons a rest => simp at hl
  | succ fuel ih =>
    intro cur seen p hip hnd hs hl
    rw [simple_paths_aux]
    cases p with
    | nil => exact absurd hip is_path_nil_elim
    | cons a rest =>
      have ha : a = cur := by
        simpa using hip.1
      subst ha
      cases rest with
      | nil =>
        have hat : a = t := by
          have := hip.2.1
          simpa using this
        rw [if_pos hat]
        simp [hat]
      | cons v rest' =>
        have hc : ¬(a = t) := by
          intro hcontra
          have hlast := hip.2.1
          rw [List.getLast?_cons_cons] at hlast
          have ht_mem : t ∈ v :: rest' := by
            cases hx : (v :: rest').getLast? with
            | none => simp at hx
            | some y =>
              rw [hx] at hlast
              have hy : y = t := by simpa using hlast
              subst hy
              exact List.mem_of_getLast?_eq_some hx
          rw [← hcontra] at ht_mem
          exact (List.nodup_cons.mp hnd).1 ht_mem
        rw [if_neg hc]
        obtain ⟨-, hsome, hip'⟩ := is_path_cons_iff.mp hip
        obtain ⟨e0, he0⟩ := Option.isSome_iff_exists.mp hsome
        have he0G : e0 ∈ G := List.mem_of_find?_eq_some he0
        have he0p : e0.src = a ∧ e0.dst = v := by
          have := List.find?_some he0
          simpa using this
        rw [List.mem_flatMap]
        refine ⟨e0, successors_spec.mpr ⟨he0G, he0p.1⟩, ?_⟩
        have hvnotin : e0.dst ∉ a :: seen := by
          rw [he0p.2]
          intro hcontra
          rcases List.mem_cons.mp hcontra with h1 | h2
          · exact (List.nodup_cons.mp hnd).1 (h1 ▸ List.mem_cons_self v rest')
          · exact hs v (List.mem_cons_of_mem a (List.mem_cons_self v rest')) h2
        rw [if_neg hvnotin]
        rw [List.mem_map]
        refine ⟨v :: rest', ?_, rfl⟩
        rw [he0p.2]
        refine ih v (a :: seen) (v :: rest') hip' (List.nodup_cons.mp hnd).2 ?_ ?_
        · intro x hx
          intro hcontra
          rcases List.mem_cons.mp hcontra with h1 | h2
          · exact (List.nodup_cons.mp hnd).1 (h1 ▸ hx)
          · exact hs x (List.mem_cons_of_mem a hx) h2
        · have := hl
          simp only [List.length_cons] at this ⊢
          omega

theorem simple_paths_nodup {G : List Edge} {t : Pt} (hk : edges_keyed G) :
    ∀ (fuel : ℕ) (cur : Pt) (seen : List Pt),
      (simple_paths_aux G t fuel cur seen).Nodup := by
  intro fuel
  induction fuel with
  | zero =>
    intro cur seen
    exact List.nodup_nil
  | succ fuel ih =>
    intro cur seen
    rw [simple_paths_aux]
    by_cases hc : cur = t
    · rw [if_pos hc]
      simp
    · rw [if_neg hc]
      rw [List.nodup_flatMap]
      constructor
      · intro e _
        by_cases hdst : e.dst ∈ cur :: seen
        · rw [if_pos hdst]
          exact List.nodup_nil
        · rw [if_neg hdst]
          refine List.Nodup.map ?_ (ih e.dst (cur :: seen))
          intro p1 p2 h12
          simpa using h12
      · have hpw := successors_pairwise_dst hk cur
        refine hpw.imp_of_mem ?_
        intro e1 e2 _ _ hne p hp1 hp2
        dsimp only at hp1 hp2
        by_cases hd1 : e1.dst ∈ cur :: seen
        · rw [if_pos hd1] at hp1
          cases hp1
        · rw [if_neg hd1] at hp1
          by_cases hd2 : e2.dst ∈ cur :: seen
          · rw [if_pos hd2] at hp2
            cases hp2
          · rw [if_neg hd2] at hp2
            rw [List.mem_map] at hp1 hp2
            obtain ⟨p1, hp1m, hp1e⟩ := hp1
            obtain ⟨p2, hp2m, hp2e⟩ := hp2
            have hh1 := (simple_paths_sound fuel e1.dst (cur :: seen) p1 hp1m).1
            have hh2 := (simple_paths_sound fuel e2.dst (cur :: seen) p2 hp2m).1
            have hpp : p1 = p2 := by
              have := hp1e.trans hp2e.symm
              simpa using this
            subst hpp
            rw [hh1] at hh2
            exact hne (Option.some.inj hh2)

theorem all_simple_paths_sound {G : List Edge} {s t : Pt} {p : List Pt}
    (hp : p ∈ all_simple_paths G s t) : is_path G s t p ∧ p.Nodup := by
  have := simple_paths_sound ((graph_nodes G).length + 1) s [] p hp
  exact ⟨this.2.1, this.2.2.1⟩

theorem all_simple_paths_complete {G : List Edge} {s t : Pt} {p : List Pt}
    (hip : is_path G s t p) (hnd : p.Nodup) : p ∈ all_simple_paths G s t := by
  refine simple_paths_complete ((graph_nodes G).length + 1) s [] p hip hnd ?_ ?_
  · intro x _ hx
    cases hx
  · exact nodup_path_length hip hnd

theorem all_simple_paths_nodup {G : List Edge} (hk : edges_keyed G) (s t : Pt) :
    (all_simple_paths G s t).Nodup :=
  simple_paths_nodup hk ((graph_nodes G).length + 1) s []

end SafePath

namespace SafePath

/-! Ordering facts for the sorted simple-path list, and the positional
structure of `k_shortest_paths`. -/

instance (G : List Edge) (key : String) : IsTotal (List Pt) (path_cost_le G key) :=
  ⟨fun a b => le_total (path_weight G key a) (path_weight G key b)⟩

instance (G : List Edge) (key : String) : IsTrans (List Pt) (path_cost_le G key) :=
  ⟨fun a b c hab hbc => le_trans hab hbc⟩

theorem ssp_sorted (G : List Edge) (key : String) (s t : Pt) :
    List.Sorted (path_cost_le G key) (shortest_simple_paths G key s t) :=
  List.sorted_insertionSort (path_cost_le G key) (all_simple_paths G s t)

theorem ssp_perm (G : List Edge) (key : String) (s t : Pt) :
    List.Perm (shortest_simple_paths G key s t) (all_simple_paths G s t) :=
  List.perm_insertionSort (path_cost_le G key) (all_simple_paths G s t)

theorem ssp_nodup {G : List Edge} (hk : edges_keyed G) (key : String) (s t : Pt) :
    (shortest_simple_paths G key s t).Nodup :=
  (List.Perm.nodup_iff (ssp_perm G key s t)).mpr (all_simple_paths_nodup hk s t)

theorem mapM_option_length {α β : Type} (f : α → Option β) :
    ∀ (xs : List α) (ys : List β), xs.mapM f = some ys →
      ys.length = xs.length := by
  intro xs
  induction xs with
  | nil =>
    intro ys h
    simp only [List.mapM_nil, Option.pure_def, Option.some.injEq] at h
    subst h
    rfl
  | cons a xs ih =>
    intro ys h
    rw [List.mapM_cons] at h
    rcases hfa : f a with - | b
    · rw [hfa] at h
      cases h
    · rw [hfa] at h
      rcases hmx : xs.mapM f with - | bs
      · rw [hmx] at h
        cases h
      · rw [hmx] at h
        have h2 : (b :: bs) = ys := Option.some.inj h
        subst h2
        simp [ih bs hmx]

theorem mapM_option_mem {α β : Type} (f : α → Option β) :
    ∀ (xs : List α) (ys : List β), xs.mapM f = some ys →
      ∀ y ∈ ys, ∃ x ∈ xs, f x = some y := by
  intro xs
  induction xs with
  | nil =>
    intro ys h y hy
    simp only [List.mapM_nil, Option.pure_def, Option.some.injEq] at h
    subst h
    cases hy
  | cons a xs ih =>
    intro ys h y hy
    rw [List.mapM_cons] at h
    rcases hfa : f a with - | b
    · rw [hfa] at h
      cases h
    · rw [hfa] at h
      rcases hmx : xs.mapM f with - | bs
      · rw [hmx] at h
        cases h
      · rw [hmx] at h
        have h2 : (b :: bs) = ys := Option.some.inj h
        subst h2
        rcases List.mem_cons.mp hy with rfl | hy'
        · exact ⟨a, List.mem_cons_self _ _, hfa⟩
        · obtain ⟨x, hx, hfx⟩ := ih bs hmx y hy'
          exact ⟨x, List.mem_cons_of_mem a hx, hfx⟩

theorem mapM_option_map_eq {α β : Type} (f : α → Option β) (g : β → α)
    (hg : ∀ x y, f x = some y → g y = x) :
    ∀ (xs : List α) (ys : List β), xs.mapM f = some ys → ys.map g = xs := by
  intro xs
  induction xs with
  | nil =>
    intro ys h
    simp only [List.mapM_nil, Option.pure_def, Option.some.injEq] at h
    subst h
    rfl
  | cons a xs ih =>
    intro ys h
    rw [List.mapM_cons] at h
    rcases hfa : f a with - | b
    · rw [hfa] at h
      cases h
    · rw [hfa] at h
      rcases hmx : xs.mapM f with - | bs
      · rw [hmx] at h
        cases h
      · rw [hmx] at h
        have h2 : (b :: bs) = ys := Option.some.inj h
        subst h2
        simp only [List.map_cons]
        rw [hg a b hfa, ih bs hmx]

theorem kpath_item_fst {G : List Edge} {key : String} {p : List Pt}
    {item : List Pt × ℚ × Stats × List EdgeDetail}
    (h : (do
        let c ← strict_path_cost G key p
        let st ← (route_stats G p).toOption
        let ed ← (route_details G p).toOption
        some (p, c, st, ed)) = some item) :
    item.1 = p ∧ strict_path_cost G key p = some item.2.1 := by
  rcases hc : strict_path_cost G key p with - | c
  · rw [hc] at h
    cases h
  · rw [hc] at h
    rcases hst : (route_stats G p).toOption with - | st
    · rw [hst] at h
      cases h
    · rw [hst] at h
      rcases hed : (route_details G p).toOption with - | ed
      · rw [hed] at h
        cases h
      · rw [hed] at h
        have h2 := Option.some.inj h
        rw [← h2]
        exact ⟨rfl, rfl⟩

theorem rank_routes_length (opt : String) :
    ∀ (xs : List (List Pt × ℚ × Stats × List EdgeDetail)) (i : ℕ),
      (rank_routes opt i xs).length = xs.length := by
  intro xs
  induction xs with
  | nil =>
    intro i
    rfl
  | cons x xs ih =>
    intro i
    simp [rank_routes, ih]

theorem rank_routes_rank (opt : String) :
    ∀ (xs : List (List Pt × ℚ × Stats × List EdgeDetail)) (i j : ℕ)
      (hj : j < (rank_routes opt i xs).length),
      ((rank_routes opt i xs).get ⟨j, hj⟩).rank = i + j + 1 := by
  intro xs
  induction xs with
  | nil =>
    intro i j hj
    rw [rank_routes_length] at hj
    cases hj
  | cons x xs ih =>
    intro i j hj
    cases j with
    | zero => rfl
    | succ j =>
      have h2 : j < (rank_routes opt (i + 1) xs).length := by
        rw [rank_routes_length]
        have := hj
        rw [rank_routes_length] at this
        simpa using Nat.lt_of_succ_lt_succ this
      have hstep : ((rank_routes opt i (x :: xs)).get ⟨j + 1, hj⟩).rank =
          ((rank_routes opt (i + 1) xs).get ⟨j, h2⟩).rank := rfl
      rw [hstep, ih (i + 1) j h2]
      omega

theorem rank_routes_map_path (opt : String) :
    ∀ (xs : List (List Pt × ℚ × Stats × List EdgeDetail)) (i : ℕ),
      (rank_routes opt i xs).map (fun kr => kr.path) = xs.map (fun x => x.1) := by
  intro xs
  induction xs with
  | nil =>
    intro i
    rfl
  | cons x xs ih =>
    intro i
    simp [rank_routes, ih]

theorem rank_routes_mem (opt : String) :
    ∀ (xs : List (List Pt × ℚ × Stats × List EdgeDetail)) (i : ℕ) (x : KRoute),
      x ∈ rank_routes opt i xs →
      ∃ it ∈ xs, x.path = it.1 ∧ x.cost = it.2.1 := by
  intro xs
  induction xs with
  | nil =>
    intro i x hx
    cases hx
  | cons a xs ih =>
    intro i x hx
    rcases List.mem_cons.mp hx with rfl | hx'
    · exact ⟨a, List.mem_cons_self _ _, rfl, rfl⟩
    · obtain ⟨it, hit, h1, h2⟩ := ih (i + 1) x hx'
      exact ⟨it, List.mem_cons_of_mem a hit, h1, h2⟩

theorem take_head_eq {α : Type} (l : List α) (k : ℕ) (x : α)
    (h : (l.take k).head? = some x) : l.head? = some x := by
  cases l with
  | nil => simp at h
  | cons a l =>
    cases k with
    | zero => simp at h
    | succ k => simpa using h

end SafePath

namespace SafePath

/-- C7: `k_shortest_paths` returns at most `k` routes (the API defaults `k`
to 3); the `j`-th returned route carries rank `j+1`; every returned route is
a simple path from the snapped start to the snapped end whose reported cost
is the path's total weight under `weight_<optimization>`; the routes'
underlying paths are pairwise distinct; the costs are in non-decreasing
order; and the first returned route attains the minimum cost over all simple
paths between the snapped endpoints. -/
theorem C7_k_shortest_paths (r : Router) (origin destination : Pt) (k : ℕ)
    (optimization : String) {sn en : Pt} {rs : List KRoute}
    (hsn : find_nearest_node r.nodes origin = some sn)
    (hen : find_nearest_node r.nodes destination = some en)
    (hks : k_shortest_paths r origin destination k optimization = rs) :
    rs.length ≤ k ∧
    (∀ j (hj : j < rs.length), (rs.get ⟨j, hj⟩).rank = j + 1) ∧
    (∀ route ∈ rs, is_path r.G sn en route.path ∧ route.path.Nodup ∧
      path_weight r.G ("weight_" ++ optimization) route.path = route.cost) ∧
    List.Pairwise (fun a b => a.path ≠ b.path) rs ∧
    List.Pairwise (fun a b => a.cost ≤ b.cost) rs ∧
    (∀ r0, rs.head? = some r0 → ∀ q, is_path r.G sn en q → q.Nodup →
      r0.cost ≤ path_weight r.G ("weight_" ++ optimization) q) := by
  have hk : edges_keyed r.G := router_graph_keyed r
  unfold k_shortest_paths at hks
  rw [hsn, hen] at hks
  dsimp only at hks
  rcases hmm : ((shortest_simple_paths r.G ("weight_" ++ optimization) sn en).take
      k).mapM (fun p => do
        let c ← strict_path_cost r.G ("weight_" ++ optimization) p
        let st ← (route_stats r.G p).toOption
        let ed ← (route_details r.G p).toOption
        some (p, c, st, ed)) with - | items
  · rw [hmm] at hks
    dsimp only at hks
    subst hks
    refine ⟨by simp, ?_, ?_, List.Pairwise.nil, List.Pairwise.nil, ?_⟩
    · intro j hj
      cases hj
    · intro route hroute
      cases hroute
    · intro r0 h0
      cases h0
  · rw [hmm] at hks
    dsimp only at hks
    subst hks
    have hmapfst : items.map (fun x => x.1) =
        (shortest_simple_paths r.G ("weight_" ++ optimization) sn en).take k := by
      refine mapM_option_map_eq _ (fun x => x.1) ?_ _ items hmm
      intro x y hxy
      exact (kpath_item_fst hxy).1
    have hpaths_eq : (rank_routes optimization 0 items).map (fun kr => kr.path) =
        (shortest_simple_paths r.G ("weight_" ++ optimization) sn en).take k := by
      rw [rank_routes_map_path, hmapfst]
    have hmem_route : ∀ route ∈ rank_routes optimization 0 items,
        is_path r.G sn en route.path ∧ route.path.Nodup ∧
          path_weight r.G ("weight_" ++ optimization) route.path = route.cost := by
      intro route hroute
      obtain ⟨it, hit, hpath, hcost⟩ := rank_routes_mem optimization items 0
        route hroute
      obtain ⟨psrc, hpsrc, hf⟩ := mapM_option_mem _ _ items hmm it hit
      obtain ⟨hfst, hsc⟩ := kpath_item_fst hf
      have hpp : route.path = psrc := by rw [hpath, hfst]
      have hmem_ssp : psrc ∈
          shortest_simple_paths r.G ("weight_" ++ optimization) sn en :=
        (List.take_sublist _ _).subset hpsrc
      have hmem_all : psrc ∈ all_simple_paths r.G sn en :=
        (List.Perm.mem_iff (ssp_perm _ _ _ _)).mp hmem_ssp
      obtain ⟨hip, hnd⟩ := all_simple_paths_sound hmem_all
      refine ⟨hpp ▸ hip, hpp ▸ hnd, ?_⟩
      rw [hpp, hcost]
      exact strict_path_cost_path_weight psrc it.2.1 (hpp ▸ hsc)
    refine ⟨?_, ?_, hmem_route, ?_, ?_, ?_⟩
    · rw [rank_routes_length, mapM_option_length _ _ items hmm, List.length_take]
      exact min_le_left _ _
    · intro j hj
      have := rank_routes_rank optimization items 0 j hj
      rw [this]
      omega
    · have htaken_nodup :
          ((shortest_simple_paths r.G ("weight_" ++ optimization) sn en).take
            k).Nodup :=
        (ssp_nodup hk _ sn en).sublist (List.take_sublist _ _)
      have hmap_nodup : ((rank_routes optimization 0 items).map
          (fun kr => kr.path)).Nodup := by
        rw [hpaths_eq]
        exact htaken_nodup
      rw [List.Nodup, List.pairwise_map] at hmap_nodup
      exact hmap_nodup
    · have htaken_sorted :
          ((shortest_simple_paths r.G ("weight_" ++ optimization) sn en).take
            k).Pairwise (path_cost_le r.G ("weight_" ++ optimization)) :=
        (ssp_sorted r.G _ sn en).sublist (List.take_sublist _ _)
      have hmap_sorted : ((rank_routes optimization 0 items).map
          (fun kr => kr.path)).Pairwise
            (path_cost_le r.G ("weight_" ++ optimization)) := by
        rw [hpaths_eq]
        exact htaken_sorted
      rw [List.pairwise_map] at hmap_sorted
      refine hmap_sorted.imp_of_mem ?_
      intro a b ha hb hab
      have hca := (hmem_route a ha).2.2
      have hcb := (hmem_route b hb).2.2
      rw [← hca, ← hcb]
      exact hab
    · intro r0 h0 q hq hqnd
      have hr0mem : r0 ∈ rank_routes optimization 0 items := by
        cases hrr : rank_routes optimization 0 items with
        | nil =>
          rw [hrr] at h0
          cases h0
        | cons a l =>
          rw [hrr] at h0
          have : a = r0 := by simpa using h0
          rw [← this]
          exact List.mem_cons_self _ _
      have hhead : ((rank_routes optimization 0 items).map
          (fun kr => kr.path)).head? = some r0.path := by
        rw [List.head?_map, h0]
        rfl
      rw [hpaths_eq] at hhead
      have hssp_head := take_head_eq _ k r0.path hhead
      have hqssp : q ∈ shortest_simple_paths r.G ("weight_" ++ optimization)
          sn en :=
        (List.Perm.mem_iff (ssp_perm _ _ _ _)).mpr
          (all_simple_paths_complete hq hqnd)
      have hle : path_cost_le r.G ("weight_" ++ optimization) r0.path q := by
        cases hss : shortest_simple_paths r.G ("weight_" ++ optimization)
            sn en with
        | nil =>
          rw [hss] at hqssp
          cases hqssp
        | cons a l =>
          rw [hss] at hssp_head hqssp
          have ha : a = r0.path := by simpa using hssp_head
          have hsrt := ssp_sorted r.G ("weight_" ++ optimization) sn en
          rw [hss] at hsrt
          have hpw := List.pairwise_cons.mp hsrt
          rcases List.mem_cons.mp hqssp with rfl | hq2
          · rw [ha]
            exact le_refl _
          · rw [← ha]
            exact hpw.1 q hq2
      have hc0 := (hmem_route r0 hr0mem).2.2
      rw [← hc0]
      exact hle

end SafePath

namespace SafePath

/-! Structural NaN-freedom of the API responses, time-stripped determinism,
and the exception funnel of `calculate_route`. -/

theorem route_response_ok (r : Router) (o d : Pt) (opt alg : String) (t : ℚ) :
    route_response_nonan (compute_route r o d opt alg t) = true := by
  unfold compute_route
  cases hres : compute_route_result r o d opt alg t with
  | none => rfl
  | some res =>
    unfold route_response_nonan
    rw [Bool.and_eq_true]
    constructor
    · rw [List.all_eq_true]
      intro f hf
      obtain ⟨e, -, rfl⟩ := List.mem_map.mp hf
      rfl
    · rfl

theorem compare_response_ok (r : Router) (o d : Pt) (opt : String)
    (algorithms : List String) (t : ℚ) :
    compare_response_nonan (compare_routes_api r o d opt algorithms t) = true := by
  unfold compare_response_nonan compare_routes_api
  rw [List.all_eq_true]
  intro entry hentry
  dsimp only at hentry
  obtain ⟨algo, -, hsome⟩ := List.mem_filterMap.mp hentry
  unfold compare_entry at hsome
  rcases hcer : compare_entry_result r o d opt t algo with - | res
  · rw [hcer] at hsome
    cases hsome
  · rw [hcer] at hsome
    have h2 := Option.some.inj hsome
    rw [← h2]
    unfold compare_entry_ok
    rw [Bool.and_eq_true, Bool.and_eq_true]
    refine ⟨⟨?_, rfl⟩, rfl⟩
    rw [List.all_eq_true]
    intro f hf
    obtain ⟨e, -, rfl⟩ := List.mem_map.mp hf
    rfl

/-- A result record with its wall-clock reading zeroed out. -/
def strip_time (res : RouteResult) : RouteResult :=
  ⟨res.path, res.cost, res.optimization, res.algorithm, res.statistics,
   res.edges, ⟨0, res.performance.nodes_explored, res.performance.nodes_in_path⟩,
   res.note⟩

theorem calculate_route_time_only (r : Router) (o d : Pt) (opt alg : String)
    (t1 t2 : ℚ) :
    (calculate_route r o d opt alg t1).map strip_time =
      (calculate_route r o d opt alg t2).map strip_time := by
  unfold calculate_route
  rcases h : calculate_route_parts r o d opt alg with e | x
  · rfl
  · rfl

end SafePath

namespace SafePath

/-- C1 (amended): on a graph with non-negative stored weights under the
selected key, the Dijkstra and Bellman-Ford branches of `calculate_route`'s
dispatch report the same optimal cost (both `none` exactly on disconnection);
the A* branch agrees with them whenever the data-driven heuristic is
consistent on the graph — without that hypothesis the A* branch can return a
strictly costlier path (see the counterexample). -/
theorem C1_standard_costs (G : List Edge) (key : String) (ratios : Ratios)
    (s t : Pt) (hu : edges_unique G) (hw : ∀ e ∈ G, 0 ≤ nx_weight key e) :
    branch_cost (run_standard_algorithm G key (route_heuristic ratios key)
        alg_dijkstra s t) =
      branch_cost (run_standard_algorithm G key (route_heuristic ratios key)
        alg_bellman_ford s t) ∧
    (consistent_heuristic G key (fun n => route_heuristic ratios key n t) →
      branch_cost (run_standard_algorithm G key (route_heuristic ratios key)
          alg_dijkstra s t) =
        branch_cost (run_standard_algorithm G key (route_heuristic ratios key)
          alg_astar s t)) :=
  standard_branches_agree G key ratios s t hu hw

/-- C2 (amended): each build-time `min_ratio` is a lower bound on every
**positive** per-meter ratio of its optimization (rows with non-positive
ratios are skipped by the build loop, so the stored constant is not a bound
for them — see the counterexample); and whenever the resulting heuristic is
consistent on a graph it is admissible: it never exceeds the cost of any
remaining path to the target. -/
theorem C2_min_ratio_and_admissibility (rows : List Row) (key : String) (t : Pt) :
    (∀ r ∈ rows, 0 < r.length → 0 < r.combined_cost / r.length →
      (build_ratios rows).combined ≤ r.combined_cost / r.length) ∧
    (∀ r ∈ rows, 0 < r.length → 0 < r.risk_score / r.length →
      (build_ratios rows).risk ≤ r.risk_score / r.length) ∧
    (∀ r ∈ rows, 0 < r.length → ∀ i, r.incidents_count = some i →
      0 < i / r.length → (build_ratios rows).incidents ≤ i / r.length) ∧
    (∀ G : List Edge,
      consistent_heuristic G key
        (fun n => route_heuristic (build_ratios rows) key n t) →
      ∀ n p, is_path G n t p →
        route_heuristic (build_ratios rows) key n t ≤ path_weight G key p) :=
  ⟨build_ratios_combined_le rows, build_ratios_risk_le rows,
   build_ratios_inc_le rows, fun _ hc => consistent_implies_admissible hc⟩

/-- C3 (amended): the corridor is retried at most 3 times with buffers grown
by 1.5 per retry while an endpoint is missing; if all three corridor graphs
miss an endpoint, the search runs on the full graph, and (for Dijkstra on
non-negative weights) any path existing in the full graph is then found with
optimal cost.  When a corridor attempt does contain both endpoints, however,
its `NetworkXNoPath` propagates instead of falling back (see the
counterexample). -/
theorem C3_corridor_fallback (r : Router) (key : String) (h0 : Pt → Pt → ℚ)
    (sn en : Pt) (minx miny maxx maxy dx dy : ℚ)
    (hu : edges_unique r.G) (hw : ∀ e ∈ r.G, 0 ≤ nx_weight key e)
    (hmiss : ∀ k < 3, (mem_graph (build_temp_graph_for_bbox r.rows
        (attempt_bbox minx miny maxx maxy dx dy k)) sn &&
      mem_graph (build_temp_graph_for_bbox r.rows
        (attempt_bbox minx miny maxx maxy dx dy k)) en) = false)
    {p : List Pt} (hp : is_path r.G sn en p) :
    ∃ q c, corridor_search r key h0 alg_dijkstra sn en minx miny maxx maxy
        3 dx dy = .ok ((q, c), r.G, (graph_nodes r.G).length) ∧
      is_path r.G sn en q ∧ path_weight r.G key q = c ∧
      ∀ q2, is_path r.G sn en q2 → c ≤ path_weight r.G key q2 := by
  have hfull := corridor_search_miss r key h0 alg_dijkstra sn en minx miny
    maxx maxy 3 dx dy hmiss
  obtain ⟨q, c, hok, hip, hwq, hopt⟩ :=
    run_standard_dijkstra_complete h0 hu hw ⟨p, hp⟩
  refine ⟨q, c, ?_, hip, hwq, hopt⟩
  rw [hfull, hok]
  rfl

/-- C4 (amended): when a heuristic variant produces nothing and the Dijkstra
fallback succeeds, both facades mark the result with `note="fallback:
Dijkstra"`, but `/route` rewrites the algorithm label to
`"<algorithm>_fallback_dijkstra"` while `/compare` preserves the requested
label. -/
theorem C4_fallback_labels (r : Router) (o d : Pt) (optimization alg : String)
    (t : ℚ) {res : RouteResult}
    (halg : alg ∈ heuristic_algorithms)
    (hadv : (match advanced_dispatch r o d optimization alg t with
      | .ok res => res
      | .error _ => none) = none)
    (hdij : calculate_route r o d optimization alg_dijkstra t = some res) :
    compute_route_result r o d optimization alg t =
      some ⟨res.path, res.cost, res.optimization, alg ++ "_fallback_dijkstra",
        res.statistics, res.edges, res.performance, some str_fallback⟩ ∧
    compare_entry_result r o d optimization t alg =
      some ⟨res.path, res.cost, res.optimization, alg, res.statistics,
        res.edges, res.performance, some str_fallback⟩ := by
  constructor
  · unfold compute_route_result
    rw [if_pos halg]
    dsimp only
    rw [hadv, hdij]
  · unfold compare_entry_result
    rw [if_pos halg]
    dsimp only
    rw [hadv, hdij]

/-- C5 (amended): `calculate_route` maps the optimization via the alias
table (`distance/risk/combined/incidents/incident/incidentes`), an
unrecognized value falling through to `weight_<value>`; but a missing weight
attribute does not fail: the networkx weight read defaults every missing
attribute to 1, so standard algorithms silently compute under an all-ones
cost (see the counterexample).  The heuristic variants bypass the alias
table entirely: `greedy_route` indexes `weight_<optimization>` verbatim and
raises KeyError when it is absent. -/
theorem C5_optimization_mapping :
    weight_attr_of "distance" = k_weight_distance ∧
    weight_attr_of "risk" = k_weight_risk ∧
    weight_attr_of "combined" = k_weight_combined ∧
    weight_attr_of "incidents" = k_weight_incidents ∧
    weight_attr_of "incident" = k_weight_incidents ∧
    weight_attr_of "incidentes" = k_weight_incidents ∧
    (∀ s : String, opt_map.lookup s = none →
      weight_attr_of s = "weight_" ++ s) ∧
    (∀ (key : String) (e : Edge), e.attrs.weights.lookup key = none →
      nx_weight key e = 1) ∧
    (∀ (G : List Edge) (key : String) (visited : List Pt) (cur : Pt),
      (∀ e ∈ successors G cur, e.dst ∉ visited →
        e.attrs.weights.lookup key = none) →
      (successors G cur).filter (fun e => decide (e.dst ∉ visited)) ≠ [] →
      greedy_neighbors G key visited cur = .error .key_error) := by
  refine ⟨rfl, rfl, rfl, rfl, rfl, rfl, ?_, ?_, ?_⟩
  · intro s h
    unfold weight_attr_of
    rw [h]
    rfl
  · intro key e h
    unfold nx_weight
    rw [h]
    rfl
  · intro G key visited cur hmissing hne
    unfold greedy_neighbors
    rcases hl : (successors G cur).filter (fun e => decide (e.dst ∉ visited))
      with - | ⟨e, rest⟩
    · exact absurd hl hne
    · have he : e ∈ successors G cur ∧ e.dst ∉ visited := by
        have : e ∈ (successors G cur).filter (fun e => decide (e.dst ∉ visited)) := by
          rw [hl]
          exact List.mem_cons_self _ _
        have h2 := List.mem_filter.mp this
        exact ⟨h2.1, by simpa using h2.2⟩
      rw [hl, List.mapM_cons, hmissing e he.1 he.2]
      rfl

/-- C6 (amended): a route returned by `branch_and_bound_route` is a simple
path from the snapped start to the snapped end whose reported cost is the
sum of its `weight_<optimization>` edge attributes; its length is bounded by
101 nodes, not 100 (the goal test precedes the length prune), and global
optimality among bounded simple paths does not hold (see the
counterexample). -/
theorem C6_branch_and_bound (r : Router) (origin destination : Pt)
    (optimization : String) (elapsed_ms : ℚ) {sn en : Pt} {res : RouteResult}
    (hsn : find_nearest_node r.nodes origin = some sn)
    (hen : find_nearest_node r.nodes destination = some en)
    (hres : branch_and_bound_route r origin destination optimization
      elapsed_ms = .ok (some res)) :
    is_path r.G sn en res.path ∧ res.path.Nodup ∧
      path_weight r.G ("weight_" ++ optimization) res.path = res.cost ∧
      res.path.length ≤ 101 :=
  branch_and_bound_sound (router_graph_unique r) hsn hen hres

/-- C8 (amended): every `/route` response and every `/compare` entry is
NaN/null-free — all outgoing floats and ints pass through the `to_float` /
`to_int` sanitizers.  The GeoJSON written by `export_route_to_geojson`,
however, copies the raw edge attributes without sanitization and can carry
NaN (see the counterexample). -/
theorem C8_api_sanitized (r : Router) (o d : Pt) (opt alg : String)
    (algorithms : List String) (t : ℚ) :
    route_response_nonan (compute_route r o d opt alg t) = true ∧
    compare_response_nonan (compare_routes_api r o d opt algorithms t) = true :=
  ⟨route_response_ok r o d opt alg t, compare_response_ok r o d opt algorithms t⟩

/-- C9 (amended): two calls of `calculate_route` with identical arguments
agree on every field of the result except `performance.execution_time_ms`,
which records the wall clock of the individual call and differs between
sequential runs (see the counterexample for literal byte-identity). -/
theorem C9_determinism_modulo_time (r : Router) (o d : Pt) (opt alg : String)
    (t1 t2 : ℚ) :
    (calculate_route r o d opt alg t1).map strip_time =
      (calculate_route r o d opt alg t2).map strip_time :=
  calculate_route_time_only r o d opt alg t1 t2

/-- C10: `calculate_route` never raises: every failure of the computation —
`NetworkXNoPath`, the `ValueError` for an unrecognized algorithm, `KeyError`,
`TypeError` — is converted into a `None` return, which the `/route` facade
renders as an empty FeatureCollection. -/
theorem C10_never_raises (r : Router) (o d : Pt) (opt alg : String) (t : ℚ) :
    (∀ e, calculate_route_parts r o d opt alg = .error e →
      calculate_route r o d opt alg t = none) ∧
    (alg ∉ heuristic_algorithms → calculate_route r o d opt alg t = none →
      compute_route r o d opt alg t = ⟨"FeatureCollection", [], none⟩) := by
  constructor
  · intro e he
    unfold calculate_route
    rw [he]
    rfl
  · intro halg hnone
    unfold compute_route compute_route_result
    rw [if_neg halg, hnone]

end SafePath

namespace SafePath

/-! Concrete instances.  All coordinates sit on the equator (latitude 0) at
longitudes whose squared distances are perfect rational squares, so that
`rat_sqrt` and `cos_q` evaluate exactly as `math.sqrt`/`math.cos` would. -/

/-- A CSV row with the given endpoints, length, risk and combined cost. -/
def mk_row (o d : Pt) (len risk comb : ℚ) (inc har : PyF) : Row :=
  ⟨o, d, "street", len, true, "LINESTRING", none, har, 0, inc, 0, risk, comb⟩

/-- Counterexample graph for C1: the direct edge costs 10, the detour via
`(3/1000, 0)` costs 0, and the zero-cost rows are skipped by the ratio loop,
leaving `min_ratio = 10` and an inadmissible heuristic. -/
def ce1 : Router :=
  ⟨[mk_row (0, 0) (1/1000, 0) 1 0 10 (some 0) (some 0),
    mk_row (0, 0) (3/1000, 0) 1 0 0 (some 0) (some 0),
    mk_row (3/1000, 0) (1/1000, 0) 1 0 0 (some 0) (some 0)]⟩


set_option maxRecDepth 400000 in
/-- C1 counterexample: on `ce1` the Dijkstra branch of `calculate_route`
returns the optimal cost 0 while the A* branch returns 10 — the three
standard branches do not agree on every non-negative-weight graph. -/
theorem C1_counterexample :
    (calculate_route ce1 (0, 0) (1/1000, 0) "combined" alg_dijkstra 0).map
        (fun res => res.cost) = some 0 ∧
    (calculate_route ce1 (0, 0) (1/1000, 0) "combined" alg_astar 0).map
        (fun res => res.cost) = some 10 ∧
    (∀ e ∈ Router.G ce1, 0 ≤ nx_weight k_weight_combined e) := by
  refine ⟨?_, ?_, ?_⟩ <;> with_unfolding_all decide

end SafePath

namespace SafePath

/-- Witness graph for C1: a single edge whose combined cost equals its
length, making the data-driven heuristic consistent. -/
def c1w : Router := ⟨[mk_row (0, 0) (1/1000, 0) 111 0 111 (some 0) (some 0)]⟩

set_option maxRecDepth 400000 in
theorem C1_standard_costs_witness :
    branch_cost (run_standard_algorithm (Router.G c1w) k_weight_combined
        (route_heuristic (Router.ratios c1w) k_weight_combined) alg_dijkstra
        (0, 0) (1/1000, 0)) =
      branch_cost (run_standard_algorithm (Router.G c1w) k_weight_combined
        (route_heuristic (Router.ratios c1w) k_weight_combined)
        alg_bellman_ford (0, 0) (1/1000, 0)) ∧
    branch_cost (run_standard_algorithm (Router.G c1w) k_weight_combined
        (route_heuristic (Router.ratios c1w) k_weight_combined) alg_dijkstra
        (0, 0) (1/1000, 0)) =
      branch_cost (run_standard_algorithm (Router.G c1w) k_weight_combined
        (route_heuristic (Router.ratios c1w) k_weight_combined) alg_astar
        (0, 0) (1/1000, 0)) := by
  have h := C1_standard_costs (Router.G c1w) k_weight_combined
    (Router.ratios c1w) (0, 0) (1/1000, 0)
    (by unfold edges_unique; with_unfolding_all decide)
    (by with_unfolding_all decide)
  exact ⟨h.1, h.2 (by unfold consistent_heuristic; with_unfolding_all decide)⟩

/-- The C2 counterexample data: one row of per-meter ratio 1 and one
zero-cost row whose ratio 0 is skipped by the build loop. -/
def c2row_zero : Row := mk_row (0, 0) (1/1000, 0) 1 0 0 (some 0) (some 0)

def c2rows : List Row :=
  [mk_row (0, 0) (5/1000, 0) 111 0 111 (some 0) (some 0), c2row_zero]

set_option maxRecDepth 400000 in
/-- C2 counterexample: `min_ratio` is not a lower bound on the zero-cost
row's per-meter ratio, and the heuristic (value 111) exceeds the true
remaining cost (0) of the zero-cost edge — it is not admissible. -/
theorem C2_counterexample :
    c2row_zero ∈ c2rows ∧
    ¬((build_ratios c2rows).combined ≤
        c2row_zero.combined_cost / c2row_zero.length) ∧
    (∀ e ∈ build_edges c2rows, 0 ≤ nx_weight k_weight_combined e) ∧
    is_path (build_edges c2rows) (0, 0) (1/1000, 0) [(0, 0), (1/1000, 0)] ∧
    path_weight (build_edges c2rows) k_weight_combined
      [(0, 0), (1/1000, 0)] = 0 ∧
    route_heuristic (build_ratios c2rows) k_weight_combined (0, 0)
      (1/1000, 0) = 111 := by
  refine ⟨?_, ?_, ?_, ?_, ?_, ?_⟩ <;> with_unfolding_all decide

/-- Counterexample graph for C3: the only route from `(0,0)` to `(1,0)`
detours through latitude 10; the corridor around the endpoints contains both
of them but not the connecting edge. -/
def ce3 : Router :=
  ⟨[mk_row (0, 0) (0, 10) 1 0 1 (some 0) (some 0),
    mk_row (0, 10) (1, 10) 1 0 1 (some 0) (some 0),
    mk_row (1, 10) (1, 0) 1 0 1 (some 0) (some 0)]⟩

set_option maxRecDepth 400000 in
/-- C3 counterexample: the full graph connects the snapped endpoints, yet
`calculate_route` returns `None`: the first corridor contains both endpoints,
so its `NetworkXNoPath` propagates instead of triggering the full-graph
fallback. -/
theorem C3_counterexample :
    calculate_route ce3 (0, 0) (1, 0) "distance" alg_dijkstra 0 = none ∧
    is_path (Router.G ce3) (0, 0) (1, 0)
      [(0, 0), (0, 10), (1, 10), (1, 0)] := by
  refine ⟨?_, ?_⟩ <;> with_unfolding_all decide

/-- Witness data for C3: the single row's stored geometry bounds lie far from
the corridor, so every corridor attempt misses the endpoints and the search
falls back to the full graph. -/
def c3w : Router :=
  ⟨[⟨(0, 0), (1/1000, 0), "street", 1, true, "LINESTRING",
     some (1000, 1000, 1001, 1001), some 0, 0, some 0, 0, 1, 1⟩]⟩

set_option maxRecDepth 400000 in
theorem C3_corridor_fallback_witness :
    ∃ q c, corridor_search c3w k_weight_distance (fun _ _ => 0) alg_dijkstra
        (0, 0) (1/1000, 0) 0 0 (1/1000) 0 3 (1/4) (1/4) =
      .ok ((q, c), Router.G c3w, (graph_nodes (Router.G c3w)).length) ∧
      is_path (Router.G c3w) (0, 0) (1/1000, 0) q ∧
      path_weight (Router.G c3w) k_weight_distance q = c ∧
      ∀ q2, is_path (Router.G c3w) (0, 0) (1/1000, 0) q2 →
        c ≤ path_weight (Router.G c3w) k_weight_distance q2 :=
  @C3_corridor_fallback c3w k_weight_distance (fun _ _ => 0) (0, 0)
    (1/1000, 0) 0 0 (1/1000) 0 (1/4) (1/4)
    (by unfold edges_unique; with_unfolding_all decide)
    (by with_unfolding_all decide)
    (by intro k hk; interval_cases k <;> with_unfolding_all decide)
    [(0, 0), (1/1000, 0)] (by with_unfolding_all decide)

/-- Counterexample graph for C4/C5: one edge with every standard weight
present (7, 5, 9, 3) — and hence no `weight_incidentes` and no
`weight_nonexistent` attribute. -/
def ce4 : Router := ⟨[mk_row (0, 0) (1/1000, 0) 7 5 9 (some 3) (some 0)]⟩

set_option maxRecDepth 400000 in
/-- C4 counterexample: `/route` does not preserve the requested algorithm
label on fallback — `greedy` is relabelled `greedy_fallback_dijkstra`. -/
theorem C4_counterexample :
    ((compute_route ce4 (0, 0) (1/1000, 0) "incidentes" "greedy" 0).properties.map
      (fun p => p.algorithm)) = some "greedy_fallback_dijkstra" ∧
    ¬("greedy_fallback_dijkstra" = "greedy") := by
  refine ⟨?_, ?_⟩ <;> with_unfolding_all decide

/-- The Dijkstra fallback result on `ce4` under the `incidentes` alias. -/
def ce4_route : RouteResult :=
  (calculate_route ce4 (0, 0) (1/1000, 0) "incidentes" alg_dijkstra 0).getD
    ⟨[], 0, "", "", ⟨0, 0, 0, 0, 0⟩, [], ⟨0, 0, 0⟩, none⟩

set_option maxRecDepth 400000 in
theorem C4_fallback_labels_witness :
    compute_route_result ce4 (0, 0) (1/1000, 0) "incidentes" "greedy" 0 =
      some ⟨ce4_route.path, ce4_route.cost, ce4_route.optimization,
        "greedy" ++ "_fallback_dijkstra", ce4_route.statistics, ce4_route.edges,
        ce4_route.performance, some str_fallback⟩ ∧
    compare_entry_result ce4 (0, 0) (1/1000, 0) "incidentes" 0 "greedy" =
      some ⟨ce4_route.path, ce4_route.cost, ce4_route.optimization, "greedy",
        ce4_route.statistics, ce4_route.edges, ce4_route.performance,
        some str_fallback⟩ :=
  C4_fallback_labels ce4 (0, 0) (1/1000, 0) "incidentes" "greedy" 0
    (by decide) (by with_unfolding_all decide) (by with_unfolding_all decide)

set_option maxRecDepth 400000 in
/-- C5 counterexample: under the unknown optimization `nonexistent`,
Dijkstra silently returns a route of cost 1 — the networkx default for the
missing weight attribute — although no stored weight equals 1. -/
theorem C5_counterexample :
    (calculate_route ce4 (0, 0) (1/1000, 0) "nonexistent" alg_dijkstra 0).map
      (fun res => res.cost) = some 1 ∧
    (∀ e ∈ Router.G ce4, ∀ kv ∈ e.attrs.weights, ¬(kv.2 = 1)) := by
  refine ⟨?_, ?_⟩ <;> with_unfolding_all decide

end SafePath

namespace SafePath

/-- Witness graph for C6/C7-style runs: a single fully-weighted edge. -/
def c6w : Router := ⟨[mk_row (0, 0) (1/1000, 0) 7 5 9 (some 0) (some 0)]⟩

/-- The branch-and-bound result on `c6w`. -/
def c6w_route : RouteResult :=
  ((branch_and_bound_route c6w (0, 0) (1/1000, 0) "distance" 0).toOption.join).getD
    ⟨[], 0, "", "", ⟨0, 0, 0, 0, 0⟩, [], ⟨0, 0, 0⟩, none⟩

set_option maxRecDepth 400000 in
theorem C6_branch_and_bound_witness :
    is_path (Router.G c6w) (0, 0) (1/1000, 0) c6w_route.path ∧
    c6w_route.path.Nodup ∧
    path_weight (Router.G c6w) ("weight_" ++ "distance") c6w_route.path =
      c6w_route.cost ∧
    c6w_route.path.length ≤ 101 :=
  @C6_branch_and_bound c6w (0, 0) (1/1000, 0) "distance" 0 (0, 0) (1/1000, 0)
    c6w_route (by with_unfolding_all decide) (by with_unfolding_all decide)
    (by with_unfolding_all rfl)

/-- Witness graph for C7: a direct edge of distance 5 and a two-edge detour
of total distance 2. -/
def c7w : Router :=
  ⟨[mk_row (0, 0) (2/1000, 0) 5 0 5 (some 0) (some 0),
    mk_row (0, 0) (1/1000, 0) 1 0 1 (some 0) (some 0),
    mk_row (1/1000, 0) (2/1000, 0) 1 0 1 (some 0) (some 0)]⟩

set_option maxRecDepth 400000 in
theorem C7_k_shortest_paths_witness :
    (k_shortest_paths c7w (0, 0) (2/1000, 0) 3 "distance").length ≤ 3 ∧
    ((k_shortest_paths c7w (0, 0) (2/1000, 0) 3 "distance").get
      ⟨0, by with_unfolding_all decide⟩).rank = 1 := by
  have h := @C7_k_shortest_paths c7w (0, 0) (2/1000, 0) 3 "distance" (0, 0)
    (2/1000, 0) (k_shortest_paths c7w (0, 0) (2/1000, 0) 3 "distance")
    (by with_unfolding_all decide) (by with_unfolding_all decide) rfl
  exact ⟨h.1, h.2.1 0 (by with_unfolding_all decide)⟩

/-- Counterexample data for C8: the row's `harassmentRisk` is NaN (`none`),
which flows through the route untouched by the stats. -/
def ce8 : Router := ⟨[mk_row (0, 0) (1/1000, 0) 7 5 9 (some 0) none]⟩

/-- The computed route over the NaN-carrying row. -/
def ce8_route : RouteResult :=
  (calculate_route ce8 (0, 0) (1/1000, 0) "distance" alg_dijkstra 0).getD
    ⟨[], 0, "", "", ⟨0, 0, 0, 0, 0⟩, [], ⟨0, 0, 0⟩, none⟩

set_option maxRecDepth 400000 in
/-- C8 counterexample: the route computes fine, but the exported GeoJSON of
`export_route_to_geojson` carries the NaN `harassmentRisk` verbatim — the
export boundary is not sanitized. -/
theorem C8_counterexample :
    calculate_route ce8 (0, 0) (1/1000, 0) "distance" alg_dijkstra 0 =
      some ce8_route ∧
    export_nonan (export_route_to_geojson ce8_route) = false := by
  refine ⟨?_, ?_⟩ <;> with_unfolding_all decide

set_option maxRecDepth 400000 in
/-- C9 counterexample: two sequential calls with identical arguments return
different result records — `performance.execution_time_ms` carries the wall
clock of the individual call. -/
theorem C9_counterexample :
    ¬(calculate_route ce4 (0, 0) (1/1000, 0) "distance" alg_dijkstra 0 =
      calculate_route ce4 (0, 0) (1/1000, 0) "distance" alg_dijkstra 1) := by
  with_unfolding_all decide

end SafePath

namespace SafePath

/-- A 101-node chain: the only route from node 0 to node 100 has 101 nodes. -/
def chain_pt (i : ℕ) : Pt := ((i : ℚ), 0)

def ce6 : Router :=
  ⟨(List.range 100).map (fun i =>
    mk_row (chain_pt i) (chain_pt (i + 1)) 1 1 1 (some 0) (some 0))⟩

set_option maxRecDepth 1000000 in
set_option maxHeartbeats 4000000 in
/-- C6 counterexample: `branch_and_bound_route` returns a 101-node path —
the goal test precedes the 100-node prune, so the bound claimed for returned
paths is violated (a simple path of at most 100 nodes between these
endpoints does not exist, so under the claim no result should be returned at
all). -/
theorem C6_counterexample :
    ((branch_and_bound_route ce6 (chain_pt 0) (chain_pt 100) "distance"
        0).toOption.join.map (fun res => res.path.length)) = some 101 := by
  with_unfolding_all decide

end SafePath
